import Mathlib

/-!
# livetribe/semver (package `semver`, directory `v1`)

A shallow embedding of `version.go`, `identifier.go`, `compare.go` and
`sql.go`, and theorems about parsing, formatting and precedence of semantic
versions, about the map view of identifier sequences, and about range
expressions.  The range grammar has no source file in the directory (only its
tests are there); its definitions are modelled from the specification and say
so.

Modelling conventions.

* A Go `string` is an immutable sequence of bytes; it is modelled as
  `Bytes = List Nat` (one number per byte).  Nothing below needs the bytes to
  be smaller than 256, so every theorem over `Bytes` covers every Go string.
* Go `uint64` values are natural numbers; where the code can overflow the
  arithmetic is written with an explicit `% 2 ^ 64`.
* Go `int` results of the `Compare` methods are `Int`.
* A method with a pointer receiver that mutates it (`Version.Set`) takes the
  receiver's state and returns the state after the call together with the
  returned `error` (`none` is Go's `nil`).
* A method that writes through a slice (`Identifiers.set`, `Increment`)
  returns the elements of the slice after the call; where aliasing matters
  slices are addresses into a heap of backing arrays.
-/

namespace Semver

/-- A Go string: its bytes, in order. -/
abbrev Bytes := List Nat

/-- The bytes of an ASCII literal (for ASCII text the code points are the
UTF-8 bytes). Only used to write concrete inputs legibly. -/
def ascii (s : String) : Bytes := s.toList.map Char.toNat

/-- Go `uint64` upper bound, `math.MaxUint64 = 2^64 - 1`. -/
def maxUint64 : Nat := 18446744073709551615

/-! ## Errors -/

/-- The `error` values the package can return, one constructor per
`errors.New` / `fmt.Errorf` site (with the quoted operand) and two for the
`*strconv.NumError` results of `strconv.ParseUint` (`ErrSyntax`, `ErrRange`). -/
inductive Error where
  | versionEmpty
  | noElements
  | majorChar (part : Bytes)
  | majorLeadingZeroes (part : Bytes)
  | minorChar (part : Bytes)
  | minorLeadingZeroes (part : Bytes)
  | patchChar (part : Bytes)
  | patchLeadingZeroes (part : Bytes)
  | numSyntax (s : Bytes)
  | numRange (s : Bytes)
  | identEmpty
  | identLeadingZeroes (s : Bytes)
  | identChar (s : Bytes)
  deriving DecidableEq

/-! ## Constants of `version.go` -/

/-- The constant `numbers = "0123456789"`. -/
def numbers : Bytes := [48, 49, 50, 51, 52, 53, 54, 55, 56, 57]

/-- The constant `alphas = "abc...zABC...Z-"`. -/
def alphas : Bytes :=
  [97, 98, 99, 100, 101, 102, 103, 104, 105, 106, 107, 108, 109,
   110, 111, 112, 113, 114, 115, 116, 117, 118, 119, 120, 121, 122,
   65, 66, 67, 68, 69, 70, 71, 72, 73, 74, 75, 76, 77,
   78, 79, 80, 81, 82, 83, 84, 85, 86, 87, 88, 89, 90, 45]

/-- The constant `alphanum = alphas + numbers`. -/
def alphanum : Bytes := alphas ++ numbers

/-- The constant `versionComponents = 3`. -/
def versionComponents : Nat := 3

/-! ## Standard-library functions the package calls -/

/-- Go `strings.IndexRune(s, r)` for an ASCII rune `r`: the index of the first
byte equal to `r`, or `-1`. -/
def IndexRune : Bytes → Nat → Int
  | [], _ => -1
  | c :: cs, r =>
    if c = r then 0
    else
      let i := IndexRune cs r
      if i = -1 then -1 else i + 1

/-- Go `strings.Split(s, sep)` for a one-byte separator: all the pieces
between separators; always at least one piece. -/
def Split : Bytes → Nat → List Bytes
  | [], _ => [[]]
  | c :: cs, sep =>
    if c = sep then [] :: Split cs sep
    else
      match Split cs sep with
      | [] => [[c]]
      | piece :: pieces => (c :: piece) :: pieces

/-- Go `strings.SplitN(s, sep, n)` for a one-byte separator and `n ≥ 0`: at
most `n` pieces, the last one being the unsplit remainder. -/
def SplitN (s : Bytes) (sep : Nat) : Nat → List Bytes
  | 0 => []
  | 1 => [s]
  | n + 2 =>
    let m := IndexRune s sep
    if m = -1 then [s]
    else s.take m.toNat :: SplitN (s.drop (m.toNat + 1)) sep (n + 1)
termination_by structural n => n

/-- The value of a string of decimal digits read left to right. -/
def decimalValue (s : Bytes) : Nat :=
  s.foldl (fun n c => n * 10 + (c - 48)) 0

/-- Whether a byte is an ASCII decimal digit. -/
def isDigit (c : Nat) : Bool := decide (48 ≤ c) && decide (c ≤ 57)

/-- Go `strconv.ParseUint(s, 10, 64)`, by its documented contract: a syntax
error for the empty string and for any non-digit byte, a range error when the
value does not fit in 64 bits, the value otherwise. -/
def ParseUint (s : Bytes) : Except Error Nat :=
  if s.length = 0 then .error (.numSyntax s)
  else if !s.all isDigit then .error (.numSyntax s)
  else if decimalValue s > maxUint64 then .error (.numRange s)
  else .ok (decimalValue s)

/-- The decimal digits of `n` pushed in front of `acc`; `fuel` bounds the
number of digits produced. -/
def formatDigits : Nat → Nat → Bytes → Bytes
  | 0, _, acc => acc
  | fuel + 1, n, acc =>
    if n < 10 then (48 + n) :: acc
    else formatDigits fuel (n / 10) ((48 + n % 10) :: acc)

/-- Go `strconv.FormatUint(n, 10)` (and the bytes `strconv.AppendUint(b, n, 10)`
appends): the decimal representation of `n` without leading zeroes. A number
has at most `n + 1` digits, so the fuel never runs out. -/
def FormatUint (n : Nat) : Bytes := formatDigits (n + 1) n []

/-! ## `version.go`: helpers -/

/-- Go `containsOnly(s, set)`: no rune of `s` lies outside `set`. Both sets
used by the package are ASCII, and a byte below 128 always decodes to the rune
of the same value while any other byte decodes to a rune of value at least 128
(or to `utf8.RuneError`), so the test is the same on bytes. -/
def containsOnly (s set : Bytes) : Bool :=
  s.all (fun r => set.contains r)

/-- Go `hasLeadingZeroes(s)`: `len(s) > 1 && s[0] == '0'`. -/
def hasLeadingZeroes (s : Bytes) : Bool :=
  decide (s.length > 1) && (s.head? == some 48)

/-! ## `identifier.go` -/

/-- Go `Identifier`. The zero value is `default`. -/
structure Identifier where
  Str : Bytes := []
  Num : Nat := 0
  IsNum : Bool := false
  deriving DecidableEq, Inhabited

/-- Go `Identifiers`. -/
abbrev Identifiers := List Identifier

/-- Go `newIdentifier(s, strict)`. -/
def newIdentifier (s : Bytes) (strict : Bool) : Except Error Identifier :=
  if s.length = 0 then .error .identEmpty
  else if containsOnly s numbers then
    if hasLeadingZeroes s then
      if strict then .error (.identLeadingZeroes s)
      else .ok { Str := s, IsNum := false }
    else
      match ParseUint s with
      | .error err => .error err
      | .ok num => .ok { Num := num, IsNum := true }
  else if containsOnly s alphanum then .ok { Str := s, IsNum := false }
  else .error (.identChar s)

/-- Go's built-in `<` on strings: byte-wise lexical order, a proper prefix
being smaller. -/
def strLess : Bytes → Bytes → Bool
  | [], [] => false
  | [], _ :: _ => true
  | _ :: _, [] => false
  | a :: as, b :: bs =>
    if a < b then true else if b < a then false else strLess as bs

/-- Go `Identifier.Compare`. -/
def Identifier.Compare (id o : Identifier) : Int :=
  if id.IsNum && !o.IsNum then -1
  else if !id.IsNum && o.IsNum then 1
  else if id.IsNum && o.IsNum then
    if id.Num = o.Num then 0
    else if id.Num > o.Num then 1
    else -1
  else
    if id.Str = o.Str then 0
    else if strLess o.Str id.Str then 1
    else -1

/-- Go `Identifier.String`. -/
def Identifier.String (id : Identifier) : Bytes :=
  if id.IsNum then FormatUint id.Num else id.Str

/-- The `for` loop of `Identifiers.Compare` from index `i` on, followed by the
code after the loop. Each iteration consumes one unit of `fuel`; the caller
passes `len(ids)`, which the loop cannot exceed. -/
def Identifiers.compareLoop (ids o : Identifiers) : Nat → Nat → Int
  | 0, i =>
    if ids.length = o.length then 0
    else if i = ids.length ∧ i < o.length then -1
    else 1
  | fuel + 1, i =>
    if h : i < ids.length ∧ i < o.length then
      let comp := (ids.get ⟨i, h.1⟩).Compare (o.get ⟨i, h.2⟩)
      if comp = 0 then Identifiers.compareLoop ids o fuel (i + 1)
      else if comp = 1 then 1
      else -1
    else if ids.length = o.length then 0
    else if i = ids.length ∧ i < o.length then -1
    else 1

/-- Go `Identifiers.Compare`. -/
def Identifiers.Compare (ids o : Identifiers) : Int :=
  if ids.length = 0 ∧ o.length = 0 then 0
  else if ids.length = 0 ∧ o.length > 0 then 1
  else if ids.length > 0 ∧ o.length = 0 then -1
  else Identifiers.compareLoop ids o ids.length 0

/-- Element-wise comparison of two sequences by recursion on both: the first
pair that does not compare `0` decides, and when one sequence runs out the
one with elements left is the greater. `compareLoop_eq_lexCompare` shows that
this is what the loop of `Identifiers.Compare` and the code after it compute. -/
def lexCompare : Identifiers → Identifiers → Int
  | [], [] => 0
  | [], _ :: _ => -1
  | _ :: _, [] => 1
  | a :: as, b :: bs =>
    if a.Compare b = 0 then lexCompare as bs
    else if a.Compare b = 1 then 1
    else -1

/-- Go `Identifiers.String`. -/
def Identifiers.String : Identifiers → Bytes
  | [] => []
  | id :: rest => id.String ++ rest.flatMap (fun id => 46 :: id.String)

/-- Go `Identifiers.Clone`, on values: `make` gives a sequence of `len(ids)`
zero identifiers and `copy` overwrites each with the element of `ids` at the
same index. (The storage the copy lives in is modelled by `Heap.clone`.) -/
def Identifiers.Clone (ids : Identifiers) : Identifiers :=
  (List.replicate ids.length (default : Identifier)).zipWith (fun _ src => src) ids

/-- The loop of `Identifiers.Get` from index `i` on (`i` starts at 1 and grows
by 2), followed by the `return` after the loop. Each iteration consumes one
unit of `fuel`; the caller passes `len(ids)`, more than the loop can use. -/
def Identifiers.getLoop (ids : Identifiers) (key : Bytes) : Nat → Nat → Identifier × Bool
  | 0, _ => (default, false)
  | fuel + 1, i =>
    if h : 1 ≤ i ∧ i < ids.length then
      if !(ids.get ⟨i - 1, by omega⟩).IsNum && (ids.get ⟨i - 1, by omega⟩).Str == key then
        (ids.get ⟨i, h.2⟩, true)
      else Identifiers.getLoop ids key fuel (i + 2)
    else (default, false)

/-- Go `Identifiers.Get`: the value and the found flag. -/
def Identifiers.Get (ids : Identifiers) (key : Bytes) : Identifier × Bool :=
  Identifiers.getLoop ids key ids.length 1

/-- The loop of `Identifiers.Increment` from index `i` on, followed by the
`return` after the loop; the sequence after the call, the returned number and
the found flag. `ids[i].Num++` is `uint64` addition. -/
def Identifiers.incrementLoop (ids : Identifiers) (key : Bytes) :
    Nat → Nat → Identifiers × Nat × Bool
  | 0, _ => (ids, 0, false)
  | fuel + 1, i =>
    if h : 1 ≤ i ∧ i < ids.length then
      if !(ids.get ⟨i - 1, by omega⟩).IsNum && (ids.get ⟨i - 1, by omega⟩).Str == key &&
          (ids.get ⟨i, h.2⟩).IsNum then
        let num := ((ids.get ⟨i, h.2⟩).Num + 1) % 2 ^ 64
        (ids.set i { ids.get ⟨i, h.2⟩ with Num := num }, num, true)
      else Identifiers.incrementLoop ids key fuel (i + 2)
    else (ids, 0, false)

/-- Go `Identifiers.Increment`: the slice's elements after the call (the method
writes into the caller's backing array), the updated number and the found
flag. -/
def Identifiers.Increment (ids : Identifiers) (key : Bytes) : Identifiers × Nat × Bool :=
  Identifiers.incrementLoop ids key ids.length 1

/-- The loop of `Identifiers.Contains` from index `i` on (`i` starts at 1 and
grows by 2), followed by the `return false` after the loop. Each iteration
consumes one unit of `fuel`; the caller passes `len(ids)`, more than the loop
can use. -/
def Identifiers.containsLoop (ids : Identifiers) (key : Bytes) : Nat → Nat → Bool
  | 0, _ => false
  | fuel + 1, i =>
    if h : 1 ≤ i ∧ i < ids.length then
      if !(ids.get ⟨i - 1, by omega⟩).IsNum && (ids.get ⟨i - 1, by omega⟩).Str == key then true
      else Identifiers.containsLoop ids key fuel (i + 2)
    else false

/-- Go `Identifiers.Contains`. -/
def Identifiers.Contains (ids : Identifiers) (key : Bytes) : Bool :=
  Identifiers.containsLoop ids key ids.length 1

/-- The loop of `Identifiers.set` from index `i` on, followed by the `return`
after the loop; the sequence after the call and the found flag. -/
def Identifiers.setLoop (ids : Identifiers) (key : Bytes) (value : Identifier) :
    Nat → Nat → Identifiers × Bool
  | 0, _ => (ids, false)
  | fuel + 1, i =>
    if h : 1 ≤ i ∧ i < ids.length then
      if !(ids.get ⟨i - 1, by omega⟩).IsNum && (ids.get ⟨i - 1, by omega⟩).Str == key then
        (ids.set i value, true)
      else Identifiers.setLoop ids key value fuel (i + 2)
    else (ids, false)

/-- Go `Identifiers.set`: the slice's elements after the call (the method
writes into the caller's backing array) and the found flag. -/
def Identifiers.set (ids : Identifiers) (key : Bytes) (value : Identifier) :
    Identifiers × Bool :=
  Identifiers.setLoop ids key value ids.length 1

/-- Go `Identifiers.SetWithString`. -/
def Identifiers.SetWithString (ids : Identifiers) (key s : Bytes) : Identifiers × Bool :=
  Identifiers.set ids key { Str := s }

/-- Go `Identifiers.SetWithNumber`. -/
def Identifiers.SetWithNumber (ids : Identifiers) (key : Bytes) (n : Nat) : Identifiers × Bool :=
  Identifiers.set ids key { Num := n, IsNum := true }

/-! ## `version.go` -/

/-- Go `Version`. -/
structure Version where
  Major : Nat := 0
  Minor : Nat := 0
  Patch : Nat := 0
  PreRelease : Identifiers := []
  Metadata : Identifiers := []
  deriving DecidableEq, Inhabited

/-- The three checks `Set` applies to each of the major, minor and patch
strings: digits only, no leading zeroes, `strconv.ParseUint`. The two error
constructors are those of the component being checked. -/
def checkNumber (part : Bytes) (badChar leading : Bytes → Error) : Except Error Nat :=
  if !containsOnly part numbers then .error (badChar part)
  else if hasLeadingZeroes part then .error (leading part)
  else ParseUint part

/-- Lines 107-118 of `Set`: from the third top-level part, cut the build
metadata at the first `+`, then the pre-release at the first `-` of what is
left. Returns `(patchStr, prerelease, build)`; an absent list is Go's `nil`. -/
def splitPatch (part : Bytes) : Bytes × List Bytes × List Bytes :=
  let buildIndex := IndexRune part 43
  let build := if buildIndex ≠ -1 then Split (part.drop (buildIndex.toNat + 1)) 46 else []
  let patchStr := if buildIndex ≠ -1 then part.take buildIndex.toNat else part
  let preIndex := IndexRune patchStr 45
  let prerelease := if preIndex ≠ -1 then Split (patchStr.drop (preIndex.toNat + 1)) 46 else []
  let patchStr := if preIndex ≠ -1 then patchStr.take preIndex.toNat else patchStr
  (patchStr, prerelease, build)

/-- The two `for _, str := range ...` loops of `Set`: append
`newIdentifier(str, strict)` to the field for each string in turn; on the first
error the field keeps what was appended so far and the error is returned. -/
def appendIdentifiers (strict : Bool) : Identifiers → List Bytes → Identifiers × Option Error
  | field, [] => (field, none)
  | field, str :: rest =>
    match newIdentifier str strict with
    | .error err => (field, some err)
    | .ok id => appendIdentifiers strict (field ++ [id]) rest

/-- Go `(*Version).Set`: the receiver after the call and the returned error. -/
def Version.Set (v : Version) (s : Bytes) : Version × Option Error :=
  if s.length = 0 then (v, some .versionEmpty)
  else
    match SplitN s 46 3 with
    | [part0, part1, part2] =>
      match checkNumber part0 .majorChar .majorLeadingZeroes with
      | .error err => (v, some err)
      | .ok major =>
      match checkNumber part1 .minorChar .minorLeadingZeroes with
      | .error err => (v, some err)
      | .ok minor =>
      match checkNumber (splitPatch part2).1 .patchChar .patchLeadingZeroes with
      | .error err => (v, some err)
      | .ok patch =>
      match appendIdentifiers true v.PreRelease (splitPatch part2).2.1 with
      | (pre, some err) => ({ v with PreRelease := pre }, some err)
      | (pre, none) =>
      match appendIdentifiers false v.Metadata (splitPatch part2).2.2 with
      | (md, some err) => ({ v with PreRelease := pre, Metadata := md }, some err)
      | (md, none) =>
        ({ Major := major, Minor := minor, Patch := patch, PreRelease := pre, Metadata := md },
          none)
    | _ => (v, some .noElements)

/-- Go `NewVersion`: `Set` on a fresh `Version` with empty sequences; the
version is returned only when `Set` returned no error. -/
def NewVersion (version : Bytes) : Except Error Version :=
  match Version.Set { PreRelease := [], Metadata := [] } version with
  | (_, some err) => .error err
  | (v, none) => .ok v

/-- Go `(*Version).String`. -/
def Version.String (v : Version) : Bytes :=
  let b := FormatUint v.Major ++ [46] ++ FormatUint v.Minor ++ [46] ++ FormatUint v.Patch
  let b :=
    match v.PreRelease with
    | [] => b
    | first :: rest => b ++ [45] ++ first.String ++ rest.flatMap (fun pre => 46 :: pre.String)
  match v.Metadata with
  | [] => b
  | first :: rest => b ++ [43] ++ first.String ++ rest.flatMap (fun data => 46 :: data.String)

/-- Go `(*Version).IncrementMajor`: a new version; the fields the composite
literal does not name (`Minor`, `Patch`) have their zero value. The method
assigns nothing through its receiver. -/
def Version.IncrementMajor (v : Version) : Version :=
  { Major := (v.Major + 1) % 2 ^ 64, PreRelease := [], Metadata := [] }

/-- Go `(*Version).IncrementMinor`: a new version; `Patch` is not named in the
composite literal and has its zero value. The method assigns nothing through
its receiver. -/
def Version.IncrementMinor (v : Version) : Version :=
  { Major := v.Major, Minor := (v.Minor + 1) % 2 ^ 64, PreRelease := [], Metadata := [] }

/-- Go `(*Version).IncrementPatch`: a new version. The method assigns nothing
through its receiver. -/
def Version.IncrementPatch (v : Version) : Version :=
  { Major := v.Major, Minor := v.Minor, Patch := (v.Patch + 1) % 2 ^ 64,
    PreRelease := [], Metadata := [] }

/-- Go `(*Version).CompatibleUnder`. -/
def Version.CompatibleUnder (v o : Version) : Bool :=
  if v.Major ≠ o.Major then false
  else if v.Minor > o.Minor then false
  else true

/-! ## `compare.go` -/

/-- Go `(*Version).Compare`. -/
def Version.Compare (v other : Version) : Int :=
  if v.Major ≠ other.Major then
    if v.Major > other.Major then 1 else -1
  else if v.Minor ≠ other.Minor then
    if v.Minor > other.Minor then 1 else -1
  else if v.Patch ≠ other.Patch then
    if v.Patch > other.Patch then 1 else -1
  else v.PreRelease.Compare other.PreRelease

/-- Go `(*Version).Equals`. -/
def Version.Equals (v o : Version) : Bool := decide (v.Compare o = 0)

/-- Go `(*Version).EQ`. -/
def Version.EQ (v o : Version) : Bool := decide (v.Compare o = 0)

/-- Go `(*Version).NE`. -/
def Version.NE (v o : Version) : Bool := decide (v.Compare o ≠ 0)

/-- Go `(*Version).GT`. -/
def Version.GT (v o : Version) : Bool := decide (v.Compare o > 0)

/-- Go `(*Version).GTE`. -/
def Version.GTE (v o : Version) : Bool := decide (v.Compare o ≥ 0)

/-- Go `(*Version).GE`. -/
def Version.GE (v o : Version) : Bool := decide (v.Compare o ≥ 0)

/-- Go `(*Version).LT`. -/
def Version.LT (v o : Version) : Bool := decide (v.Compare o < 0)

/-- Go `(*Version).LTE`. -/
def Version.LTE (v o : Version) : Bool := decide (v.Compare o ≤ 0)

/-- Go `(*Version).LE`. -/
def Version.LE (v o : Version) : Bool := decide (v.Compare o ≤ 0)

/-! ## `sql.go` -/

/-- The value of a Go `interface{}` as `Scan` tells values apart, by dynamic
type: a `string`, a `[]byte`, or a value of another type. The integer, float
and boolean of the package's test have a constructor of their own, a float
being given by its 64 bits; `other` stands for a value of any further type
(`nil`, `time.Time`, ...), of which `Scan` uses the type name only. -/
inductive Any where
  | string (s : Bytes)
  | bytes (b : Bytes)
  | int (n : Int)
  | float64 (bits : Nat)
  | bool (b : Bool)
  | other (typeName : Bytes)
  deriving DecidableEq

/-- The text `%T` prints for a value: the name of its dynamic type. -/
def Any.typeName : Any → Bytes
  | .string _ => ascii "string"
  | .bytes _ => ascii "[]uint8"
  | .int _ => ascii "int"
  | .float64 _ => ascii "float64"
  | .bool _ => ascii "bool"
  | .other name => name

/-- The errors `Scan` returns: the one it makes itself,
`fmt.Errorf("cannot convert %T to string", src)`, or the error of `Set`. -/
inductive ScanError where
  | cannotConvert (typeName : Bytes)
  | set (err : Error)
  deriving DecidableEq

/-- Go `(*Version).Scan`: the receiver after the call and the returned error.
`string(src)` of a `[]byte` is the same bytes. -/
def Version.Scan (v : Version) (src : Any) : Version × Option ScanError :=
  match src with
  | .string s => ((v.Set s).1, (v.Set s).2.map .set)
  | .bytes b => ((v.Set b).1, (v.Set b).2.map .set)
  | _ => (v, some (.cannotConvert src.typeName))

/-- Go `Version.Value`: the `driver.Value` holding `v.String()` and the `nil`
error. -/
def Version.Value (v : Version) : Any × Option ScanError :=
  (.string v.String, none)

/-! ## Storage of sequences

The map-view methods write into the backing array of the slice they are called
on, so whether two slices share their array matters. Where it does, a slice is
identified with the address of its backing array. -/

/-- One call of a mutating map-view method on a sequence. -/
inductive MapOp where
  | setWithString (key s : Bytes)
  | setWithNumber (key : Bytes) (n : Nat)
  | increment (key : Bytes)
  deriving DecidableEq

/-- The elements of the sequence after the call. -/
def MapOp.apply : MapOp → Identifiers → Identifiers
  | .setWithString key s, ids => (ids.SetWithString key s).1
  | .setWithNumber key n, ids => (ids.SetWithNumber key n).1
  | .increment key, ids => (ids.Increment key).1

/-- The backing arrays of the sequences of a program state, by address; the
addresses from `next` on are not yet in use. -/
structure Heap where
  arrays : Nat → Identifiers
  next : Nat

/-- A `Version` whose two sequences are given by the addresses of their
backing arrays. -/
structure VersionRef where
  Major : Nat
  Minor : Nat
  Patch : Nat
  PreRelease : Nat
  Metadata : Nat
  deriving DecidableEq

/-- The version a reference denotes in a heap. -/
def Heap.version (h : Heap) (r : VersionRef) : Version :=
  { Major := r.Major, Minor := r.Minor, Patch := r.Patch,
    PreRelease := h.arrays r.PreRelease, Metadata := h.arrays r.Metadata }

/-- Go `Identifiers.Clone` on storage: `make` takes a backing array that is not
in use and `copy` fills it; the new slice is returned. -/
def Heap.clone (h : Heap) (a : Nat) : Heap × Nat :=
  ({ arrays := Function.update h.arrays h.next (Identifiers.Clone (h.arrays a)),
     next := h.next + 1 }, h.next)

/-- Go `(*Version).Clone` on storage: the numbers are copied and each sequence
is cloned. -/
def Heap.cloneVersion (h : Heap) (r : VersionRef) : Heap × VersionRef :=
  let pre := h.clone r.PreRelease
  let md := pre.1.clone r.Metadata
  (md.1, { Major := r.Major, Minor := r.Minor, Patch := r.Patch,
           PreRelease := pre.2, Metadata := md.2 })

/-- A mutating map-view call on the slice at address `a`: only that backing
array changes. -/
def Heap.mutate (h : Heap) (a : Nat) (op : MapOp) : Heap :=
  { h with arrays := Function.update h.arrays a (op.apply (h.arrays a)) }

/-- A series of mutating calls, each on the slice at the given address. -/
def Heap.mutateAll (h : Heap) (calls : List (Nat × MapOp)) : Heap :=
  calls.foldl (fun heap call => heap.mutate call.1 call.2) h

/-! ## The range grammar

The file `range.go` is not among the sources: only its tests
(`range_test.go`, `range_internal_test.go`) are. The definitions of this
section are written from section 4.3 of the specification and carry the names
the tests use. -/

/-- Modelled from the spec: the failures of range parsing (`range.go` is
missing); one constructor per failure the specification names: a `||` with no
terms on one side, an unrecognised comparator prefix, an operand that is no
version and no wildcard, a version that does not parse. -/
inductive RangeError where
  | emptyGroup
  | comparator (term : Bytes)
  | operand (term : Bytes)
  | version (err : Error)
  deriving DecidableEq

/-- Modelled from the spec: the comparators of the range grammar (the
`comparator` type of the missing `range.go`), by tag. -/
inductive Comparator where
  | EQ
  | NE
  | GT
  | GE
  | LT
  | LE
  deriving DecidableEq

/-- Modelled from the spec: the comparator functions of the missing
`range.go`, step 5 of the parsing algorithm: `EQ` is `Compare == 0`, `NE` is
`Compare != 0`, `GT` is `Compare > 0`, `GE` is `Compare >= 0`, `LT` is
`Compare < 0`, `LE` is `Compare <= 0`. -/
def Comparator.holds (c : Comparator) (v w : Version) : Bool :=
  match c with
  | .EQ => decide (v.Compare w = 0)
  | .NE => decide (v.Compare w ≠ 0)
  | .GT => decide (v.Compare w > 0)
  | .GE => decide (v.Compare w ≥ 0)
  | .LT => decide (v.Compare w < 0)
  | .LE => decide (v.Compare w ≤ 0)

/-- Modelled from the spec: `parseComparator` of the missing `range.go`, the
fixed operator table of the grammar: nine spellings, the empty one, `=` and
`==` being `EQ`, and `!` and `!=` being `NE`. -/
def parseComparator (op : Bytes) : Option Comparator :=
  if op = ascii ">" then some .GT
  else if op = ascii ">=" then some .GE
  else if op = ascii "<" then some .LT
  else if op = ascii "<=" then some .LE
  else if op = [] ∨ op = ascii "=" ∨ op = ascii "==" then some .EQ
  else if op = ascii "!=" ∨ op = ascii "!" then some .NE
  else none

/-- Modelled from the spec: the comparator characters `<`, `>`, `=`, `!` of
step 3. -/
def isComparatorByte (c : Nat) : Bool := c == 60 || c == 62 || c == 61 || c == 33

/-- Modelled from the spec: a lone comparator token of step 1, made of
comparator characters only. -/
def isLoneComparator (t : Bytes) : Bool := t ≠ [] && t.all isComparatorByte

/-- Modelled from the spec: the re-joining of step 1, a lone comparator token
is put in front of the token that follows it. -/
def rejoin : List Bytes → List Bytes
  | [] => []
  | [t] => [t]
  | t :: u :: rest =>
    if isLoneComparator t then (t ++ u) :: rejoin rest else t :: rejoin (u :: rest)

/-- Modelled from the spec: `splitAndTrim` of the missing `range.go`, step 1:
the expression is split on spaces (the grammar's separator), runs of spaces
yielding no token, and lone comparators are re-joined with their operand. The
literal `||` comes out as a token of its own. -/
def splitAndTrim (s : Bytes) : List Bytes :=
  rejoin ((Split s 32).filter (fun t => t ≠ []))

/-- The token `||`. -/
def orToken : Bytes := [124, 124]

/-- Modelled from the spec: the groups of tokens between `||` tokens. -/
def splitOnOr : List Bytes → List (List Bytes)
  | [] => [[]]
  | t :: ts =>
    if t = orToken then [] :: splitOnOr ts
    else
      match splitOnOr ts with
      | [] => [[t]]
      | g :: gs => (t :: g) :: gs

/-- Modelled from the spec: `splitORParts` of the missing `range.go`, step 2:
the token stream is split at the `||` tokens, and it is a failure when `||` is
the first or last token or has no terms on one side, that is when a group is
empty. -/
def splitORParts (tokens : List Bytes) : Except RangeError (List (List Bytes)) :=
  if (splitOnOr tokens).any (fun g => g.isEmpty) then .error .emptyGroup
  else .ok (splitOnOr tokens)

/-- The wildcards of the range grammar: the whole version (`x` or `*`), the
minor position (`M.x`) and the patch position (`M.m.x`); the tests name them
`majorWildcard`, `minorWildcard` and `patchWildcard`. -/
inductive Wildcard where
  | major
  | minor (M : Nat)
  | patch (M m : Nat)
  deriving DecidableEq

/-- Modelled from the spec: `getWildcardType` of the missing `range.go`: the
wildcard a version token is, if any. The components before the `x` are valid
version numbers. -/
def getWildcard (v : Bytes) : Option Wildcard :=
  if v = ascii "x" ∨ v = ascii "*" then some .major
  else
    match Split v 46 with
    | [M, x] =>
      if x = ascii "x" then
        match checkNumber M .majorChar .majorLeadingZeroes with
        | .ok major => some (.minor major)
        | .error _ => none
      else none
    | [M, m, x] =>
      if x = ascii "x" then
        match checkNumber M .majorChar .majorLeadingZeroes,
          checkNumber m .minorChar .minorLeadingZeroes with
        | .ok major, .ok minor => some (.patch major minor)
        | _, _ => none
      else none
    | _ => none

/-- Modelled from the spec: `splitComparatorVersion` of the missing `range.go`,
step 3: the leading run of comparator characters and the rest of the term; it
is a failure when the run is none of the nine spellings or the rest is neither
a valid version nor a wildcard. -/
def splitComparatorVersion (term : Bytes) : Except RangeError (Bytes × Bytes) :=
  let op := term.takeWhile isComparatorByte
  let v := term.dropWhile isComparatorByte
  if parseComparator op = none then .error (.comparator term)
  else
    match NewVersion v, getWildcard v with
    | .error _, none => .error (.operand term)
    | _, _ => .ok (op, v)

/-- The version string `a.b.c`. -/
def renderCore (a b c : Nat) : Bytes :=
  FormatUint a ++ [46] ++ FormatUint b ++ [46] ++ FormatUint c

/-- Modelled from the spec: the floor of a wildcard, `createVersionFromWildcard`
of the missing `range.go`: `M.0.0` for `M.x` and `M.m.0` for `M.m.x`. -/
def wildcardFloor : Wildcard → Bytes
  | .major => []
  | .minor M => renderCore M 0 0
  | .patch M m => renderCore M m 0

/-- Modelled from the spec: the ceiling of a wildcard (`incrementMajorVersion`,
`incrementMinorVersion` of the missing `range.go`): the last concrete
component is parsed as `uint64`, one is added to it, and the result is
rendered as `major.0.0` or `major.minor.0`. The sum is a `uint64` sum, taken
modulo `2^64` like every other `uint64` sum of the package; the specification
does not say what the increment does at `2^64 - 1`. -/
def wildcardCeiling : Wildcard → Bytes
  | .major => []
  | .minor M => renderCore ((M + 1) % 2 ^ 64) 0 0
  | .patch M m => renderCore M ((m + 1) % 2 ^ 64) 0

/-- Modelled from the spec: the expansion table of step 4 for one term: a term
that is no wildcard is kept, the whole-version wildcard emits no constraint,
and a minor or patch wildcard is rewritten into one or two terms. -/
def expandTerm (term : Bytes) : Except RangeError (List Bytes) :=
  match splitComparatorVersion term with
  | .error err => .error err
  | .ok (op, v) =>
    match getWildcard v with
    | none => .ok [term]
    | some .major => .ok []
    | some w =>
      match parseComparator op with
      | none => .error (.comparator term)
      | some .EQ => .ok [ascii ">=" ++ wildcardFloor w, ascii "<" ++ wildcardCeiling w]
      | some .GE => .ok [ascii ">=" ++ wildcardFloor w]
      | some .LE => .ok [ascii "<" ++ wildcardCeiling w]
      | some .GT => .ok [ascii ">=" ++ wildcardCeiling w]
      | some .LT => .ok [ascii "<" ++ wildcardFloor w]
      | some .NE => .ok [ascii "<" ++ wildcardFloor w, ascii ">=" ++ wildcardCeiling w]

/-- Apply a fallible function to each element in turn; the first failure is
the result. -/
def mapExcept {α β : Type} (f : α → Except RangeError β) : List α → Except RangeError (List β)
  | [] => .ok []
  | a :: as =>
    match f a with
    | .error err => .error err
    | .ok b =>
      match mapExcept f as with
      | .error err => .error err
      | .ok bs => .ok (b :: bs)

/-- Modelled from the spec: `expandWildcardVersion` of the missing `range.go`,
step 4: each term of each group is expanded, the terms a wildcard expands to
staying in the group of the wildcard. -/
def expandWildcardVersion (groups : List (List Bytes)) : Except RangeError (List (List Bytes)) :=
  mapExcept (fun group =>
    match mapExcept expandTerm group with
    | .error err => .error err
    | .ok parts => .ok parts.flatten) groups

/-- Modelled from the spec: the `versionRange` of the missing `range.go`, a
comparator with the version it compares against. -/
structure VersionRange where
  v : Version
  c : Comparator
  deriving DecidableEq

/-- Modelled from the spec: `buildVersionRange` of the missing `range.go`,
step 5: the comparator of the spelling and the parsed version; any failure of
either fails the whole parse. -/
def buildVersionRange (op v : Bytes) : Except RangeError VersionRange :=
  match parseComparator op with
  | none => .error (.comparator op)
  | some c =>
    match NewVersion v with
    | .error err => .error (.version err)
    | .ok version => .ok { v := version, c := c }

/-- Modelled from the spec: the `Range` of the missing `range.go`, a predicate
on versions. -/
abbrev Range := Version → Bool

/-- Modelled from the spec: `versionRange.rangeFunc` of the missing
`range.go`, the predicate of one term. -/
def VersionRange.rangeFunc (vr : VersionRange) : Range :=
  fun v => vr.c.holds v vr.v

/-- Modelled from the spec: `Range.AND` of the missing `range.go`. -/
def Range.AND (r o : Range) : Range := fun v => r v && o v

/-- Modelled from the spec: `Range.OR` of the missing `range.go`. -/
def Range.OR (r o : Range) : Range := fun v => r v || o v

/-- Modelled from the spec: step 6, the terms of a group combine with AND and
the groups with OR. -/
def rangeOfGroups (groups : List (List VersionRange)) : Range :=
  fun v => groups.any (fun group => group.all (fun vr => vr.rangeFunc v))

/-- Modelled from the spec: steps 1 to 5 of `ParseRange` of the missing
`range.go`: the groups of comparator and version the expression denotes. -/
def parseRangeGroups (s : Bytes) : Except RangeError (List (List VersionRange)) :=
  match splitORParts (splitAndTrim s) with
  | .error err => .error err
  | .ok groups =>
    match expandWildcardVersion groups with
    | .error err => .error err
    | .ok expanded =>
      mapExcept (fun group =>
        mapExcept (fun term =>
          match splitComparatorVersion term with
          | .error err => .error err
          | .ok (op, v) => buildVersionRange op v) group) expanded

/-- Modelled from the spec: `ParseRange` of the missing `range.go`: the
predicate of the expression, or the failure. -/
def ParseRange (s : Bytes) : Except RangeError Range :=
  match parseRangeGroups s with
  | .error err => .error err
  | .ok groups => .ok (rangeOfGroups groups)

/-! ## Specifications the code is compared with -/

/-- The strings of a list joined by dots (`strings.Join(l, ".")`). -/
def joinDots : List Bytes → Bytes
  | [] => []
  | t :: ts => t ++ ts.flatMap (fun u => 46 :: u)


/-- An ASCII decimal digit, `0`-`9`. -/
def IsDigitByte (c : Nat) : Prop := 48 ≤ c ∧ c ≤ 57

instance (c : Nat) : Decidable (IsDigitByte c) :=
  inferInstanceAs (Decidable (48 ≤ c ∧ c ≤ 57))

/-- A byte of `[0-9A-Za-z-]`. -/
def IsIdentifierByte (c : Nat) : Prop :=
  (48 ≤ c ∧ c ≤ 57) ∨ (65 ≤ c ∧ c ≤ 90) ∨ (97 ≤ c ∧ c ≤ 122) ∨ c = 45

instance (c : Nat) : Decidable (IsIdentifierByte c) :=
  inferInstanceAs
    (Decidable ((48 ≤ c ∧ c ≤ 57) ∨ (65 ≤ c ∧ c ≤ 90) ∨ (97 ≤ c ∧ c ≤ 122) ∨ c = 45))

/-- A leading zero: more than one byte, the first being `0`. -/
def HasLeadingZero (t : Bytes) : Prop := t.length > 1 ∧ t.head? = some 48

instance (t : Bytes) : Decidable (HasLeadingZero t) :=
  inferInstanceAs (Decidable (t.length > 1 ∧ t.head? = some 48))

/-- A major, minor or patch string of the specification: non-empty, digits
only, no leading zero (so `0` itself is allowed), value at most `2^64 - 1`. -/
def IsNumericComponent (t : Bytes) : Prop :=
  t ≠ [] ∧ (∀ c ∈ t, IsDigitByte c) ∧ ¬ HasLeadingZero t ∧ decimalValue t ≤ 2 ^ 64 - 1

instance (t : Bytes) : Decidable (IsNumericComponent t) :=
  inferInstanceAs (Decidable
    (t ≠ [] ∧ (∀ c ∈ t, IsDigitByte c) ∧ ¬ HasLeadingZero t ∧ decimalValue t ≤ 2 ^ 64 - 1))

/-- A pre-release identifier of the specification: non-empty, over
`[0-9A-Za-z-]`, and when it is digits only it has no leading zero and its value
is at most `2^64 - 1`. -/
def IsPreReleaseIdentifier (t : Bytes) : Prop :=
  t ≠ [] ∧ (∀ c ∈ t, IsIdentifierByte c) ∧
    ((∀ c ∈ t, IsDigitByte c) → ¬ HasLeadingZero t ∧ decimalValue t ≤ 2 ^ 64 - 1)

/-- A build-metadata identifier of the specification: non-empty, over
`[0-9A-Za-z-]`, and when it is digits only without a leading zero its value is
at most `2^64 - 1`. -/
def IsBuildIdentifier (t : Bytes) : Prop :=
  t ≠ [] ∧ (∀ c ∈ t, IsIdentifierByte c) ∧
    ((∀ c ∈ t, IsDigitByte c) → ¬ HasLeadingZero t → decimalValue t ≤ 2 ^ 64 - 1)

/-- An optional dot-separated field: nothing for the empty list, otherwise the
introducing byte followed by the identifiers joined by dots. -/
def segment (lead : Nat) : List Bytes → Bytes
  | [] => []
  | t :: ts => lead :: joinDots (t :: ts)

/-- The shape `M.m.p[-pre][+meta]` of the specification, with the bounds the
parser puts on numbers. An absent field is the empty list of identifiers. -/
def HasVersionShape (s : Bytes) : Prop :=
  ∃ (M m p : Bytes) (pre meta : List Bytes),
    s = M ++ [46] ++ m ++ [46] ++ p ++ segment 45 pre ++ segment 43 meta ∧
      IsNumericComponent M ∧ IsNumericComponent m ∧ IsNumericComponent p ∧
      (∀ t ∈ pre, IsPreReleaseIdentifier t) ∧ (∀ t ∈ meta, IsBuildIdentifier t)

/-- The grammar of Semantic Versioning 2.0.0 (`<valid semver>`): numeric
identifiers are digits without leading zeroes, pre-release identifiers are
non-empty over `[0-9A-Za-z-]` and have no leading zero when numeric, build
identifiers are non-empty over `[0-9A-Za-z-]`. The grammar bounds no number. -/
def IsSemVer (s : Bytes) : Prop :=
  ∃ (M m p : Bytes) (pre meta : List Bytes),
    s = M ++ [46] ++ m ++ [46] ++ p ++ segment 45 pre ++ segment 43 meta ∧
      (∀ n ∈ [M, m, p], n ≠ [] ∧ (∀ c ∈ n, IsDigitByte c) ∧ ¬ HasLeadingZero n) ∧
      (∀ t ∈ pre, t ≠ [] ∧ (∀ c ∈ t, IsIdentifierByte c) ∧
        ((∀ c ∈ t, IsDigitByte c) → ¬ HasLeadingZero t)) ∧
      (∀ t ∈ meta, t ≠ [] ∧ ∀ c ∈ t, IsIdentifierByte c)

/-- The test the map-view methods apply to the element before a value:
`!ids[i-1].IsNum && ids[i-1].Str == key`. -/
def isKey (key : Bytes) (id : Identifier) : Bool := !id.IsNum && id.Str == key

/-- The map view of a sequence holds `key` as a key at index `i`: the index is
even, it is not the last one, and the element there is text equal to `key`. -/
def IsKeyAt (ids : Identifiers) (key : Bytes) (i : Nat) : Prop :=
  i % 2 = 0 ∧ i + 1 < ids.length ∧ isKey key (ids.getD i default) = true

instance (ids : Identifiers) (key : Bytes) (i : Nat) : Decidable (IsKeyAt ids key i) :=
  inferInstanceAs
    (Decidable (i % 2 = 0 ∧ i + 1 < ids.length ∧ isKey key (ids.getD i default) = true))

/-- The index of the first key of the map view that satisfies `p` together
with its value: the elements are taken two by two from the front, and a last
element without a partner is no key. -/
def findPair (p : Identifier → Identifier → Bool) : Identifiers → Option Nat
  | k :: v :: rest => if p k v then some 0 else (findPair p rest).map (· + 2)
  | _ => none

/-- The sequence a.12.b.c.3.d.e of the package's map-view tests. -/
def mapViewExample : Identifiers :=
  [{ Str := ascii "a" }, { Num := 12, IsNum := true }, { Str := ascii "b" },
   { Str := ascii "c" }, { Num := 3, IsNum := true }, { Str := ascii "d" },
   { Str := ascii "e" }]

/-- An identifier of the data model: numeric, or a text token that is not
empty and holds only bytes of `[0-9A-Za-z-]`. -/
def IsValidIdentifier (id : Identifier) : Prop :=
  id.IsNum = true ∨ (id.Str ≠ [] ∧ ∀ c ∈ id.Str, IsIdentifierByte c)

instance (id : Identifier) : Decidable (IsValidIdentifier id) :=
  inferInstanceAs (Decidable (id.IsNum = true ∨ (id.Str ≠ [] ∧ ∀ c ∈ id.Str, IsIdentifierByte c)))

/-- The call stores nothing but a token: the string given to `SetWithString`
is not empty and holds only bytes of `[0-9A-Za-z-]`. The other calls store no
string. -/
def MapOp.StoresToken : MapOp → Prop
  | .setWithString _ s => s ≠ [] ∧ ∀ c ∈ s, IsIdentifierByte c
  | .setWithNumber _ _ => True
  | .increment _ => True

instance (op : MapOp) : Decidable op.StoresToken :=
  match op with
  | .setWithString _ s => inferInstanceAs (Decidable (s ≠ [] ∧ ∀ c ∈ s, IsIdentifierByte c))
  | .setWithNumber _ _ => inferInstanceAs (Decidable True)
  | .increment _ => inferInstanceAs (Decidable True)

/-- The tokens of a list joined by single spaces. -/
def joinSpaces : List Bytes → Bytes
  | [] => []
  | t :: ts => t ++ ts.flatMap (fun u => 32 :: u)

/-- A term of a range expression as it is written and as it is meant: the
spelling of its comparator, the text of its version, and the comparator and
version these stand for. -/
structure WrittenTerm where
  op : Bytes
  text : Bytes
  c : Comparator
  w : Version

/-- The term is well written: its spelling is one of the nine of the operator
table, for its comparator, and its text parses to its version. -/
def WrittenTerm.WellFormed (t : WrittenTerm) : Prop :=
  parseComparator t.op = some t.c ∧ NewVersion t.text = .ok t.w

/-- The tokens of a range expression: the terms of each group, comparator
glued to version, with a `||` token between two groups. -/
def tokenStream : List (List WrittenTerm) → List Bytes
  | [] => []
  | [g] => g.map (fun t => t.op ++ t.text)
  | g :: gs => g.map (fun t => t.op ++ t.text) ++ orToken :: tokenStream gs

/-- The range expression made of the given groups of terms: terms separated by
a space, groups by `||` between spaces. -/
def renderRange (groups : List (List WrittenTerm)) : Bytes :=
  joinSpaces (tokenStream groups)

/-- What the specification says a range accepts: a version that, for at least
one group, satisfies every term of the group. -/
def acceptsSpec (groups : List (List WrittenTerm)) (v : Version) : Bool :=
  groups.any (fun g => g.all (fun t => t.c.holds v t.w))

/-- What the specification says a comparator asks of the integer
`v.Compare(w)`: `EQ` that it is zero, `NE` that it is not, `GT` that it is
positive, `GE` that it is not negative, `LT` that it is negative, `LE` that it
is not positive. -/
def Comparator.Satisfied (c : Comparator) (n : Int) : Prop :=
  match c with
  | .EQ => n = 0
  | .NE => n ≠ 0
  | .GT => n > 0
  | .GE => n ≥ 0
  | .LT => n < 0
  | .LE => n ≤ 0

instance (c : Comparator) (n : Int) : Decidable (c.Satisfied n) :=
  match c with
  | .EQ => inferInstanceAs (Decidable (n = 0))
  | .NE => inferInstanceAs (Decidable (n ≠ 0))
  | .GT => inferInstanceAs (Decidable (n > 0))
  | .GE => inferInstanceAs (Decidable (n ≥ 0))
  | .LT => inferInstanceAs (Decidable (n < 0))
  | .LE => inferInstanceAs (Decidable (n ≤ 0))

/-- The terms of the compound expression `>1.2.2 <1.2.4 || >=2.0.0 <3.0.0`,
group by group. -/
def compoundExample : List (List WrittenTerm) :=
  [[{ op := ascii ">", text := ascii "1.2.2", c := .GT,
      w := { Major := 1, Minor := 2, Patch := 2 } },
    { op := ascii "<", text := ascii "1.2.4", c := .LT,
      w := { Major := 1, Minor := 2, Patch := 4 } }],
   [{ op := ascii ">=", text := ascii "2.0.0", c := .GE,
      w := { Major := 2, Minor := 0, Patch := 0 } },
    { op := ascii "<", text := ascii "3.0.0", c := .LT,
      w := { Major := 3, Minor := 0, Patch := 0 } }]]

/-- The wildcard `M.x` as it is written. -/
def writeMinorWildcard (M : Nat) : Bytes := FormatUint M ++ ascii ".x"

/-- The wildcard `M.m.x` as it is written. -/
def writePatchWildcard (M m : Nat) : Bytes :=
  FormatUint M ++ [46] ++ FormatUint m ++ ascii ".x"

/-- The nine comparator spellings of the grammar, the empty one last. -/
def comparatorSpellings : List Bytes :=
  [ascii ">", ascii ">=", ascii "<", ascii "<=", ascii "=", ascii "==", ascii "!=",
    ascii "!", []]

/-- The comparator prefix of a term is unrecognised: its leading run of the
characters `<`, `>`, `=`, `!` is none of the nine spellings. -/
def BadComparator (t : Bytes) : Prop :=
  t.takeWhile isComparatorByte ∉ comparatorSpellings

instance (t : Bytes) : Decidable (BadComparator t) :=
  inferInstanceAs (Decidable (t.takeWhile isComparatorByte ∉ comparatorSpellings))

/-- The operand of a term, what follows its comparator prefix, is neither a
valid version nor a wildcard. -/
def BadOperand (t : Bytes) : Prop :=
  (∀ v, NewVersion (t.dropWhile isComparatorByte) ≠ .ok v) ∧
    getWildcard (t.dropWhile isComparatorByte) = none

/-- What the specification calls a malformed range expression: the empty
string, one whose first or last token is `||`, or one with a term whose
comparator prefix is unrecognised or whose operand is no version and no
wildcard. -/
def Malformed (s : Bytes) : Prop :=
  s = [] ∨ (splitAndTrim s).head? = some orToken ∨
    (splitAndTrim s).getLast? = some orToken ∨
    ∃ t ∈ splitAndTrim s, t ≠ orToken ∧ (BadComparator t ∨ BadOperand t)

/-- The eight version strings of the precedence example of Semantic
Versioning 2.0.0, lowest first. -/
def precedenceChain : List Bytes :=
  [ascii "1.0.0-alpha", ascii "1.0.0-alpha.1", ascii "1.0.0-alpha.beta", ascii "1.0.0-beta",
    ascii "1.0.0-beta.2", ascii "1.0.0-beta.11", ascii "1.0.0-rc.1", ascii "1.0.0"]

/-- The versions the strings of `precedenceChain` stand for. -/
def precedenceVersions : List Version :=
  [{ Major := 1, PreRelease := [{ Str := ascii "alpha" }] },
    { Major := 1, PreRelease := [{ Str := ascii "alpha" }, { Num := 1, IsNum := true }] },
    { Major := 1, PreRelease := [{ Str := ascii "alpha" }, { Str := ascii "beta" }] },
    { Major := 1, PreRelease := [{ Str := ascii "beta" }] },
    { Major := 1, PreRelease := [{ Str := ascii "beta" }, { Num := 2, IsNum := true }] },
    { Major := 1, PreRelease := [{ Str := ascii "beta" }, { Num := 11, IsNum := true }] },
    { Major := 1, PreRelease := [{ Str := ascii "rc" }, { Num := 1, IsNum := true }] },
    { Major := 1 }]

/-- A version whose fields are such as the parser makes them: the three
numbers fit in 64 bits, and every identifier is what `newIdentifier` makes of
the identifier's own string, strictly for the pre-release and leniently for
the build metadata. -/
def Version.WellFormed (v : Version) : Prop :=
  v.Major ≤ maxUint64 ∧ v.Minor ≤ maxUint64 ∧ v.Patch ≤ maxUint64 ∧
    (∀ id ∈ v.PreRelease, newIdentifier id.String true = .ok id) ∧
    (∀ id ∈ v.Metadata, newIdentifier id.String false = .ok id)

/-- The constructed versions: those `NewVersion` returns, and those obtained
from a constructed version by `IncrementMajor`, `IncrementMinor` or
`IncrementPatch`. -/
inductive Constructed : Version → Prop where
  | parsed (s : Bytes) (v : Version) (h : NewVersion s = .ok v) : Constructed v
  | incrementMajor (v : Version) (h : Constructed v) : Constructed v.IncrementMajor
  | incrementMinor (v : Version) (h : Constructed v) : Constructed v.IncrementMinor
  | incrementPatch (v : Version) (h : Constructed v) : Constructed v.IncrementPatch

/-- A version string with its build-metadata suffix removed: what stands
before the first `+`. -/
def stripMetadata (s : Bytes) : Bytes := s.takeWhile (fun c => c ≠ 43)

/-- A component that reads as a number too large for `uint64`: digits only,
with a decimal value above `2^64 - 1`. -/
def Overflows (t : Bytes) : Prop :=
  (∀ c ∈ t, IsDigitByte c) ∧ decimalValue t > 2 ^ 64 - 1

instance (t : Bytes) : Decidable (Overflows t) :=
  inferInstanceAs (Decidable ((∀ c ∈ t, IsDigitByte c) ∧ decimalValue t > 2 ^ 64 - 1))

/-- Three-way comparison of identifiers as the specification words it: a
numeric identifier is below every text identifier, two numeric identifiers
compare by value, two text identifiers in the lexical order of their bytes. -/
def Identifier.compareSpec (id o : Identifier) : Int :=
  match id.IsNum, o.IsNum with
  | true, false => -1
  | false, true => 1
  | true, true => if id.Num < o.Num then -1 else if id.Num = o.Num then 0 else 1
  | false, false =>
    if List.Lex (· < ·) id.Str o.Str then -1 else if id.Str = o.Str then 0 else 1

/-- Three-way comparison of versions as the specification words it: the first
of major, minor, patch (in that order) that differs decides, `1` when the
receiver's field is the greater and `-1` when it is the smaller; when none
differs the pre-release sequences are compared. -/
def Version.compareSpec (v o : Version) : Int :=
  match [(v.Major, o.Major), (v.Minor, o.Minor), (v.Patch, o.Patch)].find?
      (fun p => decide (p.1 ≠ p.2)) with
  | some p => if p.1 > p.2 then 1 else -1
  | none => v.PreRelease.Compare o.PreRelease

/-! ## Facts about the comparison of identifiers -/

theorem strLess_irrefl (a : Bytes) : strLess a a = false := by
  induction a with
  | nil => rfl
  | cons x xs ih => simp [strLess, ih]

theorem strLess_asymm : ∀ (a b : Bytes), strLess a b = true → strLess b a = false
  | [], [], h => by simp [strLess] at h
  | [], _ :: _, _ => by simp [strLess]
  | _ :: _, [], h => by simp [strLess] at h
  | x :: xs, y :: ys, h => by
    simp only [strLess] at h ⊢
    split_ifs at h ⊢ with h1 h2 h3
    all_goals first | omega | exact strLess_asymm xs ys h | simp_all

theorem strLess_total : ∀ (a b : Bytes), a ≠ b → strLess a b = true ∨ strLess b a = true
  | [], [], h => by simp at h
  | [], _ :: _, _ => by simp [strLess]
  | _ :: _, [], _ => by simp [strLess]
  | x :: xs, y :: ys, h => by
    simp only [strLess]
    by_cases h1 : x < y
    · simp [h1]
    · by_cases h2 : y < x
      · simp [h2]
      · have hxy : x = y := by omega
        subst hxy
        simpa using strLess_total xs ys (fun e => h (by rw [e]))

theorem strLess_trans : ∀ (a b c : Bytes), strLess a b = true → strLess b c = true →
    strLess a c = true
  | [], _, [], _, h2 => by cases ‹Bytes› <;> simp [strLess] at h2
  | [], _, _ :: _, _, _ => by simp [strLess]
  | _ :: _, [], _, h1, _ => by simp [strLess] at h1
  | _ :: _, _ :: _, [], _, h2 => by simp [strLess] at h2
  | x :: xs, y :: ys, z :: zs, h1, h2 => by
    simp only [strLess] at h1 h2 ⊢
    split_ifs at h1 h2 ⊢ with g1 g2 g3 g4 g5 g6
    all_goals first | omega | rfl | exact strLess_trans xs ys zs h1 h2

theorem strLess_iff_lex : ∀ (a b : Bytes), strLess a b = true ↔ List.Lex (· < ·) a b
  | [], [] => by simp [strLess]
  | [], _ :: _ => by simp [strLess, List.Lex.nil]
  | _ :: _, [] => by simp [strLess]
  | x :: xs, y :: ys => by
    simp only [strLess]
    constructor
    · intro h
      split_ifs at h with h1 h2
      · exact List.Lex.rel h1
      · have hxy : x = y := by omega
        subst hxy
        exact List.Lex.cons ((strLess_iff_lex xs ys).1 h)
    · intro h
      cases h with
      | cons h' => simp [(strLess_iff_lex xs ys).2 h']
      | rel h' => simp [h']

theorem identifier_compare_values (a b : Identifier) :
    a.Compare b = -1 ∨ a.Compare b = 0 ∨ a.Compare b = 1 := by
  unfold Identifier.Compare
  split_ifs <;> simp

theorem identifier_compare_self (a : Identifier) : a.Compare a = 0 := by
  unfold Identifier.Compare
  cases a.IsNum <;> simp

theorem identifier_compare_antisymm (a b : Identifier) : a.Compare b = -(b.Compare a) := by
  unfold Identifier.Compare
  cases ha : a.IsNum <;> cases hb : b.IsNum <;> simp
  · by_cases h : a.Str = b.Str
    · simp [h]
    · have h' : ¬ b.Str = a.Str := fun e => h e.symm
      rcases strLess_total _ _ h with h1 | h1
      · simp [h, h', h1, strLess_asymm _ _ h1]
      · simp [h, h', h1, strLess_asymm _ _ h1]
  · split_ifs <;> omega

/-- From `a.Compare b ≤ 0` and `b.Compare c ≤ 0` follows `a.Compare c ≤ 0`, strictly
when one of the two is strict. -/
theorem identifier_compare_trans (a b c : Identifier)
    (h1 : a.Compare b ≤ 0) (h2 : b.Compare c ≤ 0) :
    a.Compare c ≤ 0 ∧ (a.Compare b < 0 ∨ b.Compare c < 0 → a.Compare c < 0) := by
  unfold Identifier.Compare at *
  cases ha : a.IsNum <;> cases hb : b.IsNum <;> cases hc : c.IsNum <;>
    simp only [ha, hb, hc] at h1 h2 ⊢ <;> simp at h1 h2 ⊢
  · by_cases e1 : a.Str = b.Str
    · rw [e1]
      by_cases e2 : b.Str = c.Str
      · simp [e2]
      · simp only [e2, if_false] at h2 ⊢
        split_ifs at h2 ⊢ <;> simp_all
    · simp only [e1, if_false] at h1
      have l1 : strLess b.Str a.Str = false := by
        split_ifs at h1 <;> simp_all
      have l1' : strLess a.Str b.Str = true := by
        rcases strLess_total _ _ e1 with h | h
        · exact h
        · rw [l1] at h; cases h
      by_cases e2 : b.Str = c.Str
      · rw [← e2]; simp [e1, l1]
      · simp only [e2, if_false] at h2
        have l2 : strLess c.Str b.Str = false := by
          split_ifs at h2 <;> simp_all
        have l2' : strLess b.Str c.Str = true := by
          rcases strLess_total _ _ e2 with h | h
          · exact h
          · rw [l2] at h; cases h
        have l3 := strLess_trans _ _ _ l1' l2'
        have e3 : a.Str ≠ c.Str := by
          intro e; rw [e, strLess_irrefl] at l3; cases l3
        simp [e3, strLess_asymm _ _ l3]
  · split_ifs at h1 h2 ⊢ <;> omega

theorem identifier_compare_congr_left (a b c : Identifier) (h : a.Compare b = 0) :
    a.Compare c = b.Compare c := by
  unfold Identifier.Compare at *
  cases ha : a.IsNum <;> cases hb : b.IsNum <;> cases hc : c.IsNum <;>
    simp only [ha, hb, hc] at h ⊢ <;> simp at h ⊢
  · have e : a.Str = b.Str := by
      by_contra e
      simp only [e, if_false] at h
      split_ifs at h <;> simp at h
    rw [e]
  · have e : a.Num = b.Num := by
      by_contra e
      simp only [e, if_false] at h
      split_ifs at h <;> simp at h
    rw [e]

/-! ## The loop of `Identifiers.Compare` -/

theorem lexCompare_values : ∀ (a b : Identifiers),
    lexCompare a b = -1 ∨ lexCompare a b = 0 ∨ lexCompare a b = 1
  | [], [] => by simp [lexCompare]
  | [], _ :: _ => by simp [lexCompare]
  | _ :: _, [] => by simp [lexCompare]
  | x :: xs, y :: ys => by
    simp only [lexCompare]
    split_ifs
    · exact lexCompare_values xs ys
    · simp
    · simp

theorem lexCompare_self (a : Identifiers) : lexCompare a a = 0 := by
  induction a with
  | nil => rfl
  | cons x xs ih => simp [lexCompare, identifier_compare_self, ih]

theorem lexCompare_antisymm : ∀ (a b : Identifiers), lexCompare a b = -(lexCompare b a)
  | [], [] => by simp [lexCompare]
  | [], _ :: _ => by simp [lexCompare]
  | _ :: _, [] => by simp [lexCompare]
  | x :: xs, y :: ys => by
    simp only [lexCompare]
    have h := identifier_compare_antisymm x y
    rcases identifier_compare_values y x with h1 | h1 | h1 <;> rw [h1] at h <;>
      simp [h, h1, lexCompare_antisymm xs ys]

theorem lexCompare_trans : ∀ (a b c : Identifiers),
    lexCompare a b ≤ 0 → lexCompare b c ≤ 0 →
    lexCompare a c ≤ 0 ∧ (lexCompare a b < 0 ∨ lexCompare b c < 0 → lexCompare a c < 0)
  | [], [], c, _, h2 => by
    refine ⟨h2, fun h => ?_⟩
    rcases h with h | h
    · simp [lexCompare] at h
    · exact h
  | [], _ :: _, [], _, h2 => by simp [lexCompare] at h2
  | [], _ :: _, _ :: _, _, _ => by simp [lexCompare]
  | _ :: _, [], _, h1, _ => by simp [lexCompare] at h1
  | _ :: _, _ :: _, [], _, h2 => by simp [lexCompare] at h2
  | x :: xs, y :: ys, z :: zs, h1, h2 => by
    simp only [lexCompare] at h1 h2 ⊢
    have vxy := identifier_compare_values x y
    have vyz := identifier_compare_values y z
    have vxz := identifier_compare_values x z
    by_cases e1 : x.Compare y = 0
    · have c1 := identifier_compare_congr_left x y z e1
      by_cases e2 : y.Compare z = 0
      · have e3 : x.Compare z = 0 := by rw [c1, e2]
        simp only [e1, e2, e3, if_true] at h1 h2 ⊢
        exact lexCompare_trans xs ys zs h1 h2
      · have l2 : y.Compare z = -1 := by
          rcases vyz with h | h | h
          · exact h
          · exact absurd h e2
          · rw [h] at h2; simp at h2
        simp [c1, l2]
    · have l1 : x.Compare y = -1 := by
        rcases vxy with h | h | h
        · exact h
        · exact absurd h e1
        · rw [h] at h1; simp at h1
      have l2 : y.Compare z ≤ 0 := by
        rcases vyz with h | h | h
        · omega
        · omega
        · rw [h] at h2; simp at h2
      have t := (identifier_compare_trans x y z (by omega) l2).2 (Or.inl (by omega))
      have l3 : x.Compare z = -1 := by omega
      simp [l3]

/-- The loop of `Identifiers.Compare`, entered at an index within both
sequences and with enough fuel left to reach the end of `ids`, computes
`lexCompare` of what is left of the two sequences: the fuel is never exhausted
before the loop ends. -/
theorem compareLoop_eq_lexCompare (ids o : Identifiers) :
    ∀ (fuel i : Nat), ids.length ≤ fuel + i → i ≤ ids.length → i ≤ o.length →
      Identifiers.compareLoop ids o fuel i = lexCompare (ids.drop i) (o.drop i) := by
  intro fuel
  induction fuel with
  | zero =>
    intro i hf hi ho
    have hi' : i = ids.length := by omega
    simp only [Identifiers.compareLoop]
    rw [hi', List.drop_length]
    by_cases hlen : ids.length = o.length
    · rw [hlen, List.drop_length]; simp [hlen, lexCompare]
    · have hlt : ids.length < o.length := by omega
      rw [List.drop_eq_getElem_cons hlt]
      simp [hlen, hlt, lexCompare]
  | succ fuel ih =>
    intro i hf hi ho
    simp only [Identifiers.compareLoop]
    by_cases h : i < ids.length ∧ i < o.length
    · rw [dif_pos h, List.drop_eq_getElem_cons h.1, List.drop_eq_getElem_cons h.2]
      simp only [lexCompare, List.get_eq_getElem]
      rw [ih (i + 1) (by omega) (by omega) (by omega)]
    · rw [dif_neg h]
      by_cases hlen : ids.length = o.length
      · have hi' : i = ids.length := by omega
        rw [hi', List.drop_length, hlen, List.drop_length]; simp [lexCompare]
      · by_cases hlt : i = ids.length
        · have hlt' : i < o.length := by omega
          have e : ids.drop i = [] := List.drop_eq_nil_of_le (by omega)
          rw [List.drop_eq_getElem_cons hlt', e]
          have hlt2 : ids.length < o.length := by omega
          simp [hlen, hlt, hlt2, lexCompare]
        · have hlt' : i < ids.length := by omega
          have ho' : i = o.length := by omega
          have e : o.drop i = [] := List.drop_eq_nil_of_le (by omega)
          rw [List.drop_eq_getElem_cons hlt', e]
          simp [hlen, hlt, lexCompare]

/-- What `Identifiers.Compare` computes, by cases on the two sequences. -/
theorem identifiers_compare_eq (ids o : Identifiers) :
    Identifiers.Compare ids o =
      match ids, o with
      | [], [] => 0
      | [], _ :: _ => 1
      | _ :: _, [] => -1
      | a :: as, b :: bs => lexCompare (a :: as) (b :: bs) := by
  unfold Identifiers.Compare
  cases ids with
  | nil => cases o <;> simp
  | cons a as =>
    cases o with
    | nil => simp
    | cons b bs =>
      simp only [List.length_cons, Nat.add_one_ne_zero, false_and, and_false, if_false]
      rw [compareLoop_eq_lexCompare _ _ _ 0 (by simp) (by simp) (by simp)]
      simp

theorem identifiers_compare_values (a b : Identifiers) :
    a.Compare b = -1 ∨ a.Compare b = 0 ∨ a.Compare b = 1 := by
  rw [identifiers_compare_eq]
  cases a <;> cases b <;> simp
  exact lexCompare_values _ _

theorem identifiers_compare_self (a : Identifiers) : a.Compare a = 0 := by
  rw [identifiers_compare_eq]
  cases a
  · rfl
  · exact lexCompare_self _

theorem identifiers_compare_antisymm (a b : Identifiers) : a.Compare b = -(b.Compare a) := by
  rw [identifiers_compare_eq, identifiers_compare_eq]
  cases a <;> cases b <;> simp
  exact lexCompare_antisymm _ _

theorem identifiers_compare_trans (a b c : Identifiers)
    (h1 : a.Compare b ≤ 0) (h2 : b.Compare c ≤ 0) :
    a.Compare c ≤ 0 ∧ (a.Compare b < 0 ∨ b.Compare c < 0 → a.Compare c < 0) := by
  rw [identifiers_compare_eq] at h1 h2 ⊢
  rw [identifiers_compare_eq a b, identifiers_compare_eq b c]
  cases a <;> cases b <;> cases c <;> simp at h1 h2 ⊢
  exact lexCompare_trans _ _ _ h1 h2

/-! ## Precedence of versions -/

/-- C3: `v.Compare(o)` is decided by the first of Major, Minor, Patch (in that
order, as unsigned integers) that differs, `1` when the field of `v` is the
greater and `-1` when it is the smaller, and equals
`v.PreRelease.Compare(o.PreRelease)` when all three are equal; the result is
always one of -1, 0, 1. -/
theorem version_compare_lexicographic (v o : Version) :
    v.Compare o = v.compareSpec o ∧
      (v.Major = o.Major → v.Minor = o.Minor → v.Patch = o.Patch →
        v.Compare o = v.PreRelease.Compare o.PreRelease) ∧
      (v.Compare o = -1 ∨ v.Compare o = 0 ∨ v.Compare o = 1) := by
  refine ⟨?_, ?_, ?_⟩
  · unfold Version.Compare Version.compareSpec
    by_cases h1 : v.Major = o.Major
    · by_cases h2 : v.Minor = o.Minor
      · by_cases h3 : v.Patch = o.Patch
        · simp [h1, h2, h3, List.find?]
        · simp [h1, h2, h3, List.find?]
      · simp [h1, h2, List.find?]
    · simp [h1, List.find?]
  · intro h1 h2 h3
    simp [Version.Compare, h1, h2, h3]
  · unfold Version.Compare
    split_ifs
    all_goals first | exact identifiers_compare_values _ _ | simp

/-- Witness for C3 on 1.2.3-alpha against 1.2.3: equal cores, so the
pre-release sequences decide. -/
theorem version_compare_lexicographic_witness :
    Version.Compare { Major := 1, Minor := 2, Patch := 3, PreRelease := [{ Str := ascii "alpha" }] }
        { Major := 1, Minor := 2, Patch := 3 } =
      Identifiers.Compare [{ Str := ascii "alpha" }] [] :=
  (version_compare_lexicographic
    { Major := 1, Minor := 2, Patch := 3, PreRelease := [{ Str := ascii "alpha" }] }
    { Major := 1, Minor := 2, Patch := 3 }).2.1 rfl rfl rfl

/-- C6: for every pair of versions exactly one of EQ, LT, GT holds, and
NE = !EQ, GE = GTE = !LT, LE = LTE = !GT, Equals = EQ. -/
theorem comparison_operators_exclusive (v o : Version) :
    ((v.EQ o = true ∧ v.LT o = false ∧ v.GT o = false) ∨
      (v.EQ o = false ∧ v.LT o = true ∧ v.GT o = false) ∨
      (v.EQ o = false ∧ v.LT o = false ∧ v.GT o = true)) ∧
    v.NE o = !v.EQ o ∧
    v.GE o = v.GTE o ∧ v.GTE o = !v.LT o ∧
    v.LE o = v.LTE o ∧ v.LTE o = !v.GT o ∧
    v.Equals o = v.EQ o := by
  simp only [Version.EQ, Version.LT, Version.GT, Version.NE, Version.GE, Version.GTE,
    Version.LE, Version.LTE, Version.Equals]
  rcases lt_trichotomy (v.Compare o) 0 with h | h | h
  · have h1 : ¬ v.Compare o = 0 := by omega
    have h2 : ¬ v.Compare o > 0 := by omega
    have h3 : ¬ v.Compare o ≥ 0 := by omega
    have h4 : v.Compare o ≤ 0 := by omega
    simp [h, h1, h2, h3, h4]
  · simp [h]
  · have h1 : ¬ v.Compare o = 0 := by omega
    have h2 : ¬ v.Compare o < 0 := by omega
    have h3 : v.Compare o ≥ 0 := by omega
    have h4 : ¬ v.Compare o ≤ 0 := by omega
    simp [h, h1, h2, h3, h4]

/-- C7: a version without pre-release outranks every version with the same
Major, Minor, Patch and a non-empty pre-release; at the sequence level the
empty sequence compares greater than the non-empty one. -/
theorem release_outranks_prerelease (v r : Version)
    (hpre : v.PreRelease ≠ []) (hrel : r.PreRelease = [])
    (hmajor : r.Major = v.Major) (hminor : r.Minor = v.Minor) (hpatch : r.Patch = v.Patch) :
    r.Compare v = 1 ∧ v.Compare r = -1 ∧
      Identifiers.Compare [] v.PreRelease = 1 ∧ Identifiers.Compare v.PreRelease [] = -1 := by
  have hseq : Identifiers.Compare [] v.PreRelease = 1 ∧
      Identifiers.Compare v.PreRelease [] = -1 := by
    rw [identifiers_compare_eq, identifiers_compare_eq]
    cases hp : v.PreRelease with
    | nil => exact absurd hp hpre
    | cons a as => simp
  refine ⟨?_, ?_, hseq.1, hseq.2⟩
  · simp [Version.Compare, hmajor, hminor, hpatch, hrel, hseq.1]
  · simp [Version.Compare, hmajor, hminor, hpatch, hrel, hseq.2]

/-- Witness for C7: 1.0.0 against 1.0.0-alpha. -/
theorem release_outranks_prerelease_witness :
    Version.Compare { Major := 1 } { Major := 1, PreRelease := [{ Str := ascii "alpha" }] } = 1 ∧
      Version.Compare { Major := 1, PreRelease := [{ Str := ascii "alpha" }] } { Major := 1 } = -1 ∧
      Identifiers.Compare [] [{ Str := ascii "alpha" }] = 1 ∧
      Identifiers.Compare [{ Str := ascii "alpha" }] [] = -1 :=
  release_outranks_prerelease { Major := 1, PreRelease := [{ Str := ascii "alpha" }] }
    { Major := 1 } (by decide) rfl rfl rfl rfl

/-- C8: build metadata never takes part in ordering: replacing the metadata of
either version by any sequence leaves `Compare` unchanged; the parsed versions
1.2.3-alpha.0+build.001 and 1.2.3-alpha.0+build.002 differ in metadata and
compare equal. -/
theorem metadata_not_compared (v o : Version) (m1 m2 : Identifiers) :
    Version.Compare { v with Metadata := m1 } { o with Metadata := m2 } = v.Compare o ∧
      ∃ a b, NewVersion (ascii "1.2.3-alpha.0+build.001") = .ok a ∧
        NewVersion (ascii "1.2.3-alpha.0+build.002") = .ok b ∧
        a.Metadata ≠ b.Metadata ∧ a.Compare b = 0 := by
  refine ⟨rfl, _, _, rfl, rfl, ?_, ?_⟩
  · decide
  · decide

/-- The three ways `Version.Compare` can come out: the cores (major, minor,
patch) are in lexicographic order one way or the other, or they are equal and
the pre-release sequences decide. -/
theorem version_compare_cases (v o : Version) :
    ((v.Major < o.Major ∨ (v.Major = o.Major ∧ (v.Minor < o.Minor ∨
        (v.Minor = o.Minor ∧ v.Patch < o.Patch)))) ∧ v.Compare o = -1) ∨
    ((o.Major < v.Major ∨ (o.Major = v.Major ∧ (o.Minor < v.Minor ∨
        (o.Minor = v.Minor ∧ o.Patch < v.Patch)))) ∧ v.Compare o = 1) ∨
    ((v.Major = o.Major ∧ v.Minor = o.Minor ∧ v.Patch = o.Patch) ∧
      v.Compare o = v.PreRelease.Compare o.PreRelease) := by
  unfold Version.Compare
  by_cases h1 : v.Major = o.Major
  · by_cases h2 : v.Minor = o.Minor
    · by_cases h3 : v.Patch = o.Patch
      · simp [h1, h2, h3]
      · rw [if_neg (not_not.2 h1), if_neg (not_not.2 h2), if_pos h3]
        by_cases h : v.Patch > o.Patch
        · rw [if_pos h]
          exact Or.inr (Or.inl ⟨Or.inr ⟨h1.symm, Or.inr ⟨h2.symm, h⟩⟩, rfl⟩)
        · rw [if_neg h]
          exact Or.inl ⟨Or.inr ⟨h1, Or.inr ⟨h2, by omega⟩⟩, rfl⟩
    · rw [if_neg (not_not.2 h1), if_pos h2]
      by_cases h : v.Minor > o.Minor
      · rw [if_pos h]
        exact Or.inr (Or.inl ⟨Or.inr ⟨h1.symm, Or.inl h⟩, rfl⟩)
      · rw [if_neg h]
        exact Or.inl ⟨Or.inr ⟨h1, Or.inl (by omega)⟩, rfl⟩
  · rw [if_pos h1]
    by_cases h : v.Major > o.Major
    · rw [if_pos h]
      exact Or.inr (Or.inl ⟨Or.inl h, rfl⟩)
    · rw [if_neg h]
      exact Or.inl ⟨Or.inl (by omega), rfl⟩

/-- C4: `Compare` is antisymmetric and reflexive, for all versions and so for
those produced by `NewVersion`: `v.Compare(w) = -(w.Compare(v))` and
`v.Compare(v) = 0`. -/
theorem version_compare_antisymmetric (v w : Version) :
    v.Compare w = -(w.Compare v) ∧ v.Compare v = 0 := by
  constructor
  · have h := identifiers_compare_antisymm v.PreRelease w.PreRelease
    rcases version_compare_cases v w with ⟨c1, r1⟩ | ⟨c1, r1⟩ | ⟨c1, r1⟩ <;>
      rcases version_compare_cases w v with ⟨c2, r2⟩ | ⟨c2, r2⟩ | ⟨c2, r2⟩ <;>
      rw [r1, r2] <;> first | exact h | omega
  · simp [Version.Compare, identifiers_compare_self]

/-- C5: `Compare` is transitive, for all versions and so for those produced by
`NewVersion`: from `a.Compare(b) ≤ 0` and `b.Compare(c) ≤ 0` follows
`a.Compare(c) ≤ 0`, and `a.Compare(c) < 0` when one of the two is strict. -/
theorem version_compare_transitive (a b c : Version)
    (hab : a.Compare b ≤ 0) (hbc : b.Compare c ≤ 0) :
    a.Compare c ≤ 0 ∧ (a.Compare b < 0 ∨ b.Compare c < 0 → a.Compare c < 0) := by
  rcases version_compare_cases a b with ⟨c1, r1⟩ | ⟨c1, r1⟩ | ⟨c1, r1⟩ <;>
    rcases version_compare_cases b c with ⟨c2, r2⟩ | ⟨c2, r2⟩ | ⟨c2, r2⟩ <;>
    rcases version_compare_cases a c with ⟨c3, r3⟩ | ⟨c3, r3⟩ | ⟨c3, r3⟩ <;>
    rw [r1] at hab ⊢ <;> rw [r2] at hbc ⊢ <;> rw [r3] <;>
    first
      | omega
      | exact identifiers_compare_trans _ _ _ hab hbc

/-- Witness for C5 on 1.0.0-alpha ≤ 1.0.0-alpha.1 ≤ 1.0.0: a proper prefix,
then an empty pre-release sequence. -/
theorem version_compare_transitive_witness :
    Version.Compare { Major := 1, PreRelease := [{ Str := ascii "alpha" }] } { Major := 1 } ≤ 0 ∧
      (Version.Compare { Major := 1, PreRelease := [{ Str := ascii "alpha" }] }
            { Major := 1, PreRelease := [{ Str := ascii "alpha" }, { Num := 1, IsNum := true }] } < 0 ∨
          Version.Compare
            { Major := 1, PreRelease := [{ Str := ascii "alpha" }, { Num := 1, IsNum := true }] }
            { Major := 1 } < 0 →
        Version.Compare { Major := 1, PreRelease := [{ Str := ascii "alpha" }] } { Major := 1 } < 0) :=
  version_compare_transitive
    { Major := 1, PreRelease := [{ Str := ascii "alpha" }] }
    { Major := 1, PreRelease := [{ Str := ascii "alpha" }, { Num := 1, IsNum := true }] }
    { Major := 1 } (by decide) (by decide)

/-! ## Precedence of identifiers and of sequences -/

/-- C9: `Identifier.Compare` puts a numeric identifier below every text
identifier whatever its value, compares two numeric identifiers by value
(9 is below 10), two text identifiers in the byte-wise lexical order of `Str`,
and returns -1, 0 or 1. -/
theorem identifier_compare_spec (id o : Identifier) :
    id.Compare o = id.compareSpec o ∧
      (id.Compare o = -1 ∨ id.Compare o = 0 ∨ id.Compare o = 1) ∧
      Identifier.Compare { Num := 9, IsNum := true } { Num := 10, IsNum := true } = -1 ∧
      Identifier.Compare { Num := 999999, IsNum := true } { Str := ascii "aa" } = -1 ∧
      Identifier.Compare { Str := ascii "aa" } { Num := 999999, IsNum := true } = 1 := by
  refine ⟨?_, identifier_compare_values id o, by decide, by decide, by decide⟩
  unfold Identifier.Compare Identifier.compareSpec
  cases ha : id.IsNum <;> cases hb : o.IsNum <;> simp
  · by_cases e : id.Str = o.Str
    · have irr : ¬ List.Lex (· < ·) o.Str o.Str := by
        rw [← strLess_iff_lex, strLess_irrefl]; simp
      simp [e, irr]
    · rcases strLess_total _ _ e with h | h
      · have h' := strLess_asymm _ _ h
        simp [e, h', (strLess_iff_lex _ _).1 h]
      · have h' := strLess_asymm _ _ h
        have n : ¬ List.Lex (· < ·) id.Str o.Str := by
          rw [← strLess_iff_lex, h']; simp
        simp [e, h, n]
  · split_ifs <;> omega

/-- C10: for non-empty sequences `a` and `b`, when every pair at a common
position compares 0 and `a` is the shorter, `a.Compare(b) = -1` and
`b.Compare(a) = 1`; and in general the first pair that does not compare 0 gives
the result. -/
theorem identifiers_compare_tiebreak (a b : Identifiers) (ha : a ≠ []) (hb : b ≠ []) :
    ((∀ j (h1 : j < a.length) (h2 : j < b.length),
          (a.get ⟨j, h1⟩).Compare (b.get ⟨j, h2⟩) = 0) →
        a.length < b.length → a.Compare b = -1 ∧ b.Compare a = 1) ∧
      (∀ i (h1 : i < a.length) (h2 : i < b.length),
        (∀ j (hj : j < i), (a.get ⟨j, by omega⟩).Compare (b.get ⟨j, by omega⟩) = 0) →
        (a.get ⟨i, h1⟩).Compare (b.get ⟨i, h2⟩) ≠ 0 →
        a.Compare b = (a.get ⟨i, h1⟩).Compare (b.get ⟨i, h2⟩)) := by
  have hab : a.Compare b = lexCompare a b := by
    rw [identifiers_compare_eq]
    cases a with
    | nil => exact absurd rfl ha
    | cons x xs =>
      cases b with
      | nil => exact absurd rfl hb
      | cons y ys => rfl
  have hpre : ∀ (a b : Identifiers),
      (∀ j (h1 : j < a.length) (h2 : j < b.length),
          (a.get ⟨j, h1⟩).Compare (b.get ⟨j, h2⟩) = 0) →
        a.length < b.length → lexCompare a b = -1 := by
    intro a
    induction a with
    | nil =>
      intro b _ hl
      cases b with
      | nil => simp at hl
      | cons y ys => rfl
    | cons x xs ih =>
      intro b hz hl
      cases b with
      | nil => simp at hl
      | cons y ys =>
        have h0 : x.Compare y = 0 := hz 0 (by simp) (by simp)
        simp only [lexCompare, h0, if_true]
        apply ih
        · intro j h1 h2
          exact hz (j + 1) (by simp; omega) (by simp; omega)
        · simpa using hl
  have hfirst : ∀ (a b : Identifiers) i (h1 : i < a.length) (h2 : i < b.length),
      (∀ j (hj : j < i), (a.get ⟨j, by omega⟩).Compare (b.get ⟨j, by omega⟩) = 0) →
        (a.get ⟨i, h1⟩).Compare (b.get ⟨i, h2⟩) ≠ 0 →
        lexCompare a b = (a.get ⟨i, h1⟩).Compare (b.get ⟨i, h2⟩) := by
    intro a
    induction a with
    | nil => intro b i h1; simp at h1
    | cons x xs ih =>
      intro b i h1 h2 hz hne
      cases b with
      | nil => simp at h2
      | cons y ys =>
        cases i with
        | zero =>
          simp only [List.get_eq_getElem, List.getElem_cons_zero] at hne ⊢
          simp only [lexCompare, hne, if_false]
          rcases identifier_compare_values x y with h | h | h
          · simp [h]
          · exact absurd h hne
          · simp [h]
        | succ k =>
          have h0 : x.Compare y = 0 := hz 0 (by omega)
          simp only [lexCompare, h0, if_true]
          simp only [List.get_eq_getElem, List.getElem_cons_succ] at hne ⊢
          have := ih ys k (by simpa using h1) (by simpa using h2)
            (fun j hj => by simpa using hz (j + 1) (by omega)) (by simpa using hne)
          simpa using this
  refine ⟨fun hz hl => ?_, fun i h1 h2 hz hne => ?_⟩
  · refine ⟨by rw [hab]; exact hpre a b hz hl, ?_⟩
    rw [identifiers_compare_antisymm, hab, hpre a b hz hl]; rfl
  · rw [hab]; exact hfirst a b i h1 h2 hz hne

/-- Witness for C10: a-b.12 is a proper prefix of a-b.12.extra. -/
theorem identifiers_compare_tiebreak_witness :
    Identifiers.Compare [{ Str := ascii "a-b" }, { Num := 12, IsNum := true }]
        [{ Str := ascii "a-b" }, { Num := 12, IsNum := true }, { Str := ascii "extra" }] = -1 ∧
      Identifiers.Compare
        [{ Str := ascii "a-b" }, { Num := 12, IsNum := true }, { Str := ascii "extra" }]
        [{ Str := ascii "a-b" }, { Num := 12, IsNum := true }] = 1 :=
  (identifiers_compare_tiebreak [{ Str := ascii "a-b" }, { Num := 12, IsNum := true }]
    [{ Str := ascii "a-b" }, { Num := 12, IsNum := true }, { Str := ascii "extra" }]
    (by decide) (by decide)).1
    (by
      intro j h1 h2
      have hj : j = 0 ∨ j = 1 := by simp at h1; omega
      rcases hj with rfl | rfl <;> rfl)
    (by decide)

/-! ## Cutting and splitting strings -/

theorem indexRune_neg_one_or_nonneg (s : Bytes) (r : Nat) :
    IndexRune s r = -1 ∨ 0 ≤ IndexRune s r := by
  induction s with
  | nil => left; rfl
  | cons c cs ih =>
    simp only [IndexRune]
    split_ifs <;> omega

theorem indexRune_eq_neg_one_iff (s : Bytes) (r : Nat) : IndexRune s r = -1 ↔ r ∉ s := by
  induction s with
  | nil => simp [IndexRune]
  | cons c cs ih =>
    have h := indexRune_neg_one_or_nonneg cs r
    simp only [IndexRune, List.mem_cons, not_or]
    by_cases hc : c = r
    · simp [hc]
    · have hc' : ¬ r = c := fun e => hc e.symm
      simp only [hc, hc', if_false, not_false_eq_true, true_and, ← ih]
      split_ifs with h1
      · simp [h1]
      · constructor
        · intro h2; omega
        · intro h2; exact absurd h2 h1

theorem indexRune_append (pre post : Bytes) (r : Nat) (h : r ∉ pre) :
    IndexRune (pre ++ r :: post) r = pre.length := by
  induction pre with
  | nil => simp [IndexRune]
  | cons c cs ih =>
    simp only [List.mem_cons, not_or] at h
    have hc : ¬ c = r := fun e => h.1 e.symm
    have ih' := ih h.2
    rw [show IndexRune (c :: cs ++ r :: post) r =
      (if c = r then 0 else if IndexRune (cs ++ r :: post) r = -1 then -1
        else IndexRune (cs ++ r :: post) r + 1) from rfl]
    rw [if_neg hc, ih', if_neg (by omega)]
    simp

/-- A string either does not contain `r`, and `IndexRune` is `-1`, or it is cut
at the first `r` into the parts the slice expressions `s[:i]` and `s[i+1:]`
denote. -/
theorem indexRune_cut (s : Bytes) (r : Nat) :
    (IndexRune s r = -1 ∧ r ∉ s) ∨
      ∃ pre post, s = pre ++ r :: post ∧ r ∉ pre ∧ IndexRune s r ≠ -1 ∧
        s.take (IndexRune s r).toNat = pre ∧ s.drop ((IndexRune s r).toNat + 1) = post := by
  by_cases h : r ∈ s
  · right
    obtain ⟨pre, post, hs, hpre⟩ := List.eq_append_cons_of_mem h
    refine ⟨pre, post, hs, hpre, ?_, ?_, ?_⟩
    · rw [Ne, indexRune_eq_neg_one_iff]; exact not_not.2 h
    · rw [hs, indexRune_append _ _ _ hpre]; simp
    · rw [hs, indexRune_append _ _ _ hpre]
      simp only [Int.toNat_ofNat]
      rw [show pre ++ r :: post = (pre ++ [r]) ++ post by simp]
      rw [show pre.length + 1 = (pre ++ [r]).length by simp]
      exact List.drop_left _ _
  · left
    exact ⟨(indexRune_eq_neg_one_iff s r).2 h, h⟩

theorem split_ne_nil (s : Bytes) (sep : Nat) : Split s sep ≠ [] := by
  induction s with
  | nil => simp [Split]
  | cons c cs ih =>
    simp only [Split]
    split_ifs
    · simp
    · cases h : Split cs sep <;> simp

theorem joinDots_cons_cons (t u : Bytes) (l : List Bytes) :
    joinDots (t :: u :: l) = t ++ 46 :: joinDots (u :: l) := by
  simp [joinDots]

theorem joinDots_split (s : Bytes) : joinDots (Split s 46) = s := by
  induction s with
  | nil => simp [Split, joinDots]
  | cons c cs ih =>
    simp only [Split]
    split_ifs with hc
    · cases h : Split cs 46 with
      | nil => exact absurd h (split_ne_nil _ _)
      | cons u l => rw [joinDots_cons_cons, ← h, ih, hc]; rfl
    · cases h : Split cs 46 with
      | nil => exact absurd h (split_ne_nil _ _)
      | cons u l =>
        rw [h] at ih
        cases l with
        | nil => simp [joinDots] at ih ⊢; exact ih
        | cons w l' =>
          rw [joinDots_cons_cons] at ih ⊢
          simp [ih]

theorem split_no_sep (s : Bytes) (sep : Nat) : ∀ t ∈ Split s sep, sep ∉ t := by
  induction s with
  | nil => simp [Split]
  | cons c cs ih =>
    simp only [Split]
    split_ifs with hc
    · intro t ht
      rcases List.mem_cons.1 ht with rfl | ht
      · simp
      · exact ih t ht
    · cases h : Split cs sep with
      | nil => exact absurd h (split_ne_nil _ _)
      | cons u l =>
        rw [h] at ih
        intro t ht
        rcases List.mem_cons.1 ht with rfl | ht
        · have := ih u (by simp)
          simp only [List.mem_cons, not_or]
          exact ⟨fun e => hc e.symm, this⟩
        · exact ih t (by simp [ht])

theorem split_no_sep_self (t : Bytes) (sep : Nat) (h : sep ∉ t) : Split t sep = [t] := by
  induction t with
  | nil => rfl
  | cons c cs ih =>
    simp only [List.mem_cons, not_or] at h
    have hc : ¬ c = sep := fun e => h.1 e.symm
    simp [Split, hc, ih h.2]

theorem split_append_sep (t rest : Bytes) (sep : Nat) (h : sep ∉ t) :
    Split (t ++ sep :: rest) sep = t :: Split rest sep := by
  induction t with
  | nil => simp [Split]
  | cons c cs ih =>
    simp only [List.mem_cons, not_or] at h
    have hc : ¬ c = sep := fun e => h.1 e.symm
    rw [show (c :: cs) ++ sep :: rest = c :: (cs ++ sep :: rest) from rfl]
    simp [Split, hc, ih h.2]

theorem split_joinDots (l : List Bytes) (hne : l ≠ []) (h : ∀ t ∈ l, 46 ∉ t) :
    Split (joinDots l) 46 = l := by
  induction l with
  | nil => exact absurd rfl hne
  | cons t ts ih =>
    cases ts with
    | nil => simpa [joinDots] using split_no_sep_self t 46 (h t (by simp))
    | cons u us =>
      rw [joinDots_cons_cons, split_append_sep _ _ _ (h t (by simp)),
        ih (by simp) (fun x hx => h x (by simp [hx]))]

/-- The cut of a string at the first occurrence of a byte is unique. -/
theorem cut_unique (a b x y : Bytes) (r : Nat) (ha : r ∉ a) (hb : r ∉ b)
    (h : a ++ r :: x = b ++ r :: y) : a = b ∧ x = y := by
  have h1 := indexRune_append a x r ha
  have h2 := indexRune_append b y r hb
  rw [h, h2] at h1
  have hl : a.length = b.length := by omega
  have := List.append_inj h hl
  exact ⟨this.1, by simpa using this.2⟩

/-- The call `SplitN(s, ".", 3)` has three parts exactly when `s` has at least two
dots; the parts are what lies before the first dot, between the first two
dots, and after the second. -/
theorem splitN_three (s p0 p1 p2 : Bytes) :
    SplitN s 46 3 = [p0, p1, p2] ↔ s = p0 ++ 46 :: (p1 ++ 46 :: p2) ∧ 46 ∉ p0 ∧ 46 ∉ p1 := by
  simp only [SplitN]
  rcases indexRune_cut s 46 with ⟨h1, _⟩ | ⟨a, rest, hs, ha, h1, ht, hd⟩
  · simp only [h1, if_true]
    constructor
    · intro h; simp at h
    · rintro ⟨hs, h0, _⟩
      rw [hs, indexRune_append _ _ _ h0] at h1
      omega
  · rw [if_neg h1, ht, hd]
    rcases indexRune_cut rest 46 with ⟨h2, hn⟩ | ⟨b, c, hr, hb, h2, ht2, hd2⟩
    · simp only [h2, if_true]
      constructor
      · intro h; simp at h
      · rintro ⟨hs', h0, h1'⟩
        exfalso
        rw [hs] at hs'
        have := (cut_unique _ _ _ _ _ ha h0 hs').2
        rw [this] at hn
        simp at hn
    · rw [if_neg h2, ht2, hd2]
      constructor
      · intro h
        simp only [List.cons.injEq, and_true] at h
        obtain ⟨e0, e1, e2⟩ := h
        subst e0 e1 e2
        exact ⟨by rw [hs, hr], ha, hb⟩
      · rintro ⟨hs', h0, h1'⟩
        rw [hs] at hs'
        obtain ⟨e0, e1⟩ := cut_unique _ _ _ _ _ ha h0 hs'
        rw [hr] at e1
        obtain ⟨e2, e3⟩ := cut_unique _ _ _ _ _ hb h1' e1
        rw [e0, e2, e3]

/-! ## Decimal numbers -/

theorem mem_numbers (c : Nat) : c ∈ numbers ↔ 48 ≤ c ∧ c ≤ 57 := by
  simp only [numbers, List.mem_cons, List.mem_singleton, List.not_mem_nil, or_false]
  omega

theorem mem_alphanum (c : Nat) :
    c ∈ alphanum ↔ (48 ≤ c ∧ c ≤ 57) ∨ (65 ≤ c ∧ c ≤ 90) ∨ (97 ≤ c ∧ c ≤ 122) ∨ c = 45 := by
  simp only [alphanum, alphas, numbers, List.mem_append, List.mem_cons, List.mem_singleton,
    List.not_mem_nil, or_false]
  omega

theorem containsOnly_iff (s set : Bytes) : containsOnly s set = true ↔ ∀ c ∈ s, c ∈ set := by
  simp [containsOnly]

theorem containsOnly_numbers_iff (s : Bytes) :
    containsOnly s numbers = true ↔ ∀ c ∈ s, 48 ≤ c ∧ c ≤ 57 := by
  rw [containsOnly_iff]
  exact forall₂_congr (fun c _ => mem_numbers c)

theorem all_isDigit_iff (s : Bytes) : s.all isDigit = true ↔ ∀ c ∈ s, 48 ≤ c ∧ c ≤ 57 := by
  simp [isDigit]

theorem decimalValue_append_singleton (u : Bytes) (c : Nat) :
    decimalValue (u ++ [c]) = decimalValue u * 10 + (c - 48) := by
  simp [decimalValue, List.foldl_append]

/-- A string of digits that does not start with `0` is what `formatDigits`
produces from its value, given fuel for each digit; its value is at least its
length, so the fuel of `FormatUint` is enough. -/
theorem formatDigits_decimalValue (u : Bytes) :
    u ≠ [] → (∀ c ∈ u, 48 ≤ c ∧ c ≤ 57) → u.head? ≠ some 48 →
      u.length ≤ decimalValue u ∧
        ∀ fuel acc, u.length ≤ fuel → formatDigits fuel (decimalValue u) acc = u ++ acc := by
  induction u using List.reverseRecOn with
  | nil => intro h; exact absurd rfl h
  | append_singleton u c ih =>
    intro _ hd hh
    have hc : 48 ≤ c ∧ c ≤ 57 := hd c (by simp)
    rw [decimalValue_append_singleton]
    cases u with
    | nil =>
      have hc' : c ≠ 48 := by simpa using hh
      refine ⟨by simp [decimalValue]; omega, ?_⟩
      intro fuel acc hf
      cases fuel with
      | zero => simp at hf
      | succ f =>
        have e : decimalValue [] * 10 + (c - 48) = c - 48 := by simp [decimalValue]
        rw [e]
        have hlt : c - 48 < 10 := by omega
        simp only [formatDigits, hlt, if_true, List.nil_append, List.singleton_append]
        congr 1
        omega
    | cons x xs =>
      have ih' := ih (by simp) (fun d hd' => hd d (List.mem_append_left _ hd')) (by simpa using hh)
      obtain ⟨hlen, hfmt⟩ := ih'
      have hpos : 1 ≤ decimalValue (x :: xs) := by
        have : 1 ≤ (x :: xs).length := by simp
        omega
      refine ⟨by simp only [List.length_append, List.length_singleton]; omega, ?_⟩
      intro fuel acc hf
      cases fuel with
      | zero => simp at hf
      | succ f =>
        have hge : ¬ decimalValue (x :: xs) * 10 + (c - 48) < 10 := by omega
        have hdiv : (decimalValue (x :: xs) * 10 + (c - 48)) / 10 = decimalValue (x :: xs) := by
          omega
        have hmod : 48 + (decimalValue (x :: xs) * 10 + (c - 48)) % 10 = c := by omega
        simp only [formatDigits, hge, if_false, hdiv, hmod]
        rw [hfmt f (c :: acc) (by simp at hf ⊢; omega)]
        simp

/-- Formatting undoes parsing: a non-empty string of digits without leading
zeroes is the decimal representation of its value. -/
theorem formatUint_decimalValue (t : Bytes) (hne : t ≠ [])
    (hd : ∀ c ∈ t, 48 ≤ c ∧ c ≤ 57) (hz : hasLeadingZeroes t = false) :
    FormatUint (decimalValue t) = t := by
  by_cases hh : t.head? = some 48
  · cases t with
    | nil => exact absurd rfl hne
    | cons c cs =>
      simp only [List.head?_cons, Option.some.injEq] at hh
      subst hh
      cases cs with
      | nil => rfl
      | cons d ds => simp [hasLeadingZeroes] at hz
  · obtain ⟨hlen, hfmt⟩ := formatDigits_decimalValue t hne hd hh
    unfold FormatUint
    rw [hfmt _ [] (by omega)]
    simp

theorem parseUint_ok (t : Bytes) (n : Nat) (h : ParseUint t = .ok n) :
    t ≠ [] ∧ (∀ c ∈ t, 48 ≤ c ∧ c ≤ 57) ∧ n = decimalValue t ∧ n ≤ maxUint64 := by
  unfold ParseUint at h
  split_ifs at h with h1 h2 h3
  simp only [Except.ok.injEq] at h
  refine ⟨?_, ?_, h.symm, by omega⟩
  · intro e; rw [e] at h1; simp at h1
  · rw [← all_isDigit_iff]; simpa using h2

theorem parseUint_of_digits (t : Bytes) (hne : t ≠ []) (hd : ∀ c ∈ t, 48 ≤ c ∧ c ≤ 57)
    (hv : decimalValue t ≤ maxUint64) : ParseUint t = .ok (decimalValue t) := by
  unfold ParseUint
  have h1 : ¬ t.length = 0 := by simpa using hne
  have h2 : t.all isDigit = true := (all_isDigit_iff t).2 hd
  have h3 : ¬ decimalValue t > maxUint64 := by omega
  simp [h1, h2, h3]

/-- What an accepted major, minor or patch string looks like. -/
theorem checkNumber_ok_iff (t : Bytes) (e1 e2 : Bytes → Error) (n : Nat) :
    checkNumber t e1 e2 = .ok n ↔
      t ≠ [] ∧ (∀ c ∈ t, 48 ≤ c ∧ c ≤ 57) ∧ hasLeadingZeroes t = false ∧
        n = decimalValue t ∧ n ≤ maxUint64 := by
  unfold checkNumber
  constructor
  · intro h
    split_ifs at h with h1 h2
    obtain ⟨a, b, c, d⟩ := parseUint_ok t n h
    exact ⟨a, b, by simpa using h2, c, d⟩
  · rintro ⟨a, b, c, d, e⟩
    have h1 : containsOnly t numbers = true := (containsOnly_numbers_iff t).2 b
    simp only [h1, c, Bool.not_true, Bool.false_eq_true, if_false]
    rw [parseUint_of_digits t a b (by omega), d]

/-! ## Identifiers from strings -/

theorem hasLeadingZeroes_iff (t : Bytes) : hasLeadingZeroes t = true ↔ HasLeadingZero t := by
  simp [hasLeadingZeroes, HasLeadingZero]

theorem hasLeadingZeroes_false_iff (t : Bytes) :
    hasLeadingZeroes t = false ↔ ¬ HasLeadingZero t := by
  rw [← hasLeadingZeroes_iff]; simp

theorem maxUint64_eq : maxUint64 = 2 ^ 64 - 1 := by decide

theorem containsOnly_alphanum_iff (s : Bytes) :
    containsOnly s alphanum = true ↔ ∀ c ∈ s, IsIdentifierByte c := by
  rw [containsOnly_iff]
  exact forall₂_congr (fun c _ => mem_alphanum c)

/-- The identifier `newIdentifier` returns for an accepted string, by cases. -/
theorem newIdentifier_ok_iff (t : Bytes) (strict : Bool) (id : Identifier) :
    newIdentifier t strict = .ok id ↔
      t ≠ [] ∧
        (((∀ c ∈ t, IsDigitByte c) ∧ HasLeadingZero t ∧ strict = false ∧
            id = { Str := t, IsNum := false }) ∨
          ((∀ c ∈ t, IsDigitByte c) ∧ ¬ HasLeadingZero t ∧ decimalValue t ≤ 2 ^ 64 - 1 ∧
            id = { Num := decimalValue t, IsNum := true }) ∨
          (¬ (∀ c ∈ t, IsDigitByte c) ∧ (∀ c ∈ t, IsIdentifierByte c) ∧
            id = { Str := t, IsNum := false })) := by
  unfold newIdentifier
  by_cases hne : t = []
  · simp [hne]
  · have hlen : ¬ t.length = 0 := by simpa using hne
    rw [if_neg hlen]
    by_cases hd : ∀ c ∈ t, IsDigitByte c
    · have hd' : containsOnly t numbers = true := (containsOnly_numbers_iff t).2 hd
      rw [if_pos hd']
      by_cases hz : HasLeadingZero t
      · have hz' : hasLeadingZeroes t = true := (hasLeadingZeroes_iff t).2 hz
        rw [if_pos hz']
        cases strict
        · simp only [Bool.false_eq_true, if_false, Except.ok.injEq]
          constructor
          · intro h; exact ⟨hne, Or.inl ⟨hd, hz, trivial, h.symm⟩⟩
          · rintro ⟨_, h | h | h⟩
            · exact h.2.2.2.symm
            · exact absurd hz h.2.1
            · exact absurd hd h.1
        · simp only [if_true]
          constructor
          · intro h; cases h
          · rintro ⟨_, h | h | h⟩
            · exact absurd h.2.2.1 (by simp)
            · exact absurd hz h.2.1
            · exact absurd hd h.1
      · have hz' : ¬ hasLeadingZeroes t = true := by rw [hasLeadingZeroes_iff]; exact hz
        rw [if_neg hz']
        by_cases hv : decimalValue t ≤ 2 ^ 64 - 1
        · rw [parseUint_of_digits t hne hd (by rw [maxUint64_eq]; exact hv)]
          simp only [Except.ok.injEq]
          constructor
          · intro h; exact ⟨hne, Or.inr (Or.inl ⟨hd, hz, hv, h.symm⟩)⟩
          · rintro ⟨_, h | h | h⟩
            · exact absurd h.2.1 hz
            · exact h.2.2.2.symm
            · exact absurd hd h.1
        · cases hp : ParseUint t with
          | error e =>
            constructor
            · intro h; cases h
            · rintro ⟨_, h | h | h⟩
              · exact absurd h.2.1 hz
              · exact absurd h.2.2.1 hv
              · exact absurd hd h.1
          | ok n =>
            have := (parseUint_ok t n hp).2.2
            rw [maxUint64_eq] at this
            omega
    · have hd' : ¬ containsOnly t numbers = true := by
        rw [containsOnly_numbers_iff]; exact hd
      rw [if_neg hd']
      by_cases ha : ∀ c ∈ t, IsIdentifierByte c
      · have ha' : containsOnly t alphanum = true := (containsOnly_alphanum_iff t).2 ha
        rw [if_pos ha']
        simp only [Except.ok.injEq]
        constructor
        · intro h; exact ⟨hne, Or.inr (Or.inr ⟨hd, ha, h.symm⟩)⟩
        · rintro ⟨_, h | h | h⟩
          · exact absurd h.1 hd
          · exact absurd h.1 hd
          · exact h.2.2.symm
      · have ha' : ¬ containsOnly t alphanum = true := by
          rw [containsOnly_alphanum_iff]; exact ha
        rw [if_neg ha']
        constructor
        · intro h; cases h
        · rintro ⟨_, h | h | h⟩
          · exact absurd h.1 hd
          · exact absurd h.1 hd
          · exact absurd h.2.1 ha

/-- An identifier formats back to the string it was made from. -/
theorem newIdentifier_string (t : Bytes) (strict : Bool) (id : Identifier)
    (h : newIdentifier t strict = .ok id) : id.String = t := by
  rw [newIdentifier_ok_iff] at h
  obtain ⟨hne, h | h | h⟩ := h
  · rw [h.2.2.2]; rfl
  · rw [h.2.2.2]
    simp only [Identifier.String, if_true]
    exact formatUint_decimalValue t hne h.1 ((hasLeadingZeroes_false_iff t).2 h.2.1)
  · rw [h.2.2]; rfl

theorem newIdentifier_strict_iff (t : Bytes) :
    (∃ id, newIdentifier t true = .ok id) ↔ IsPreReleaseIdentifier t := by
  simp only [newIdentifier_ok_iff, IsPreReleaseIdentifier]
  constructor
  · rintro ⟨id, hne, h | h | h⟩
    · simp at h
    · exact ⟨hne, fun c hc => Or.inl (h.1 c hc), fun _ => ⟨h.2.1, h.2.2.1⟩⟩
    · exact ⟨hne, h.2.1, fun hd => absurd hd h.1⟩
  · rintro ⟨hne, ha, hd⟩
    by_cases h : ∀ c ∈ t, IsDigitByte c
    · exact ⟨_, hne, Or.inr (Or.inl ⟨h, (hd h).1, (hd h).2, rfl⟩)⟩
    · exact ⟨_, hne, Or.inr (Or.inr ⟨h, ha, rfl⟩)⟩

theorem newIdentifier_lenient_iff (t : Bytes) :
    (∃ id, newIdentifier t false = .ok id) ↔ IsBuildIdentifier t := by
  simp only [newIdentifier_ok_iff, IsBuildIdentifier]
  constructor
  · rintro ⟨id, hne, h | h | h⟩
    · exact ⟨hne, fun c hc => Or.inl (h.1 c hc), fun _ hz => absurd h.2.1 hz⟩
    · exact ⟨hne, fun c hc => Or.inl (h.1 c hc), fun _ _ => h.2.2.1⟩
    · exact ⟨hne, h.2.1, fun hd => absurd hd h.1⟩
  · rintro ⟨hne, ha, hd⟩
    by_cases h : ∀ c ∈ t, IsDigitByte c
    · by_cases hz : HasLeadingZero t
      · exact ⟨_, hne, Or.inl ⟨h, hz, trivial, rfl⟩⟩
      · exact ⟨_, hne, Or.inr (Or.inl ⟨h, hz, hd h hz, rfl⟩)⟩
    · exact ⟨_, hne, Or.inr (Or.inr ⟨h, ha, rfl⟩)⟩

/-- The loop over the strings of a field succeeds exactly when every string
makes an identifier; the field then holds what it held before followed by
those identifiers, in order. -/
theorem appendIdentifiers_ok_iff (strict : Bool) (toks : List Bytes) :
    ∀ (field ids : Identifiers),
      appendIdentifiers strict field toks = (ids, none) ↔
        ∃ new, ids = field ++ new ∧
          List.Forall₂ (fun t id => newIdentifier t strict = .ok id) toks new := by
  induction toks with
  | nil =>
    intro field ids
    simp [appendIdentifiers, eq_comm]
  | cons t ts ih =>
    intro field ids
    simp only [appendIdentifiers]
    cases h : newIdentifier t strict with
    | error e =>
      simp only [Prod.mk.injEq, reduceCtorEq, and_false, false_iff, not_exists, not_and]
      intro new _ hf
      cases hf with
      | cons h1 _ => rw [h] at h1; cases h1
    | ok id =>
      simp only [ih]
      constructor
      · rintro ⟨new, hids, hf⟩
        exact ⟨id :: new, by simp [hids], List.Forall₂.cons h hf⟩
      · rintro ⟨new, hids, hf⟩
        cases hf with
        | cons h1 h2 =>
          rw [h] at h1
          cases h1
          exact ⟨_, by simp [hids], h2⟩

theorem forall₂_newIdentifier_string (strict : Bool) (toks : List Bytes) (ids : Identifiers)
    (h : List.Forall₂ (fun t id => newIdentifier t strict = .ok id) toks ids) :
    ids.map Identifier.String = toks := by
  induction h with
  | nil => rfl
  | cons h1 _ ih => simp [newIdentifier_string _ _ _ h1, ih]

theorem forall₂_newIdentifier_exists (strict : Bool) (toks : List Bytes)
    (h : ∀ t ∈ toks, ∃ id, newIdentifier t strict = .ok id) :
    ∃ ids, List.Forall₂ (fun t id => newIdentifier t strict = .ok id) toks ids := by
  induction toks with
  | nil => exact ⟨[], List.Forall₂.nil⟩
  | cons t ts ih =>
    obtain ⟨id, hid⟩ := h t (by simp)
    obtain ⟨ids, hids⟩ := ih (fun u hu => h u (by simp [hu]))
    exact ⟨id :: ids, List.Forall₂.cons hid hids⟩

/-! ## The third part: patch, pre-release, build metadata -/

theorem segment_split (lead : Nat) (rest : Bytes) :
    segment lead (Split rest 46) = lead :: rest := by
  cases h : Split rest 46 with
  | nil => exact absurd h (split_ne_nil _ _)
  | cons t ts => rw [segment, ← h, joinDots_split]

theorem mem_joinDots (c : Nat) (l : List Bytes) (h : c ∈ joinDots l) :
    c = 46 ∨ ∃ t ∈ l, c ∈ t := by
  induction l with
  | nil => simp [joinDots] at h
  | cons t ts ih =>
    cases ts with
    | nil =>
      simp only [joinDots, List.flatMap_nil, List.append_nil] at h
      exact Or.inr ⟨t, by simp, h⟩
    | cons u us =>
      rw [joinDots_cons_cons, List.mem_append, List.mem_cons] at h
      rcases h with h | h | h
      · exact Or.inr ⟨t, by simp, h⟩
      · exact Or.inl h
      · rcases ih h with h' | ⟨x, hx, hc⟩
        · exact Or.inl h'
        · exact Or.inr ⟨x, by simp [hx], hc⟩

theorem mem_segment (c lead : Nat) (l : List Bytes) (h : c ∈ segment lead l) :
    c = lead ∨ c = 46 ∨ ∃ t ∈ l, c ∈ t := by
  cases l with
  | nil => simp [segment] at h
  | cons t ts =>
    rw [segment, List.mem_cons] at h
    rcases h with h | h
    · exact Or.inl h
    · exact Or.inr (mem_joinDots c _ h)

/-- The third part is the patch string followed by the pre-release field and
the build-metadata field that `splitPatch` cut from it. -/
theorem splitPatch_join (part : Bytes) :
    part = (splitPatch part).1 ++ segment 45 (splitPatch part).2.1 ++
      segment 43 (splitPatch part).2.2 := by
  rcases indexRune_cut part 43 with ⟨h1, _⟩ | ⟨a, b, hs, _, h1, ht, hd⟩
  · rcases indexRune_cut part 45 with ⟨h2, _⟩ | ⟨a', b', hs', _, h2, ht', hd'⟩
    · simp [splitPatch, h1, h2, segment]
    · simp only [splitPatch, h1, ne_eq, not_true_eq_false, if_false, h2, not_false_eq_true,
        if_true, ht', hd', segment_split]
      simp [segment, hs']
  · rcases indexRune_cut a 45 with ⟨h2, _⟩ | ⟨a', b', hs', _, h2, ht', hd'⟩
    · simp only [splitPatch, h1, ne_eq, not_false_eq_true, if_true, ht, hd, h2,
        not_true_eq_false, if_false, segment_split]
      simp [segment, hs]
    · simp only [splitPatch, h1, ne_eq, not_false_eq_true, if_true, ht, hd, h2,
        ht', hd', segment_split]
      simp [hs, hs']

/-- A patch string without `+` and `-`, followed by a pre-release field whose
identifiers hold no `+` and no dot and a build-metadata field whose identifiers
hold no dot, is cut by `splitPatch` into exactly these. -/
theorem splitPatch_compose (p : Bytes) (pre bld : List Bytes)
    (hp43 : 43 ∉ p) (hp45 : 45 ∉ p) (hpre : ∀ t ∈ pre, 43 ∉ t ∧ 46 ∉ t)
    (hbld : ∀ t ∈ bld, 46 ∉ t) :
    splitPatch (p ++ segment 45 pre ++ segment 43 bld) = (p, pre, bld) := by
  have hseg : 43 ∉ p ++ segment 45 pre := by
    intro h
    rcases List.mem_append.1 h with h | h
    · exact hp43 h
    · rcases mem_segment _ _ _ h with h | h | ⟨t, ht, hc⟩
      · omega
      · omega
      · exact (hpre t ht).1 hc
  have hcut : (if IndexRune (p ++ segment 45 pre) 45 ≠ -1
        then (p ++ segment 45 pre).take (IndexRune (p ++ segment 45 pre) 45).toNat
        else p ++ segment 45 pre) = p ∧
      (if IndexRune (p ++ segment 45 pre) 45 ≠ -1
        then Split ((p ++ segment 45 pre).drop
          ((IndexRune (p ++ segment 45 pre) 45).toNat + 1)) 46
        else []) = pre := by
    cases pre with
    | nil =>
      have : IndexRune (p ++ segment 45 []) 45 = -1 := by
        rw [indexRune_eq_neg_one_iff]; simpa [segment] using hp45
      rw [if_neg (not_not.2 this), if_neg (not_not.2 this)]
      simp [segment]
    | cons t ts =>
      rcases indexRune_cut (p ++ segment 45 (t :: ts)) 45 with ⟨h2, hn⟩ | ⟨a, b, hs, ha, h2, ht', hd'⟩
      · exfalso; exact hn (by simp [segment])
      · rw [if_pos h2, if_pos h2, ht', hd']
        have := cut_unique a p b (joinDots (t :: ts)) 45 ha hp45 (by rw [← hs]; rfl)
        rw [this.1, this.2]
        exact ⟨rfl, split_joinDots _ (by simp) (fun x hx => (hpre x hx).2)⟩
  cases bld with
  | nil =>
    have h1 : IndexRune (p ++ segment 45 pre ++ segment 43 []) 43 = -1 := by
      rw [indexRune_eq_neg_one_iff]; simpa [segment] using hseg
    simp only [splitPatch, h1, ne_eq, not_true_eq_false, if_false]
    simp only [segment, List.append_nil] at hcut ⊢
    rw [hcut.1, hcut.2]
  | cons t ts =>
    rcases indexRune_cut (p ++ segment 45 pre ++ segment 43 (t :: ts)) 43 with
      ⟨_, hn⟩ | ⟨a, b, hs, ha, h1, ht', hd'⟩
    · exfalso; exact hn (by simp [segment])
    · have := cut_unique a (p ++ segment 45 pre) b (joinDots (t :: ts)) 43 ha hseg
        (by rw [← hs]; rfl)
      simp only [splitPatch, h1, ne_eq, not_false_eq_true, if_true, ht', hd']
      rw [this.1, this.2, hcut.1, hcut.2, split_joinDots _ (by simp) hbld]

/-! ## Parsing a version -/

/-- When `Set` returns no error and what the receiver then holds: the string
has three top-level parts, each number passes its checks, and each field is
what it held before followed by the identifiers made from the strings
`splitPatch` cut. -/
theorem set_ok_iff (v0 : Version) (s : Bytes) (v : Version) :
    Version.Set v0 s = (v, none) ↔
      ∃ p0 p1 p2, SplitN s 46 3 = [p0, p1, p2] ∧
        checkNumber p0 .majorChar .majorLeadingZeroes = .ok v.Major ∧
        checkNumber p1 .minorChar .minorLeadingZeroes = .ok v.Minor ∧
        checkNumber (splitPatch p2).1 .patchChar .patchLeadingZeroes = .ok v.Patch ∧
        appendIdentifiers true v0.PreRelease (splitPatch p2).2.1 = (v.PreRelease, none) ∧
        appendIdentifiers false v0.Metadata (splitPatch p2).2.2 = (v.Metadata, none) := by
  unfold Version.Set
  by_cases hs : s.length = 0
  · have hs' : s = [] := List.length_eq_zero.1 hs
    subst hs'
    simp [SplitN, IndexRune]
  · rw [if_neg hs]
    cases hsp : SplitN s 46 3 with
    | nil => simp
    | cons a l1 =>
      cases l1 with
      | nil => simp
      | cons b l2 =>
        cases l2 with
        | nil => simp
        | cons c l3 =>
          cases l3 with
          | cons d l4 => simp
          | nil =>
            simp only [List.cons.injEq, and_true]
            cases h0 : checkNumber a .majorChar .majorLeadingZeroes with
            | error e =>
              simp only [Prod.mk.injEq, reduceCtorEq, and_false, false_iff, not_exists, not_and]
              rintro p0 p1 p2 ⟨rfl, rfl, rfl⟩ h
              rw [h0] at h; cases h
            | ok major =>
              cases h1 : checkNumber b .minorChar .minorLeadingZeroes with
              | error e =>
                simp only [Prod.mk.injEq, reduceCtorEq, and_false, false_iff, not_exists, not_and]
                rintro p0 p1 p2 ⟨rfl, rfl, rfl⟩ _ h
                rw [h1] at h; cases h
              | ok minor =>
                cases h2 : checkNumber (splitPatch c).1 .patchChar .patchLeadingZeroes with
                | error e =>
                  simp only [Prod.mk.injEq, reduceCtorEq, and_false, false_iff, not_exists,
                    not_and]
                  rintro p0 p1 p2 ⟨rfl, rfl, rfl⟩ _ _ h
                  rw [h2] at h; cases h
                | ok patch =>
                  cases h3 : appendIdentifiers true v0.PreRelease (splitPatch c).2.1 with
                  | mk pre e3 =>
                    cases e3 with
                    | some e =>
                      simp only [Prod.mk.injEq, reduceCtorEq, and_false, false_iff, not_exists,
                        not_and]
                      rintro p0 p1 p2 ⟨rfl, rfl, rfl⟩ _ _ _ h
                      rw [h3] at h; simp at h
                    | none =>
                      cases h4 : appendIdentifiers false v0.Metadata (splitPatch c).2.2 with
                      | mk md e4 =>
                        cases e4 with
                        | some e =>
                          simp only [Prod.mk.injEq, reduceCtorEq, and_false, false_iff,
                            not_exists, not_and]
                          rintro p0 p1 p2 ⟨rfl, rfl, rfl⟩ _ _ _ _ h
                          rw [h4] at h; simp at h
                        | none =>
                          simp only [Prod.mk.injEq, and_true]
                          constructor
                          · intro h
                            subst h
                            exact ⟨a, b, c, ⟨rfl, rfl, rfl⟩, h0, h1, h2, h3, h4⟩
                          · rintro ⟨p0, p1, p2, ⟨rfl, rfl, rfl⟩, g0, g1, g2, g3, g4⟩
                            rw [h0] at g0; rw [h1] at g1; rw [h2] at g2
                            rw [h3] at g3; rw [h4] at g4
                            cases g0; cases g1; cases g2
                            simp only [Prod.mk.injEq, and_true] at g3 g4
                            cases v
                            simp only at g3 g4 ⊢
                            rw [g3, g4]

/-- What `NewVersion` accepts and what it returns. -/
theorem newVersion_ok_iff (s : Bytes) (v : Version) :
    NewVersion s = .ok v ↔
      ∃ p0 p1 p2, SplitN s 46 3 = [p0, p1, p2] ∧
        checkNumber p0 .majorChar .majorLeadingZeroes = .ok v.Major ∧
        checkNumber p1 .minorChar .minorLeadingZeroes = .ok v.Minor ∧
        checkNumber (splitPatch p2).1 .patchChar .patchLeadingZeroes = .ok v.Patch ∧
        appendIdentifiers true [] (splitPatch p2).2.1 = (v.PreRelease, none) ∧
        appendIdentifiers false [] (splitPatch p2).2.2 = (v.Metadata, none) := by
  rw [← set_ok_iff { PreRelease := [], Metadata := [] } s v]
  unfold NewVersion
  cases h : Version.Set { PreRelease := [], Metadata := [] } s with
  | mk w e =>
    cases e with
    | some err => simp
    | none => simp

theorem identifiers_segment (c : Nat) (b : Bytes) (ids : Identifiers) :
    (match ids with
      | [] => b
      | first :: rest =>
        b ++ [c] ++ first.String ++ rest.flatMap (fun id => 46 :: id.String)) =
      b ++ segment c (ids.map Identifier.String) := by
  cases ids with
  | nil => simp [segment]
  | cons first rest =>
    simp only [List.map_cons, segment, joinDots, List.flatMap_map]
    simp

/-- The output of `String`: the three numbers in decimal joined by dots, then
the pre-release field and the build-metadata field when they are not empty. -/
theorem version_string_eq (v : Version) :
    v.String = FormatUint v.Major ++ [46] ++ FormatUint v.Minor ++ [46] ++ FormatUint v.Patch ++
      segment 45 (v.PreRelease.map Identifier.String) ++
      segment 43 (v.Metadata.map Identifier.String) := by
  unfold Version.String
  simp only []
  rw [identifiers_segment 43, identifiers_segment 45]

/-- C1: parsing round-trips: every string `NewVersion` accepts is what `String`
returns for the parsed version, byte for byte, leading zeroes in build
metadata included. -/
theorem parse_format_roundtrip (s : Bytes) (v : Version) (h : NewVersion s = .ok v) :
    v.String = s := by
  obtain ⟨p0, p1, p2, hsp, g0, g1, g2, g3, g4⟩ := (newVersion_ok_iff s v).1 h
  obtain ⟨hs, _, _⟩ := (splitN_three s p0 p1 p2).1 hsp
  obtain ⟨a0, b0, c0, d0, _⟩ := (checkNumber_ok_iff _ _ _ _).1 g0
  obtain ⟨a1, b1, c1, d1, _⟩ := (checkNumber_ok_iff _ _ _ _).1 g1
  obtain ⟨a2, b2, c2, d2, _⟩ := (checkNumber_ok_iff _ _ _ _).1 g2
  obtain ⟨pre, hpre, fpre⟩ := (appendIdentifiers_ok_iff _ _ _ _).1 g3
  obtain ⟨md, hmd, fmd⟩ := (appendIdentifiers_ok_iff _ _ _ _).1 g4
  rw [version_string_eq, d0, d1, d2, formatUint_decimalValue _ a0 b0 c0,
    formatUint_decimalValue _ a1 b1 c1, formatUint_decimalValue _ a2 b2 c2, hpre, hmd,
    List.nil_append, List.nil_append, forall₂_newIdentifier_string _ _ _ fpre,
    forall₂_newIdentifier_string _ _ _ fmd, hs]
  conv_rhs => rw [splitPatch_join p2]
  simp

/-- Witness for C1: the string of the package's own test, with the
leading-zero build identifier `012`. -/
theorem parse_format_roundtrip_witness :
    NewVersion (ascii "1.2.3-alpha.0+build.012.code.42") =
        .ok { Major := 1, Minor := 2, Patch := 3,
              PreRelease := [{ Str := ascii "alpha" }, { Num := 0, IsNum := true }],
              Metadata := [{ Str := ascii "build" }, { Str := ascii "012" },
                { Str := ascii "code" }, { Num := 42, IsNum := true }] } ∧
      Version.String
          ({ Major := 1, Minor := 2, Patch := 3,
             PreRelease := [{ Str := ascii "alpha" }, { Num := 0, IsNum := true }],
             Metadata := [{ Str := ascii "build" }, { Str := ascii "012" },
               { Str := ascii "code" }, { Num := 42, IsNum := true }] } : Version) =
        ascii "1.2.3-alpha.0+build.012.code.42" :=
  ⟨rfl, parse_format_roundtrip _ _ rfl⟩

theorem forall₂_newIdentifier_mem (strict : Bool) (toks : List Bytes) (ids : Identifiers)
    (h : List.Forall₂ (fun t id => newIdentifier t strict = .ok id) toks ids) :
    ∀ t ∈ toks, ∃ id, newIdentifier t strict = .ok id := by
  induction h with
  | nil => simp
  | cons h1 _ ih =>
    intro t ht
    rcases List.mem_cons.1 ht with rfl | ht
    · exact ⟨_, h1⟩
    · exact ih t ht

theorem checkNumber_ok_iff_component (t : Bytes) (e1 e2 : Bytes → Error) :
    (∃ n, checkNumber t e1 e2 = .ok n) ↔ IsNumericComponent t := by
  simp only [checkNumber_ok_iff, IsNumericComponent, hasLeadingZeroes_false_iff, maxUint64_eq]
  constructor
  · rintro ⟨n, a, b, c, d, e⟩
    exact ⟨a, b, c, by omega⟩
  · rintro ⟨a, b, c, d⟩
    exact ⟨_, a, b, c, rfl, d⟩

theorem digit_not_special (t : Bytes) (h : ∀ c ∈ t, IsDigitByte c) :
    43 ∉ t ∧ 45 ∉ t ∧ 46 ∉ t := by
  refine ⟨fun m => ?_, fun m => ?_, fun m => ?_⟩ <;>
    · have := h _ m
      unfold IsDigitByte at this
      omega

theorem identifier_not_special (t : Bytes) (h : ∀ c ∈ t, IsIdentifierByte c) :
    43 ∉ t ∧ 46 ∉ t := by
  refine ⟨fun m => ?_, fun m => ?_⟩ <;>
    · have := h _ m
      unfold IsIdentifierByte at this
      omega

/-- C2: `NewVersion` succeeds exactly on the strings `M.m.p[-pre][+meta]` whose
numbers are non-empty digit strings without a leading zero and of value at most
`2^64 - 1`, whose pre-release identifiers are non-empty over `[0-9A-Za-z-]` and,
when digits only, without a leading zero and at most `2^64 - 1`, and whose
build identifiers are non-empty over `[0-9A-Za-z-]` and, when digits only
without a leading zero, at most `2^64 - 1`; every accepted string satisfies the
SemVer 2.0.0 grammar. -/
theorem newVersion_accepts_iff_shape (s : Bytes) :
    ((∃ v, NewVersion s = .ok v) ↔ HasVersionShape s) ∧
      ((∃ v, NewVersion s = .ok v) → IsSemVer s) := by
  have hiff : (∃ v, NewVersion s = .ok v) ↔ HasVersionShape s := by
    constructor
    · rintro ⟨v, h⟩
      obtain ⟨p0, p1, p2, hsp, g0, g1, g2, g3, g4⟩ := (newVersion_ok_iff s v).1 h
      obtain ⟨hs, _, _⟩ := (splitN_three s p0 p1 p2).1 hsp
      obtain ⟨pre, _, fpre⟩ := (appendIdentifiers_ok_iff _ _ _ _).1 g3
      obtain ⟨md, _, fmd⟩ := (appendIdentifiers_ok_iff _ _ _ _).1 g4
      refine ⟨p0, p1, (splitPatch p2).1, (splitPatch p2).2.1, (splitPatch p2).2.2, ?_,
        (checkNumber_ok_iff_component _ _ _).1 ⟨_, g0⟩,
        (checkNumber_ok_iff_component _ _ _).1 ⟨_, g1⟩,
        (checkNumber_ok_iff_component _ _ _).1 ⟨_, g2⟩, ?_, ?_⟩
      · rw [hs]
        conv_lhs => rw [splitPatch_join p2]
        simp
      · intro t ht
        exact (newIdentifier_strict_iff t).1 (forall₂_newIdentifier_mem _ _ _ fpre t ht)
      · intro t ht
        exact (newIdentifier_lenient_iff t).1 (forall₂_newIdentifier_mem _ _ _ fmd t ht)
    · rintro ⟨M, m, p, pre, bld, hs, hM, hm, hp, hpre, hbld⟩
      obtain ⟨nM, gM⟩ := (checkNumber_ok_iff_component M .majorChar .majorLeadingZeroes).2 hM
      obtain ⟨nm, gm⟩ := (checkNumber_ok_iff_component m .minorChar .minorLeadingZeroes).2 hm
      obtain ⟨np, gp⟩ := (checkNumber_ok_iff_component p .patchChar .patchLeadingZeroes).2 hp
      obtain ⟨ids1, f1⟩ := forall₂_newIdentifier_exists true pre
        (fun t ht => (newIdentifier_strict_iff t).2 (hpre t ht))
      obtain ⟨ids2, f2⟩ := forall₂_newIdentifier_exists false bld
        (fun t ht => (newIdentifier_lenient_iff t).2 (hbld t ht))
      have hsplit : splitPatch (p ++ segment 45 pre ++ segment 43 bld) = (p, pre, bld) :=
        splitPatch_compose p pre bld (digit_not_special p hp.2.1).1
          (digit_not_special p hp.2.1).2.1
          (fun t ht => identifier_not_special t (hpre t ht).2.1)
          (fun t ht => (identifier_not_special t (hbld t ht).2.1).2)
      refine ⟨{ Major := nM, Minor := nm, Patch := np, PreRelease := ids1, Metadata := ids2 }, ?_⟩
      rw [newVersion_ok_iff]
      refine ⟨M, m, p ++ segment 45 pre ++ segment 43 bld, ?_, gM, gm, ?_, ?_, ?_⟩
      · rw [splitN_three]
        exact ⟨by rw [hs]; simp, (digit_not_special M hM.2.1).2.2,
          (digit_not_special m hm.2.1).2.2⟩
      · rw [hsplit]; exact gp
      · rw [hsplit, appendIdentifiers_ok_iff]; exact ⟨ids1, by simp, f1⟩
      · rw [hsplit, appendIdentifiers_ok_iff]; exact ⟨ids2, by simp, f2⟩
  refine ⟨hiff, fun h => ?_⟩
  obtain ⟨M, m, p, pre, bld, hs, hM, hm, hp, hpre, hbld⟩ := hiff.1 h
  refine ⟨M, m, p, pre, bld, hs, ?_, ?_, ?_⟩
  · intro n hn
    simp only [List.mem_cons, List.mem_singleton, List.not_mem_nil, or_false] at hn
    rcases hn with rfl | rfl | rfl
    · exact ⟨hM.1, hM.2.1, hM.2.2.1⟩
    · exact ⟨hm.1, hm.2.1, hm.2.2.1⟩
    · exact ⟨hp.1, hp.2.1, hp.2.2.1⟩
  · intro t ht
    exact ⟨(hpre t ht).1, (hpre t ht).2.1, fun hd => ((hpre t ht).2.2 hd).1⟩
  · intro t ht
    exact ⟨(hbld t ht).1, (hbld t ht).2.1⟩

/-- Witness for C2: 1.2.3-alpha.0+build.012 is accepted, and so has the
shape and satisfies the grammar. -/
theorem newVersion_accepts_iff_shape_witness :
    HasVersionShape (ascii "1.2.3-alpha.0+build.012") ∧ IsSemVer (ascii "1.2.3-alpha.0+build.012") :=
  ⟨(newVersion_accepts_iff_shape _).1.1 ⟨_, rfl⟩, (newVersion_accepts_iff_shape _).2 ⟨_, rfl⟩⟩

/-! ## Strings with known components -/

theorem newVersion_error_or_ok (s : Bytes) :
    (∃ err, NewVersion s = .error err) ∨ ∃ v, NewVersion s = .ok v := by
  cases h : NewVersion s with
  | error e => exact Or.inl ⟨e, rfl⟩
  | ok v => exact Or.inr ⟨v, rfl⟩

theorem newVersion_error_iff (s : Bytes) :
    (∃ err, NewVersion s = .error err) ↔ ¬ ∃ v, NewVersion s = .ok v := by
  cases h : NewVersion s with
  | error e => simp
  | ok v => simp

/-- Parsing a string put together from components none of which holds the
delimiter that ends it: the parser cuts it into exactly these components. -/
theorem newVersion_compose_iff (M m p : Bytes) (pre bld : List Bytes)
    (hM : 46 ∉ M) (hm : 46 ∉ m) (hp43 : 43 ∉ p) (hp45 : 45 ∉ p)
    (hpre : ∀ t ∈ pre, 43 ∉ t ∧ 46 ∉ t) (hbld : ∀ t ∈ bld, 46 ∉ t) (v : Version) :
    NewVersion (M ++ [46] ++ m ++ [46] ++ p ++ segment 45 pre ++ segment 43 bld) = .ok v ↔
      checkNumber M .majorChar .majorLeadingZeroes = .ok v.Major ∧
        checkNumber m .minorChar .minorLeadingZeroes = .ok v.Minor ∧
        checkNumber p .patchChar .patchLeadingZeroes = .ok v.Patch ∧
        appendIdentifiers true [] pre = (v.PreRelease, none) ∧
        appendIdentifiers false [] bld = (v.Metadata, none) := by
  have hsplit : SplitN (M ++ [46] ++ m ++ [46] ++ p ++ segment 45 pre ++ segment 43 bld) 46 3 =
      [M, m, p ++ segment 45 pre ++ segment 43 bld] := by
    rw [splitN_three]
    exact ⟨by simp, hM, hm⟩
  have hpatch := splitPatch_compose p pre bld hp43 hp45 hpre hbld
  rw [newVersion_ok_iff]
  constructor
  · rintro ⟨p0, p1, p2, hsp, g⟩
    rw [hsplit] at hsp
    simp only [List.cons.injEq, and_true] at hsp
    obtain ⟨rfl, rfl, rfl⟩ := hsp
    rw [hpatch] at g
    exact g
  · intro g
    refine ⟨M, m, _, hsplit, ?_⟩
    rw [hpatch]
    exact g

/-! ## Overflow and leading zeroes -/

theorem checkNumber_not_overflows (t : Bytes) (e1 e2 : Bytes → Error) (n : Nat)
    (h : checkNumber t e1 e2 = .ok n) : ¬ Overflows t := by
  intro ho
  obtain ⟨_, _, _, hn, hle⟩ := (checkNumber_ok_iff _ _ _ _).1 h
  have := ho.2
  rw [maxUint64_eq] at hle
  omega

/-- C11, as the code has it: `NewVersion` fails on every version string one of
whose numeric components has a decimal value above `2^64 - 1`, the numeric
components being major, minor, patch, the digit-only pre-release identifiers
and the digit-only build identifiers without a leading zero. The components
are those of the string: none holds the delimiter that ends it. -/
theorem overflow_rejected (M m p : Bytes) (pre bld : List Bytes)
    (hM : 46 ∉ M) (hm : 46 ∉ m) (hp43 : 43 ∉ p) (hp45 : 45 ∉ p)
    (hpre : ∀ t ∈ pre, 43 ∉ t ∧ 46 ∉ t) (hbld : ∀ t ∈ bld, 46 ∉ t)
    (hover : Overflows M ∨ Overflows m ∨ Overflows p ∨ (∃ t ∈ pre, Overflows t) ∨
      ∃ t ∈ bld, Overflows t ∧ ¬ HasLeadingZero t) :
    ∃ err, NewVersion (M ++ [46] ++ m ++ [46] ++ p ++ segment 45 pre ++ segment 43 bld) =
      .error err := by
  rw [newVersion_error_iff]
  rintro ⟨v, hv⟩
  obtain ⟨g0, g1, g2, g3, g4⟩ :=
    (newVersion_compose_iff M m p pre bld hM hm hp43 hp45 hpre hbld v).1 hv
  rcases hover with h | h | h | ⟨t, ht, h⟩ | ⟨t, ht, h, hz⟩
  · exact checkNumber_not_overflows _ _ _ _ g0 h
  · exact checkNumber_not_overflows _ _ _ _ g1 h
  · exact checkNumber_not_overflows _ _ _ _ g2 h
  · obtain ⟨new, _, f⟩ := (appendIdentifiers_ok_iff _ _ _ _).1 g3
    have hid := (newIdentifier_strict_iff t).1 (forall₂_newIdentifier_mem _ _ _ f t ht)
    have := (hid.2.2 h.1).2
    have := h.2
    omega
  · obtain ⟨new, _, f⟩ := (appendIdentifiers_ok_iff _ _ _ _).1 g4
    have hid := (newIdentifier_lenient_iff t).1 (forall₂_newIdentifier_mem _ _ _ f t ht)
    have := hid.2.2 h.1 hz
    have := h.2
    omega

/-- Witness for C11: the package's test string with major `2^64`. -/
theorem overflow_rejected_witness :
    ∃ err, NewVersion (ascii "18446744073709551616.2.3-alpha.0+build.012") = .error err :=
  overflow_rejected (ascii "18446744073709551616") (ascii "2") (ascii "3")
    [ascii "alpha", ascii "0"] [ascii "build", ascii "012"]
    (by decide) (by decide) (by decide) (by decide) (by decide) (by decide)
    (Or.inl ⟨by decide, by decide⟩)

/-- Counterexample to C11 as stated: the build identifier
`018446744073709551616` is digits only and its decimal value is above
`2^64 - 1`, yet `1.2.3+018446744073709551616` parses, the identifier being
kept as text. -/
theorem overflow_leading_zero_build_accepted :
    Overflows (ascii "018446744073709551616") ∧
      NewVersion (ascii "1.2.3+018446744073709551616") =
        .ok { Major := 1, Minor := 2, Patch := 3,
              Metadata := [{ Str := ascii "018446744073709551616", IsNum := false }] } :=
  ⟨⟨by decide, by decide⟩, rfl⟩

theorem newIdentifier_error_iff (s : Bytes) (strict : Bool) :
    (∃ err, newIdentifier s strict = .error err) ↔ ¬ ∃ id, newIdentifier s strict = .ok id := by
  cases h : newIdentifier s strict with
  | error e => simp
  | ok v => simp

/-- C12: `newIdentifier(s, strict)` fails exactly when `s` is empty, or digits
only with a leading zero under `strict`, or digits only without a leading zero
and above `2^64 - 1`, or not digits only with a byte outside `[0-9A-Za-z-]`. On
success the identifier is numeric, with `Num` the value of `s`, exactly when
`s` is digits only without a leading zero, and otherwise text with `Str = s`. -/
theorem newIdentifier_fails_iff (s : Bytes) (strict : Bool) :
    ((∃ err, newIdentifier s strict = .error err) ↔
        s = [] ∨
        ((∀ c ∈ s, IsDigitByte c) ∧ HasLeadingZero s ∧ strict = true) ∨
        ((∀ c ∈ s, IsDigitByte c) ∧ ¬ HasLeadingZero s ∧ decimalValue s > 2 ^ 64 - 1) ∨
        (¬ (∀ c ∈ s, IsDigitByte c) ∧ ∃ c ∈ s, ¬ IsIdentifierByte c)) ∧
      ∀ id, newIdentifier s strict = .ok id →
        (id.IsNum = true ↔ (∀ c ∈ s, IsDigitByte c) ∧ ¬ HasLeadingZero s) ∧
        (id.IsNum = true → id.Num = decimalValue s) ∧
        (id.IsNum = false → id.Str = s) := by
  constructor
  · rw [newIdentifier_error_iff]
    simp only [newIdentifier_ok_iff]
    by_cases hne : s = []
    · simp [hne]
    · by_cases hd : ∀ c ∈ s, IsDigitByte c
      · by_cases hz : HasLeadingZero s
        · cases strict
          · constructor
            · intro h
              exact absurd ⟨_, hne, Or.inl ⟨hd, hz, rfl, rfl⟩⟩ h
            · rintro (h | h | h | h)
              · exact absurd h hne
              · exact absurd h.2.2 (by simp)
              · exact absurd hz h.2.1
              · exact absurd hd h.1
          · constructor
            · intro _
              exact Or.inr (Or.inl ⟨hd, hz, rfl⟩)
            · rintro _ ⟨id, _, h | h | h⟩
              · exact absurd h.2.2.1 (by simp)
              · exact absurd hz h.2.1
              · exact absurd hd h.1
        · by_cases hv : decimalValue s ≤ 2 ^ 64 - 1
          · constructor
            · intro h
              exact absurd ⟨_, hne, Or.inr (Or.inl ⟨hd, hz, hv, rfl⟩)⟩ h
            · rintro (h | h | h | h)
              · exact absurd h hne
              · exact absurd h.2.1 hz
              · have := h.2.2; omega
              · exact absurd hd h.1
          · constructor
            · intro _
              exact Or.inr (Or.inr (Or.inl ⟨hd, hz, by omega⟩))
            · rintro _ ⟨id, _, h | h | h⟩
              · exact absurd h.2.1 hz
              · exact absurd h.2.2.1 hv
              · exact absurd hd h.1
      · by_cases ha : ∀ c ∈ s, IsIdentifierByte c
        · constructor
          · intro h
            exact absurd ⟨_, hne, Or.inr (Or.inr ⟨hd, ha, rfl⟩)⟩ h
          · rintro (h | h | h | h)
            · exact absurd h hne
            · exact absurd h.1 hd
            · exact absurd h.1 hd
            · obtain ⟨c, hc, hn⟩ := h.2
              exact absurd (ha c hc) hn
        · constructor
          · intro _
            refine Or.inr (Or.inr (Or.inr ⟨hd, ?_⟩))
            by_contra hcon
            apply ha
            intro c hc
            by_contra hn
            exact hcon ⟨c, hc, hn⟩
          · rintro _ ⟨id, _, h | h | h⟩
            · exact absurd h.1 hd
            · exact absurd h.1 hd
            · exact absurd h.2.1 ha
  · intro id h
    obtain ⟨hne, h | h | h⟩ := (newIdentifier_ok_iff s strict id).1 h
    · rw [h.2.2.2]
      refine ⟨?_, ?_, fun _ => rfl⟩
      · constructor
        · intro e; cases e
        · intro e; exact absurd h.2.1 e.2
      · intro e; cases e
    · rw [h.2.2.2]
      exact ⟨⟨fun _ => ⟨h.1, h.2.1⟩, fun _ => rfl⟩, fun _ => rfl, fun e => by cases e⟩
    · rw [h.2.2]
      refine ⟨?_, ?_, fun _ => rfl⟩
      · constructor
        · intro e; cases e
        · intro e; exact absurd e.1 h.1
      · intro e; cases e

/-- Witness for C12 on the package's test inputs: `012` fails under `strict`
and is text otherwise, `12` is numeric, `ab#c`, the empty string and `2^64`
fail. -/
theorem newIdentifier_fails_iff_witness :
    (∃ err, newIdentifier (ascii "012") true = .error err) ∧
      newIdentifier (ascii "012") false = .ok { Str := ascii "012", IsNum := false } ∧
      newIdentifier (ascii "12") true = .ok { Num := 12, IsNum := true } ∧
      (∃ err, newIdentifier (ascii "ab#c") false = .error err) ∧
      (∃ err, newIdentifier [] true = .error err) ∧
      (∃ err, newIdentifier (ascii "18446744073709551616") false = .error err) :=
  ⟨(newIdentifier_fails_iff (ascii "012") true).1.2
      (Or.inr (Or.inl ⟨by decide, by decide, rfl⟩)),
    rfl, rfl, ⟨_, rfl⟩, ⟨_, rfl⟩, ⟨_, rfl⟩⟩

theorem identifiers_string_eq (ids : Identifiers) :
    Identifiers.String ids = joinDots (ids.map Identifier.String) := by
  cases ids with
  | nil => rfl
  | cons id rest => simp [Identifiers.String, joinDots, List.flatMap_map]

/-- C13: for a valid core `M.m.p` and a digit string `d` with a leading zero,
`NewVersion("M.m.p-" + d)` fails, and `NewVersion("M.m.p+" + d)` succeeds with
the single text identifier `{Str: d, IsNum: false}` as metadata, which formats
as `d`. -/
theorem leading_zero_handling (M m p d : Bytes)
    (hM : IsNumericComponent M) (hm : IsNumericComponent m) (hp : IsNumericComponent p)
    (hd : ∀ c ∈ d, IsDigitByte c) (hz : HasLeadingZero d) :
    (∃ err, NewVersion (M ++ [46] ++ m ++ [46] ++ p ++ [45] ++ d) = .error err) ∧
      ∃ v, NewVersion (M ++ [46] ++ m ++ [46] ++ p ++ [43] ++ d) = .ok v ∧
        v.Metadata = [{ Str := d, IsNum := false }] ∧ v.Metadata.String = d ∧
        v.PreRelease = [] ∧
        v.Major = decimalValue M ∧ v.Minor = decimalValue m ∧ v.Patch = decimalValue p := by
  have hdne : d ≠ [] := by
    intro e; rw [e] at hz; simp [HasLeadingZero] at hz
  have sM := digit_not_special M hM.2.1
  have sm := digit_not_special m hm.2.1
  have sp := digit_not_special p hp.2.1
  have sd := digit_not_special d hd
  have hone : ∀ t ∈ [d], 43 ∉ t ∧ 46 ∉ t := by
    intro t ht
    rw [List.mem_singleton.1 ht]
    exact ⟨sd.1, sd.2.2⟩
  have hnone : ∀ t ∈ ([] : List Bytes), 43 ∉ t ∧ 46 ∉ t := by simp
  constructor
  · rw [newVersion_error_iff]
    rintro ⟨v, hv⟩
    have e : M ++ [46] ++ m ++ [46] ++ p ++ [45] ++ d =
        M ++ [46] ++ m ++ [46] ++ p ++ segment 45 [d] ++ segment 43 [] := by
      simp [segment, joinDots]
    rw [e] at hv
    obtain ⟨_, _, _, g3, _⟩ :=
      (newVersion_compose_iff M m p [d] [] sM.2.2 sm.2.2 sp.1 sp.2.1 hone (by simp) v).1 hv
    obtain ⟨new, _, f⟩ := (appendIdentifiers_ok_iff _ _ _ _).1 g3
    obtain ⟨id, hid⟩ := forall₂_newIdentifier_mem _ _ _ f d (by simp)
    obtain ⟨_, h | h | h⟩ := (newIdentifier_ok_iff d true id).1 hid
    · exact absurd h.2.2.1 (by simp)
    · exact h.2.1 hz
    · exact h.1 hd
  · obtain ⟨nM, gM⟩ := (checkNumber_ok_iff_component M .majorChar .majorLeadingZeroes).2 hM
    obtain ⟨nm, gm⟩ := (checkNumber_ok_iff_component m .minorChar .minorLeadingZeroes).2 hm
    obtain ⟨np, gp⟩ := (checkNumber_ok_iff_component p .patchChar .patchLeadingZeroes).2 hp
    have e : M ++ [46] ++ m ++ [46] ++ p ++ [43] ++ d =
        M ++ [46] ++ m ++ [46] ++ p ++ segment 45 [] ++ segment 43 [d] := by
      simp [segment, joinDots]
    have hid : newIdentifier d false = .ok { Str := d, IsNum := false } :=
      (newIdentifier_ok_iff d false _).2 ⟨hdne, Or.inl ⟨hd, hz, rfl, rfl⟩⟩
    refine ⟨{ Major := nM, Minor := nm, Patch := np, PreRelease := [],
              Metadata := [{ Str := d, IsNum := false }] }, ?_, rfl, ?_, rfl, ?_, ?_, ?_⟩
    · rw [e, newVersion_compose_iff M m p [] [d] sM.2.2 sm.2.2 sp.1 sp.2.1 (by simp)
        (fun t ht => (hone t ht).2)]
      refine ⟨gM, gm, gp, rfl, ?_⟩
      simp [appendIdentifiers, hid]
    · simp [Identifiers.String, Identifier.String]
    · exact ((checkNumber_ok_iff _ _ _ _).1 gM).2.2.2.1
    · exact ((checkNumber_ok_iff _ _ _ _).1 gm).2.2.2.1
    · exact ((checkNumber_ok_iff _ _ _ _).1 gp).2.2.2.1

/-- Witness for C13: `1.2.3-01` fails and `1.2.3+01` keeps `01` as text. -/
theorem leading_zero_handling_witness :
    (∃ err, NewVersion (ascii "1.2.3-01") = .error err) ∧
      ∃ v, NewVersion (ascii "1.2.3+01") = .ok v ∧
        v.Metadata = [{ Str := ascii "01", IsNum := false }] ∧ v.Metadata.String = ascii "01" ∧
        v.PreRelease = [] ∧
        v.Major = decimalValue (ascii "1") ∧ v.Minor = decimalValue (ascii "2") ∧
        v.Patch = decimalValue (ascii "3") :=
  leading_zero_handling (ascii "1") (ascii "2") (ascii "3") (ascii "01")
    (by decide) (by decide) (by decide) (by decide) (by decide)

/-! ## Where the fields of an accepted string lie -/

/-- An accepted string is its three digit strings joined by dots, followed by
the pre-release field and the build-metadata field, and these fields are what
the identifiers of the parsed version format to. -/
theorem newVersion_ok_parts (s : Bytes) (v : Version) (h : NewVersion s = .ok v) :
    ∃ core : Bytes, 43 ∉ core ∧ 45 ∉ core ∧
      s = core ++ segment 45 (v.PreRelease.map Identifier.String) ++
        segment 43 (v.Metadata.map Identifier.String) ∧
      ∀ t ∈ v.PreRelease.map Identifier.String, 43 ∉ t ∧ 46 ∉ t := by
  obtain ⟨p0, p1, p2, hsp, g0, g1, g2, g3, g4⟩ := (newVersion_ok_iff s v).1 h
  obtain ⟨hs, _, _⟩ := (splitN_three s p0 p1 p2).1 hsp
  obtain ⟨_, b0, _⟩ := (checkNumber_ok_iff _ _ _ _).1 g0
  obtain ⟨_, b1, _⟩ := (checkNumber_ok_iff _ _ _ _).1 g1
  obtain ⟨_, b2, _⟩ := (checkNumber_ok_iff _ _ _ _).1 g2
  obtain ⟨pre, hpre, fpre⟩ := (appendIdentifiers_ok_iff _ _ _ _).1 g3
  obtain ⟨md, hmd, fmd⟩ := (appendIdentifiers_ok_iff _ _ _ _).1 g4
  have s0 := digit_not_special p0 b0
  have s1 := digit_not_special p1 b1
  have s2 := digit_not_special _ b2
  rw [List.nil_append] at hpre hmd
  have epre := forall₂_newIdentifier_string _ _ _ fpre
  have emd := forall₂_newIdentifier_string _ _ _ fmd
  refine ⟨p0 ++ [46] ++ p1 ++ [46] ++ (splitPatch p2).1, ?_, ?_, ?_, ?_⟩
  · simp only [List.mem_append, List.mem_singleton, not_or]
    exact ⟨⟨⟨⟨s0.1, by omega⟩, s1.1⟩, by omega⟩, s2.1⟩
  · simp only [List.mem_append, List.mem_singleton, not_or]
    exact ⟨⟨⟨⟨s0.2.1, by omega⟩, s1.2.1⟩, by omega⟩, s2.2.1⟩
  · rw [hpre, hmd, epre, emd, hs]
    conv_lhs => rw [splitPatch_join p2]
    simp
  · rw [hpre, epre]
    intro t ht
    have := (newIdentifier_strict_iff t).1 (forall₂_newIdentifier_mem _ _ _ fpre t ht)
    exact identifier_not_special t this.2.1

/-- The first `+` of an accepted string ends the core and the pre-release
field and introduces the build metadata. -/
theorem newVersion_plus_cut (s y rest : Bytes) (v : Version) (h : NewVersion s = .ok v)
    (hs : s = y ++ 43 :: rest) (hy : 43 ∉ y) :
    ∃ core : Bytes, 43 ∉ core ∧ 45 ∉ core ∧
      y = core ++ segment 45 (v.PreRelease.map Identifier.String) ∧
      v.Metadata.String = rest := by
  obtain ⟨core, c43, c45, hcore, hpre⟩ := newVersion_ok_parts s v h
  have hno : 43 ∉ core ++ segment 45 (v.PreRelease.map Identifier.String) := by
    intro hm
    rcases List.mem_append.1 hm with hm | hm
    · exact c43 hm
    · rcases mem_segment _ _ _ hm with e | e | ⟨t, ht, hc⟩
      · omega
      · omega
      · exact (hpre t ht).1 hc
  refine ⟨core, c43, c45, ?_⟩
  cases hb : v.Metadata.map Identifier.String with
  | nil =>
    rw [hb, show segment 43 [] = [] from rfl, List.append_nil] at hcore
    exfalso
    apply hno
    rw [← hcore, hs]
    simp
  | cons b bs =>
    rw [hb] at hcore
    rw [hs] at hcore
    have := cut_unique _ _ _ _ 43 hy hno hcore
    refine ⟨this.1, ?_⟩
    rw [identifiers_string_eq, hb, this.2]

/-- C14: build metadata is cut off before the pre-release is looked for. In an
accepted string whose first `+` has no `-` before it, the pre-release is empty
and the metadata formats as everything after that `+`, hyphens included; in an
accepted string whose first `-` comes before its first `+`, the pre-release
formats as exactly the text between the two. -/
theorem metadata_excised_first (s x pre rest : Bytes) (v : Version)
    (h : NewVersion s = .ok v) :
    (s = x ++ 43 :: rest → 43 ∉ x → 45 ∉ x →
        v.PreRelease = [] ∧ v.Metadata.String = rest) ∧
      (s = x ++ 45 :: (pre ++ 43 :: rest) → 45 ∉ x → 43 ∉ x → 43 ∉ pre →
        v.PreRelease.String = pre ∧ v.Metadata.String = rest) := by
  constructor
  · intro hs h43 h45
    obtain ⟨core, _, _, hy, hmeta⟩ := newVersion_plus_cut s x rest v h hs h43
    refine ⟨?_, hmeta⟩
    cases hp : v.PreRelease with
    | nil => rfl
    | cons a as =>
      exfalso
      apply h45
      rw [hy, hp]
      simp [segment]
  · intro hs h45 h43 hpre43
    have hs' : s = (x ++ 45 :: pre) ++ 43 :: rest := by rw [hs]; simp
    have hy43 : 43 ∉ x ++ 45 :: pre := by
      simp only [List.mem_append, List.mem_cons, not_or]
      exact ⟨h43, by omega, hpre43⟩
    obtain ⟨core, _, c45, hy, hmeta⟩ := newVersion_plus_cut s _ rest v h hs' hy43
    refine ⟨?_, hmeta⟩
    cases hp : v.PreRelease.map Identifier.String with
    | nil =>
      exfalso
      rw [hp, show segment 45 [] = [] from rfl, List.append_nil] at hy
      apply c45
      rw [← hy]
      simp
    | cons a as =>
      rw [hp] at hy
      have := cut_unique _ _ _ _ 45 h45 c45 hy
      rw [identifiers_string_eq, hp, this.2]

/-- Witness for C14: in `1.2.3+build-1` the hyphen belongs to the metadata. -/
theorem metadata_excised_first_witness :
    NewVersion (ascii "1.2.3+build-1") =
        .ok { Major := 1, Minor := 2, Patch := 3, Metadata := [{ Str := ascii "build-1" }] } ∧
      (([] : Identifiers) = [] ∧
        Identifiers.String [{ Str := ascii "build-1" }] = ascii "build-1") :=
  ⟨rfl,
    (metadata_excised_first (ascii "1.2.3+build-1") (ascii "1.2.3") [] (ascii "build-1")
      { Major := 1, Minor := 2, Patch := 3, Metadata := [{ Str := ascii "build-1" }] } rfl).1
      rfl (by decide) (by decide)⟩

/-! ## `Set` on a receiver that already holds a version -/

/-- C15, the code at a failing input: a receiver that holds the parsed
`1.0.0-alpha+a` and is then set from `2.0.0-beta+b` gets the new major, minor
and patch, but its identifier sequences are the old ones followed by the new
ones. It formats as `2.0.0-alpha.beta+a.b`, not as the string it was set from,
and differs from `NewVersion("2.0.0-beta+b")`. -/
theorem set_appends_to_receiver :
    NewVersion (ascii "1.0.0-alpha+a") =
        .ok { Major := 1, PreRelease := [{ Str := ascii "alpha" }],
              Metadata := [{ Str := ascii "a" }] } ∧
      Version.Set
          { Major := 1, PreRelease := [{ Str := ascii "alpha" }], Metadata := [{ Str := ascii "a" }] }
          (ascii "2.0.0-beta+b") =
        ({ Major := 2, PreRelease := [{ Str := ascii "alpha" }, { Str := ascii "beta" }],
           Metadata := [{ Str := ascii "a" }, { Str := ascii "b" }] }, none) ∧
      Version.String
          ({ Major := 2, PreRelease := [{ Str := ascii "alpha" }, { Str := ascii "beta" }],
             Metadata := [{ Str := ascii "a" }, { Str := ascii "b" }] } : Version) =
        ascii "2.0.0-alpha.beta+a.b" ∧
      ascii "2.0.0-alpha.beta+a.b" ≠ ascii "2.0.0-beta+b" ∧
      NewVersion (ascii "2.0.0-beta+b") =
        .ok { Major := 2, PreRelease := [{ Str := ascii "beta" }],
              Metadata := [{ Str := ascii "b" }] } :=
  ⟨rfl, rfl, rfl, by decide, rfl⟩

/-- C16, the code at a failing input: `Set` on an empty receiver with the
string `1.2.3-alpha.1+build..012` of the package's test returns the error for
the empty identifier, and leaves in the receiver the pre-release identifiers
and the first build identifier it had appended before it found the error. -/
theorem set_failure_keeps_appended :
    Version.Set {} (ascii "1.2.3-alpha.1+build..012") =
        ({ PreRelease := [{ Str := ascii "alpha" }, { Num := 1, IsNum := true }],
           Metadata := [{ Str := ascii "build" }] }, some .identEmpty) ∧
      ({ PreRelease := [{ Str := ascii "alpha" }, { Num := 1, IsNum := true }],
         Metadata := [{ Str := ascii "build" }] } : Version) ≠ {} ∧
      NewVersion (ascii "1.2.3-alpha.1+build..012") = .error .identEmpty :=
  ⟨rfl, by decide, rfl⟩

/-! ## Increments and compatibility -/

/-- C17: `IncrementMajor`, `IncrementMinor` and `IncrementPatch` return the
version with the targeted number plus one (modulo `2^64`), the lower numbers
zero, and empty pre-release and metadata. From the parsed
`1.2.3-alpha.0+build.012` the results format as `2.0.0`, `1.3.0` and `1.2.4`
while the parsed version still formats as the string it came from; the largest
`uint64` wraps to zero. -/
theorem increment_results (v : Version) :
    v.IncrementMajor =
        { Major := (v.Major + 1) % 2 ^ 64, Minor := 0, Patch := 0,
          PreRelease := [], Metadata := [] } ∧
      v.IncrementMinor =
        { Major := v.Major, Minor := (v.Minor + 1) % 2 ^ 64, Patch := 0,
          PreRelease := [], Metadata := [] } ∧
      v.IncrementPatch =
        { Major := v.Major, Minor := v.Minor, Patch := (v.Patch + 1) % 2 ^ 64,
          PreRelease := [], Metadata := [] } ∧
      (∃ w, NewVersion (ascii "1.2.3-alpha.0+build.012") = .ok w ∧
        w.IncrementMajor.String = ascii "2.0.0" ∧
        w.IncrementMinor.String = ascii "1.3.0" ∧
        w.IncrementPatch.String = ascii "1.2.4" ∧
        w.String = ascii "1.2.3-alpha.0+build.012") ∧
      (Version.IncrementMajor { Major := 2 ^ 64 - 1 }).Major = 0 := by
  refine ⟨rfl, rfl, rfl, ⟨_, rfl, ?_, ?_, ?_, ?_⟩, ?_⟩ <;> decide

/-- C18, as the code has it: a minor increment sets the patch number to zero
whatever it was and keeps the major number; a patch increment keeps the major
and minor numbers. -/
theorem increment_frame (v : Version) :
    v.IncrementMinor.Patch = 0 ∧ v.IncrementMinor.Major = v.Major ∧
      v.IncrementPatch.Major = v.Major ∧ v.IncrementPatch.Minor = v.Minor :=
  ⟨rfl, rfl, rfl, rfl⟩

/-- Counterexample to C18 as stated: the minor increment of 1.2.3 has patch 0,
not 3 (it formats as `1.3.0`, as the package's test expects). -/
theorem incrementMinor_resets_patch :
    (Version.IncrementMinor { Major := 1, Minor := 2, Patch := 3 }).Patch ≠
        ({ Major := 1, Minor := 2, Patch := 3 } : Version).Patch ∧
      (Version.IncrementMinor { Major := 1, Minor := 2, Patch := 3 }).String = ascii "1.3.0" := by
  constructor <;> decide

/-- C19: `v.CompatibleUnder(o)` holds exactly when the major numbers are equal
and the minor number of `v` is at most that of `o`; patch, pre-release and
metadata of either version do not matter. -/
theorem compatibleUnder_iff (v o : Version) (p1 p2 : Nat) (r1 r2 m1 m2 : Identifiers) :
    (v.CompatibleUnder o = true ↔ v.Major = o.Major ∧ v.Minor ≤ o.Minor) ∧
      Version.CompatibleUnder { v with Patch := p1, PreRelease := r1, Metadata := m1 }
          { o with Patch := p2, PreRelease := r2, Metadata := m2 } =
        v.CompatibleUnder o := by
  refine ⟨?_, rfl⟩
  unfold Version.CompatibleUnder
  split_ifs with h1 h2
  · simp [h1]
  · simp only [Bool.false_eq_true, false_iff, not_and, not_le]
    intro _; exact h2
  · simp only [true_iff]
    exact ⟨not_not.1 h1, by omega⟩

/-! ## The output of `String` -/

/-- With fuel above `n`, `formatDigits` puts in front of `acc` a non-empty
string of digits whose value is `n` and which starts with `0` only when it is
`0` itself. -/
theorem formatDigits_spec : ∀ (fuel n : Nat) (acc : Bytes), n < fuel →
    ∃ ds : Bytes, formatDigits fuel n acc = ds ++ acc ∧ ds ≠ [] ∧
      (∀ c ∈ ds, IsDigitByte c) ∧ decimalValue ds = n ∧ ¬ HasLeadingZero ds ∧
      (n ≠ 0 → ds.head? ≠ some 48) := by
  intro fuel
  induction fuel with
  | zero => intro n acc h; omega
  | succ f ih =>
    intro n acc h
    simp only [formatDigits]
    by_cases hn : n < 10
    · rw [if_pos hn]
      refine ⟨[48 + n], by simp, by simp, ?_, ?_, ?_, ?_⟩
      · intro c hc
        rw [List.mem_singleton.1 hc]
        exact ⟨by omega, by omega⟩
      · simp [decimalValue]
      · simp [HasLeadingZero]
      · intro h0; simp; omega
    · rw [if_neg hn]
      obtain ⟨ds, hds, hne, hdig, hval, _, hhead⟩ :=
        ih (n / 10) ((48 + n % 10) :: acc) (by omega)
      have hh : ds.head? ≠ some 48 := hhead (by omega)
      refine ⟨ds ++ [48 + n % 10], by rw [hds]; simp, by simp, ?_, ?_, ?_, ?_⟩
      · intro c hc
        rcases List.mem_append.1 hc with hc | hc
        · exact hdig c hc
        · rw [List.mem_singleton.1 hc]
          exact ⟨by omega, by omega⟩
      · rw [decimalValue_append_singleton, hval]; omega
      · intro hz
        apply hh
        have := hz.2
        cases ds with
        | nil => exact absurd rfl hne
        | cons d ds' => simpa using this
      · intro _
        cases ds with
        | nil => exact absurd rfl hne
        | cons d ds' => simpa using hh

/-- The string `FormatUint n` is the decimal representation of `n`: digits
only, no leading zero, value `n`. -/
theorem formatUint_spec (n : Nat) :
    FormatUint n ≠ [] ∧ (∀ c ∈ FormatUint n, IsDigitByte c) ∧
      ¬ HasLeadingZero (FormatUint n) ∧ decimalValue (FormatUint n) = n := by
  obtain ⟨ds, hds, hne, hdig, hval, hz, _⟩ := formatDigits_spec (n + 1) n [] (by omega)
  have e : FormatUint n = ds := by
    unfold FormatUint; rw [hds]; simp
  rw [e]
  exact ⟨hne, hdig, hz, hval⟩

/-- C20: `String` is the three numbers in decimal joined by dots, followed by
`-` and the pre-release sequence's string exactly when the pre-release is not
empty, followed by `+` and the metadata sequence's string exactly when the
metadata is not empty. The string of a sequence is its identifiers' strings
joined by dots, empty for the empty sequence; the string of an identifier is
the decimal of `Num` when `IsNum` and `Str` otherwise. -/
theorem version_string_spec (v : Version) (ids : Identifiers) (id : Identifier) (n : Nat) :
    v.String =
        FormatUint v.Major ++ [46] ++ FormatUint v.Minor ++ [46] ++ FormatUint v.Patch ++
          (if v.PreRelease ≠ [] then 45 :: v.PreRelease.String else []) ++
          (if v.Metadata ≠ [] then 43 :: v.Metadata.String else []) ∧
      Identifiers.String ids = joinDots (ids.map Identifier.String) ∧
      Identifiers.String [] = [] ∧
      id.String = (if id.IsNum then FormatUint id.Num else id.Str) ∧
      (FormatUint n ≠ [] ∧ (∀ c ∈ FormatUint n, IsDigitByte c) ∧
        ¬ HasLeadingZero (FormatUint n) ∧ decimalValue (FormatUint n) = n) := by
  refine ⟨?_, identifiers_string_eq ids, rfl, rfl, formatUint_spec n⟩
  rw [version_string_eq]
  have seg : ∀ (c : Nat) (l : Identifiers),
      segment c (l.map Identifier.String) = if l ≠ [] then c :: l.String else [] := by
    intro c l
    cases l with
    | nil => rfl
    | cons a as =>
      rw [identifiers_string_eq]
      simp [segment]
  rw [seg, seg]

/-- Witness for C20: the fields of `1.2.3-alpha.0+build.012` put together. -/
theorem version_string_spec_witness :
    Version.String
        ({ Major := 1, Minor := 2, Patch := 3,
           PreRelease := [{ Str := ascii "alpha" }, { Num := 0, IsNum := true }],
           Metadata := [{ Str := ascii "build" }, { Str := ascii "012" }] } : Version) =
      ascii "1.2.3-alpha.0+build.012" :=
  ((version_string_spec
      { Major := 1, Minor := 2, Patch := 3,
        PreRelease := [{ Str := ascii "alpha" }, { Num := 0, IsNum := true }],
        Metadata := [{ Str := ascii "build" }, { Str := ascii "012" }] } [] {} 0).1).trans
    (by decide)

/-! ## The map view of a sequence -/

theorem findPair_eq_some_iff (p : Identifier → Identifier → Bool) :
    ∀ (ids : Identifiers) (n : Nat), findPair p ids = some n ↔
      n % 2 = 0 ∧ n + 1 < ids.length ∧
        p (ids.getD n default) (ids.getD (n + 1) default) = true ∧
        ∀ m, m < n → m % 2 = 0 →
          p (ids.getD m default) (ids.getD (m + 1) default) = false
  | [], n => by simp [findPair]
  | [_], n => by simp [findPair]
  | k :: v :: rest, n => by
    have ih := findPair_eq_some_iff p rest
    simp only [findPair]
    by_cases hp : p k v = true
    · simp only [hp, if_true, Option.some.injEq]
      constructor
      · intro h
        subst h
        simp [hp]
      · rintro ⟨h1, _, _, h4⟩
        by_contra hn
        have hn' : 0 < n := by omega
        have := h4 0 hn' rfl
        simp [hp] at this
    · have hp' : p k v = false := by simpa using hp
      simp only [hp', Bool.false_eq_true, if_false, Option.map_eq_some']
      constructor
      · rintro ⟨a, ha, rfl⟩
        obtain ⟨h1, h2, h3, h4⟩ := (ih a).1 ha
        refine ⟨by omega, by simp; omega, by simpa using h3, ?_⟩
        intro m hm hm2
        rcases Nat.eq_zero_or_pos m with rfl | hpos
        · simpa using hp'
        · obtain ⟨m', rfl⟩ : ∃ m', m = m' + 2 := ⟨m - 2, by omega⟩
          have := h4 m' (by omega) (by omega)
          simpa using this
      · rintro ⟨h1, h2, h3, h4⟩
        have hn : 2 ≤ n := by
          by_contra hlt
          have h0 : n = 0 := by omega
          subst h0
          simp [hp'] at h3
        obtain ⟨a, rfl⟩ : ∃ a, n = a + 2 := ⟨n - 2, by omega⟩
        refine ⟨a, (ih a).2 ⟨by omega, by simp at h2; omega, by simpa using h3, ?_⟩, rfl⟩
        intro m hm hm2
        have := h4 (m + 2) (by omega) (by omega)
        simpa using this

theorem findPair_eq_none_iff (p : Identifier → Identifier → Bool) :
    ∀ (ids : Identifiers), findPair p ids = none ↔
      ∀ m, m % 2 = 0 → m + 1 < ids.length →
        p (ids.getD m default) (ids.getD (m + 1) default) = false
  | [] => by simp [findPair]
  | [_] => by simp [findPair]
  | k :: v :: rest => by
    have ih := findPair_eq_none_iff p rest
    simp only [findPair]
    by_cases hp : p k v = true
    · simp only [hp, if_true, reduceCtorEq, false_iff, not_forall]
      exact ⟨0, rfl, by simp, by simp [hp]⟩
    · have hp' : p k v = false := by simpa using hp
      simp only [hp', Bool.false_eq_true, if_false, Option.map_eq_none', ih]
      constructor
      · intro h m hm hlen
        rcases Nat.eq_zero_or_pos m with rfl | hpos
        · simpa using hp'
        · obtain ⟨m', rfl⟩ : ∃ m', m = m' + 2 := ⟨m - 2, by omega⟩
          have := h m' (by omega) (by simp at hlen; omega)
          simpa using this
      · intro h m hm hlen
        have := h (m + 2) (by omega) (by simp; omega)
        simpa using this

theorem drop_two_cons (ids : Identifiers) (j : Nat) (h : j + 1 < ids.length) :
    ids.drop j = ids.getD j default :: ids.getD (j + 1) default :: ids.drop (j + 2) := by
  have h0 : j < ids.length := by omega
  rw [List.drop_eq_getElem_cons h0, List.drop_eq_getElem_cons h]
  simp [List.getD_eq_getElem, h0, h]

theorem findPair_drop_none (p : Identifier → Identifier → Bool) (ids : Identifiers) (j : Nat)
    (h : ids.length ≤ j + 1) : findPair p (ids.drop j) = none := by
  rw [findPair_eq_none_iff]
  intro m _ hm
  simp at hm
  omega

/-- The loop of `Get`, entered at index `j + 1` with fuel for what is left of
the sequence, finds the first key at or after `j`: the fuel is never exhausted
before the loop ends. -/
theorem getLoop_eq (ids : Identifiers) (key : Bytes) :
    ∀ (fuel j : Nat), ids.length ≤ j + 1 + 2 * fuel →
      Identifiers.getLoop ids key fuel (j + 1) =
        match findPair (fun k _ => isKey key k) (ids.drop j) with
        | some n => (ids.getD (j + n + 1) default, true)
        | none => (default, false) := by
  intro fuel
  induction fuel with
  | zero =>
    intro j h
    rw [findPair_drop_none _ _ _ (by omega)]
    rfl
  | succ fuel ih =>
    intro j h
    simp only [Identifiers.getLoop]
    by_cases hlt : j + 1 < ids.length
    · have hc : 1 ≤ j + 1 ∧ j + 1 < ids.length := ⟨by omega, hlt⟩
      rw [dif_pos hc, drop_two_cons ids j hlt]
      simp only [findPair, List.get_eq_getElem, Nat.add_sub_cancel]
      have e0 : ids[j] = ids.getD j default := by
        simp [List.getD_eq_getElem, show j < ids.length by omega]
      have e1 : ids[j + 1] = ids.getD (j + 1) default := by
        simp [List.getD_eq_getElem, hlt]
      rw [e0, e1]
      by_cases hk : isKey key (ids.getD j default) = true
      · have hk' : (!(ids.getD j default).IsNum && (ids.getD j default).Str == key) = true := hk
        rw [if_pos hk', if_pos hk]
      · have hk' : ¬ (!(ids.getD j default).IsNum && (ids.getD j default).Str == key) = true := hk
        rw [if_neg hk', if_neg hk, ih (j + 2) (by omega)]
        cases findPair (fun k _ => isKey key k) (ids.drop (j + 2)) with
        | none => rfl
        | some n => simp only [Option.map_some']; congr 2; omega
    · have hc : ¬ (1 ≤ j + 1 ∧ j + 1 < ids.length) := fun hc => hlt hc.2
      rw [dif_neg hc, findPair_drop_none _ _ _ (by omega)]

/-- What `Get` returns, in terms of the first key of the map view. -/
theorem get_eq (ids : Identifiers) (key : Bytes) :
    ids.Get key =
      match findPair (fun k _ => isKey key k) ids with
      | some n => (ids.getD (n + 1) default, true)
      | none => (default, false) := by
  unfold Identifiers.Get
  rw [getLoop_eq ids key ids.length 0 (by omega)]
  simp

/-- The loop of `set`, entered at index `j + 1` with fuel for what is left of
the sequence, overwrites the value of the first key at or after `j`. -/
theorem setLoop_eq (ids : Identifiers) (key : Bytes) (value : Identifier) :
    ∀ (fuel j : Nat), ids.length ≤ j + 1 + 2 * fuel →
      Identifiers.setLoop ids key value fuel (j + 1) =
        match findPair (fun k _ => isKey key k) (ids.drop j) with
        | some n => (List.set ids (j + n + 1) value, true)
        | none => (ids, false) := by
  intro fuel
  induction fuel with
  | zero =>
    intro j h
    rw [findPair_drop_none _ _ _ (by omega)]
    rfl
  | succ fuel ih =>
    intro j h
    simp only [Identifiers.setLoop]
    by_cases hlt : j + 1 < ids.length
    · have hc : 1 ≤ j + 1 ∧ j + 1 < ids.length := ⟨by omega, hlt⟩
      rw [dif_pos hc, drop_two_cons ids j hlt]
      simp only [findPair, List.get_eq_getElem, Nat.add_sub_cancel]
      have e0 : ids[j] = ids.getD j default := by
        simp [List.getD_eq_getElem, show j < ids.length by omega]
      rw [e0]
      by_cases hk : isKey key (ids.getD j default) = true
      · have hk' : (!(ids.getD j default).IsNum && (ids.getD j default).Str == key) = true := hk
        rw [if_pos hk', if_pos hk]
      · have hk' : ¬ (!(ids.getD j default).IsNum && (ids.getD j default).Str == key) = true := hk
        rw [if_neg hk', if_neg hk, ih (j + 2) (by omega)]
        cases findPair (fun k _ => isKey key k) (ids.drop (j + 2)) with
        | none => rfl
        | some n => simp only [Option.map_some']; congr 2; omega
    · have hc : ¬ (1 ≤ j + 1 ∧ j + 1 < ids.length) := fun hc => hlt hc.2
      rw [dif_neg hc, findPair_drop_none _ _ _ (by omega)]

/-- What `set` does, in terms of the first key of the map view. -/
theorem set_eq (ids : Identifiers) (key : Bytes) (value : Identifier) :
    Identifiers.set ids key value =
      match findPair (fun k _ => isKey key k) ids with
      | some n => (List.set ids (n + 1) value, true)
      | none => (ids, false) := by
  unfold Identifiers.set
  rw [setLoop_eq ids key value ids.length 0 (by omega)]
  simp

/-- The loop of `Increment`, entered at index `j + 1` with fuel for what is
left of the sequence, adds one to the first numeric value at or after `j`
whose key matches. -/
theorem incrementLoop_eq (ids : Identifiers) (key : Bytes) :
    ∀ (fuel j : Nat), ids.length ≤ j + 1 + 2 * fuel →
      Identifiers.incrementLoop ids key fuel (j + 1) =
        match findPair (fun k v => isKey key k && v.IsNum) (ids.drop j) with
        | some n =>
          (List.set ids (j + n + 1)
              { ids.getD (j + n + 1) default with
                Num := ((ids.getD (j + n + 1) default).Num + 1) % 2 ^ 64 },
            ((ids.getD (j + n + 1) default).Num + 1) % 2 ^ 64, true)
        | none => (ids, 0, false) := by
  intro fuel
  induction fuel with
  | zero =>
    intro j h
    rw [findPair_drop_none _ _ _ (by omega)]
    rfl
  | succ fuel ih =>
    intro j h
    simp only [Identifiers.incrementLoop]
    by_cases hlt : j + 1 < ids.length
    · have hc : 1 ≤ j + 1 ∧ j + 1 < ids.length := ⟨by omega, hlt⟩
      rw [dif_pos hc, drop_two_cons ids j hlt]
      simp only [findPair, List.get_eq_getElem, Nat.add_sub_cancel]
      have e0 : ids[j] = ids.getD j default := by
        simp [List.getD_eq_getElem, show j < ids.length by omega]
      have e1 : ids[j + 1] = ids.getD (j + 1) default := by
        simp [List.getD_eq_getElem, hlt]
      rw [e0, e1]
      by_cases hk : (isKey key (ids.getD j default) && (ids.getD (j + 1) default).IsNum) = true
      · have hk' : (!(ids.getD j default).IsNum && (ids.getD j default).Str == key &&
            (ids.getD (j + 1) default).IsNum) = true := hk
        rw [if_pos hk', if_pos hk]
      · have hk' : ¬ (!(ids.getD j default).IsNum && (ids.getD j default).Str == key &&
            (ids.getD (j + 1) default).IsNum) = true := hk
        rw [if_neg hk', if_neg hk, ih (j + 2) (by omega)]
        cases findPair (fun k v => isKey key k && v.IsNum) (ids.drop (j + 2)) with
        | none => rfl
        | some n =>
          simp only [Option.map_some']
          rw [show j + 2 + n + 1 = j + (n + 2) + 1 by omega]
    · have hc : ¬ (1 ≤ j + 1 ∧ j + 1 < ids.length) := fun hc => hlt hc.2
      rw [dif_neg hc, findPair_drop_none _ _ _ (by omega)]

/-- What `Increment` does, in terms of the first key of the map view that is
followed by a numeric value. -/
theorem increment_eq (ids : Identifiers) (key : Bytes) :
    ids.Increment key =
      match findPair (fun k v => isKey key k && v.IsNum) ids with
      | some n =>
        (List.set ids (n + 1)
            { ids.getD (n + 1) default with
              Num := ((ids.getD (n + 1) default).Num + 1) % 2 ^ 64 },
          ((ids.getD (n + 1) default).Num + 1) % 2 ^ 64, true)
      | none => (ids, 0, false) := by
  unfold Identifiers.Increment
  rw [incrementLoop_eq ids key ids.length 0 (by omega)]
  simp

theorem isKeyAt_iff (ids : Identifiers) (key : Bytes) (i : Nat) :
    IsKeyAt ids key i ↔
      i % 2 = 0 ∧ i + 1 < ids.length ∧ isKey key (ids.getD i default) = true := Iff.rfl

/-- The first key of the map view, as `findPair` finds it. -/
theorem findPair_key_some_iff (ids : Identifiers) (key : Bytes) (n : Nat) :
    findPair (fun k _ => isKey key k) ids = some n ↔
      IsKeyAt ids key n ∧ ∀ j, j < n → ¬ IsKeyAt ids key j := by
  rw [findPair_eq_some_iff]
  constructor
  · rintro ⟨h1, h2, h3, h4⟩
    refine ⟨⟨h1, h2, h3⟩, ?_⟩
    rintro j hj ⟨g1, _, g3⟩
    have := h4 j hj g1
    rw [this] at g3
    cases g3
  · rintro ⟨⟨h1, h2, h3⟩, h4⟩
    refine ⟨h1, h2, h3, ?_⟩
    intro m hm hm2
    by_contra hc
    exact h4 m hm ⟨hm2, by omega, by simpa using hc⟩

theorem findPair_key_none_iff (ids : Identifiers) (key : Bytes) :
    findPair (fun k _ => isKey key k) ids = none ↔ ∀ i, ¬ IsKeyAt ids key i := by
  rw [findPair_eq_none_iff]
  constructor
  · rintro h i ⟨g1, g2, g3⟩
    have := h i g1 g2
    rw [this] at g3
    cases g3
  · intro h m hm hlen
    by_contra hc
    exact h m ⟨hm, hlen, by simpa using hc⟩

/-- C21: `Get` returns the element after the first key of the map view equal
to `key`, with `true`; a key is a text identifier at an even index that is not
the last one. When there is no such key it returns the zero identifier with
`false`: so `c` (at a value index), `3` (the decimal form of a numeric
identifier) and `e` (at the final index) are absent from a.12.b.c.3.d.e. -/
theorem get_map_view (ids : Identifiers) (key : Bytes) :
    (∀ i, IsKeyAt ids key i → (∀ j, j < i → ¬ IsKeyAt ids key j) →
        ids.Get key = (ids.getD (i + 1) default, true)) ∧
      ((∀ i, ¬ IsKeyAt ids key i) → ids.Get key = (default, false)) ∧
      mapViewExample.Get (ascii "c") = (default, false) ∧
      mapViewExample.Get (ascii "3") = (default, false) ∧
      mapViewExample.Get (ascii "e") = (default, false) ∧
      mapViewExample.Get (ascii "foo") = (default, false) := by
  refine ⟨?_, ?_, by decide, by decide, by decide, by decide⟩
  · intro i hi hmin
    rw [get_eq, (findPair_key_some_iff ids key i).2 ⟨hi, hmin⟩]
  · intro h
    rw [get_eq, (findPair_key_none_iff ids key).2 h]

/-- Witness for C21: in a.12.b.c.3.d.e the key `b` sits at index 2 and `Get`
returns the text identifier `c` after it. -/
theorem get_map_view_witness :
    mapViewExample.Get (ascii "b") = ({ Str := ascii "c" }, true) :=
  (get_map_view mapViewExample (ascii "b")).1 2 (by decide) (by decide)

theorem getD_set_ne (ids : Identifiers) (i m : Nat) (value : Identifier) (h : m ≠ i) :
    (List.set ids i value).getD m default = ids.getD m default := by
  simp only [List.getD_eq_getElem?_getD]
  rw [List.getElem?_set_ne (Ne.symm h)]

theorem getD_set_self (ids : Identifiers) (i : Nat) (value : Identifier) (h : i < ids.length) :
    (List.set ids i value).getD i default = value := by
  simp only [List.getD_eq_getElem?_getD]
  rw [List.getElem?_set_self h]
  rfl

/-- C22: `SetWithString` and `SetWithNumber` are `set` with the text identifier
`{Str: s}` and the numeric identifier `{Num: n, IsNum: true}`. When the key is
absent from the map view `set` returns `false` and the sequence as it was;
otherwise it returns `true` and the sequence with the element after the first
matching key replaced by the given identifier: same length, every other
element as before. -/
theorem set_map_view (ids : Identifiers) (key s : Bytes) (n : Nat) (value : Identifier) :
    ids.SetWithString key s = Identifiers.set ids key { Str := s, Num := 0, IsNum := false } ∧
      ids.SetWithNumber key n = Identifiers.set ids key { Str := [], Num := n, IsNum := true } ∧
      ((∀ i, ¬ IsKeyAt ids key i) → Identifiers.set ids key value = (ids, false)) ∧
      (∀ i, IsKeyAt ids key i → (∀ j, j < i → ¬ IsKeyAt ids key j) →
        (Identifiers.set ids key value).2 = true ∧
        (Identifiers.set ids key value).1 = List.set ids (i + 1) value ∧
        (Identifiers.set ids key value).1.length = ids.length ∧
        (Identifiers.set ids key value).1.getD (i + 1) default = value ∧
        ∀ m, m ≠ i + 1 →
          (Identifiers.set ids key value).1.getD m default = ids.getD m default) := by
  refine ⟨rfl, rfl, ?_, ?_⟩
  · intro h
    rw [set_eq, (findPair_key_none_iff ids key).2 h]
  · intro i hi hmin
    rw [set_eq, (findPair_key_some_iff ids key i).2 ⟨hi, hmin⟩]
    refine ⟨rfl, rfl, by simp, getD_set_self ids (i + 1) value hi.2.1, ?_⟩
    intro m hm
    exact getD_set_ne ids (i + 1) m value hm

/-- Witness for C22: in a.12.b.c.3.d.e setting `a` to 42 gives a.42.b.c.3.d.e,
and setting the dangling key `e` changes nothing. -/
theorem set_map_view_witness :
    (mapViewExample.SetWithNumber (ascii "a") 42).2 = true ∧
      (mapViewExample.SetWithNumber (ascii "a") 42).1.String = ascii "a.42.b.c.3.d.e" ∧
      mapViewExample.SetWithString (ascii "e") (ascii "end") = (mapViewExample, false) :=
  ⟨((set_map_view mapViewExample (ascii "a") [] 42 { Num := 42, IsNum := true }).2.2.2 0
      (by decide) (by decide)).1,
    by decide,
    (set_map_view mapViewExample (ascii "e") (ascii "end") 0 { Str := ascii "end" }).2.2.1
      (by
        rintro i ⟨_, h2, h3⟩
        have hi : i < 6 := by
          have : mapViewExample.length = 7 := rfl
          omega
        interval_cases i <;> revert h3 <;> decide)⟩

theorem findPair_numeric_none_iff (ids : Identifiers) (key : Bytes) :
    findPair (fun k v => isKey key k && v.IsNum) ids = none ↔
      ∀ i, IsKeyAt ids key i → (ids.getD (i + 1) default).IsNum = false := by
  rw [findPair_eq_none_iff]
  constructor
  · rintro h i ⟨g1, g2, g3⟩
    have := h i g1 g2
    rw [g3] at this
    simpa using this
  · intro h m hm hlen
    by_cases hk : isKey key (ids.getD m default) = true
    · have := h m ⟨hm, hlen, hk⟩
      show (isKey key (ids.getD m default) && (ids.getD (m + 1) default).IsNum) = false
      rw [this, Bool.and_false]
    · show (isKey key (ids.getD m default) && (ids.getD (m + 1) default).IsNum) = false
      rw [eq_false_of_ne_true hk, Bool.false_and]

theorem increment_found_or_unchanged (ids : Identifiers) (key : Bytes) :
    (findPair (fun k v => isKey key k && v.IsNum) ids = none ∧ ids.Increment key = (ids, 0, false)) ∨
      ∃ n, findPair (fun k v => isKey key k && v.IsNum) ids = some n ∧
        ids.Increment key =
          (List.set ids (n + 1)
              { ids.getD (n + 1) default with
                Num := ((ids.getD (n + 1) default).Num + 1) % 2 ^ 64 },
            ((ids.getD (n + 1) default).Num + 1) % 2 ^ 64, true) := by
  rw [increment_eq]
  cases h : findPair (fun k v => isKey key k && v.IsNum) ids with
  | none => exact Or.inl ⟨rfl, rfl⟩
  | some n => exact Or.inr ⟨n, rfl, rfl⟩

/-- C23, as the code has it: `Increment` returns not-found exactly when no key
of the map view equal to `key` is followed by a numeric value, and then the
sequence is unchanged. Not-found implies that `key` is absent or that the
value `Get` returns is not numeric; the converse holds when `key` occurs at
most once as a key. -/
theorem increment_not_found_iff (ids : Identifiers) (key : Bytes) :
    ((ids.Increment key).2.2 = false ↔
        ∀ i, IsKeyAt ids key i → (ids.getD (i + 1) default).IsNum = false) ∧
      ((ids.Increment key).2.2 = false → (ids.Increment key).1 = ids) ∧
      ((ids.Increment key).2.2 = false →
        (∀ i, ¬ IsKeyAt ids key i) ∨ (ids.Get key).1.IsNum = false) ∧
      ((∀ i j, IsKeyAt ids key i → IsKeyAt ids key j → i = j) →
        ((∀ i, ¬ IsKeyAt ids key i) ∨ (ids.Get key).1.IsNum = false) →
        (ids.Increment key).2.2 = false) := by
  have hmain : (ids.Increment key).2.2 = false ↔
      ∀ i, IsKeyAt ids key i → (ids.getD (i + 1) default).IsNum = false := by
    rw [← findPair_numeric_none_iff]
    rcases increment_found_or_unchanged ids key with ⟨h1, h2⟩ | ⟨n, h1, h2⟩
    · simp [h1, h2]
    · simp [h1, h2]
  have hget : (∀ i, IsKeyAt ids key i → (ids.getD (i + 1) default).IsNum = false) →
      (ids.Get key).1.IsNum = false := by
    intro h
    rw [get_eq]
    cases hf : findPair (fun k _ => isKey key k) ids with
    | none => rfl
    | some n => exact h n ((findPair_key_some_iff ids key n).1 hf).1
  refine ⟨hmain, ?_, ?_, ?_⟩
  · intro h
    rcases increment_found_or_unchanged ids key with ⟨_, h2⟩ | ⟨n, _, h2⟩
    · rw [h2]
    · rw [h2] at h; cases h
  · intro h
    exact Or.inr (hget (hmain.1 h))
  · intro huniq h
    rw [hmain]
    intro i hi
    rcases h with h | h
    · exact absurd hi (h i)
    · rw [get_eq] at h
      cases hf : findPair (fun k _ => isKey key k) ids with
      | none => exact absurd hi ((findPair_key_none_iff ids key).1 hf i)
      | some n =>
        rw [hf] at h
        have hn := ((findPair_key_some_iff ids key n).1 hf).1
        rw [huniq i n hi hn]
        exact h

/-- Counterexample to C23 as stated: in a.x.a.5 the key `a` is present and the
value `Get` returns for it, `x`, is not numeric, yet `Increment` finds the
second `a`, whose value is numeric, and returns 6 with `true`. -/
theorem increment_skips_text_value :
    (Identifiers.Get [{ Str := ascii "a" }, { Str := ascii "x" }, { Str := ascii "a" },
          { Num := 5, IsNum := true }] (ascii "a")) = ({ Str := ascii "x" }, true) ∧
      (Identifiers.Increment [{ Str := ascii "a" }, { Str := ascii "x" }, { Str := ascii "a" },
          { Num := 5, IsNum := true }] (ascii "a")).2 = (6, true) ∧
      NewVersion (ascii "1.0.0-a.x.a.5") =
        .ok { Major := 1, PreRelease := [{ Str := ascii "a" }, { Str := ascii "x" },
                { Str := ascii "a" }, { Num := 5, IsNum := true }] } :=
  ⟨by decide, by decide, rfl⟩

/-- C24: when `Increment` returns `(n, true)`, some key of the map view equal
to `key` is followed by a numeric value with `Num = m`; afterwards that value
has `Num = (m + 1) mod 2^64`, which differs from `m` and is the `n` returned,
and nothing else has changed: same length, every other element as before. -/
theorem increment_effect (ids after : Identifiers) (key : Bytes) (n : Nat)
    (h : ids.Increment key = (after, n, true)) :
    ∃ i, IsKeyAt ids key i ∧ (ids.getD (i + 1) default).IsNum = true ∧
      n = ((ids.getD (i + 1) default).Num + 1) % 2 ^ 64 ∧
      after = List.set ids (i + 1) { ids.getD (i + 1) default with Num := n } ∧
      after.length = ids.length ∧
      after.getD (i + 1) default = { ids.getD (i + 1) default with Num := n } ∧
      (after.getD (i + 1) default).Num ≠ (ids.getD (i + 1) default).Num ∧
      ∀ m, m ≠ i + 1 → after.getD m default = ids.getD m default := by
  rcases increment_found_or_unchanged ids key with ⟨_, h2⟩ | ⟨i, h1, h2⟩
  · rw [h2] at h; cases h
  · rw [h2] at h
    simp only [Prod.mk.injEq, and_true] at h
    obtain ⟨hafter, hn⟩ := h
    obtain ⟨g1, g2, g3, _⟩ := (findPair_eq_some_iff _ ids i).1 h1
    simp only [Bool.and_eq_true] at g3
    have hset : after = List.set ids (i + 1) { ids.getD (i + 1) default with Num := n } := by
      rw [← hafter, hn]
    have hval := getD_set_self ids (i + 1) { ids.getD (i + 1) default with Num := n } g2
    refine ⟨i, ⟨g1, g2, g3.1⟩, g3.2, hn.symm, hset, by rw [hset]; simp, by rw [hset]; exact hval,
      ?_, ?_⟩
    · rw [hset, hval]
      simp only
      rw [← hn]
      omega
    · intro m hm
      rw [hset]
      exact getD_set_ne ids (i + 1) m _ hm

/-- Witness for C24: incrementing `a` in a.12.b.c.3.d.e returns 13 and gives
a.13.b.c.3.d.e. -/
theorem increment_effect_witness :
    Identifiers.String
        [{ Str := ascii "a" }, { Num := 13, IsNum := true }, { Str := ascii "b" },
          { Str := ascii "c" }, { Num := 3, IsNum := true }, { Str := ascii "d" },
          { Str := ascii "e" }] = ascii "a.13.b.c.3.d.e" ∧
      ∃ i, IsKeyAt mapViewExample (ascii "a") i ∧
        (mapViewExample.getD (i + 1) default).IsNum = true ∧
        13 = ((mapViewExample.getD (i + 1) default).Num + 1) % 2 ^ 64 :=
  ⟨by decide,
    (increment_effect mapViewExample
      [{ Str := ascii "a" }, { Num := 13, IsNum := true }, { Str := ascii "b" },
        { Str := ascii "c" }, { Num := 3, IsNum := true }, { Str := ascii "d" },
        { Str := ascii "e" }] (ascii "a") 13 (by decide)).imp
      (fun _ h => ⟨h.1, h.2.1, h.2.2.1⟩)⟩

/-! ## Strings with too few parts -/

theorem splitN_three_count (s p0 p1 p2 : Bytes) (h : SplitN s 46 3 = [p0, p1, p2]) :
    2 ≤ s.count 46 := by
  obtain ⟨hs, _, _⟩ := (splitN_three s p0 p1 p2).1 h
  rw [hs]
  simp only [List.count_append, List.count_cons_self]
  omega

/-- C28: `NewVersion` fails for the empty string, with the error for an empty
version string, and for every other string with fewer than two dots, whatever
else it holds, with the error for missing elements. -/
theorem newVersion_needs_two_dots (s : Bytes) (h : s.count 46 < 2) :
    (∃ err, NewVersion s = .error err) ∧
      (s = [] → NewVersion s = .error .versionEmpty) ∧
      (s ≠ [] → NewVersion s = .error .noElements) := by
  have hthree : ∀ p0 p1 p2, SplitN s 46 3 ≠ [p0, p1, p2] := by
    intro p0 p1 p2 hsp
    have := splitN_three_count s p0 p1 p2 hsp
    omega
  have hempty : s = [] → NewVersion s = .error .versionEmpty := by
    intro e; rw [e]; rfl
  have hne : s ≠ [] → NewVersion s = .error .noElements := by
    intro hs
    have hlen : ¬ s.length = 0 := by simpa using hs
    unfold NewVersion Version.Set
    rw [if_neg hlen]
    cases hsp : SplitN s 46 3 with
    | nil => rfl
    | cons a l1 =>
      cases l1 with
      | nil => rfl
      | cons b l2 =>
        cases l2 with
        | nil => rfl
        | cons c l3 =>
          cases l3 with
          | nil => exact absurd hsp (hthree a b c)
          | cons d l4 => rfl
  refine ⟨?_, hempty, hne⟩
  by_cases hs : s = []
  · exact ⟨_, hempty hs⟩
  · exact ⟨_, hne hs⟩

/-- Witness for C28: `1.2-alpha+build` has one dot. -/
theorem newVersion_needs_two_dots_witness :
    (∃ err, NewVersion (ascii "1.2-alpha+build") = .error err) ∧
      (ascii "1.2-alpha+build" = [] → NewVersion (ascii "1.2-alpha+build") = .error .versionEmpty) ∧
      (ascii "1.2-alpha+build" ≠ [] → NewVersion (ascii "1.2-alpha+build") = .error .noElements) :=
  newVersion_needs_two_dots (ascii "1.2-alpha+build") (by decide)

/-! ## Validity of identifiers under the map-view methods -/

theorem newIdentifier_valid (s : Bytes) (strict : Bool) (id : Identifier)
    (h : newIdentifier s strict = .ok id) : IsValidIdentifier id := by
  obtain ⟨hne, h | h | h⟩ := (newIdentifier_ok_iff s strict id).1 h
  · rw [h.2.2.2]
    exact Or.inr ⟨hne, fun c hc => Or.inl (h.1 c hc)⟩
  · rw [h.2.2.2]
    exact Or.inl rfl
  · rw [h.2.2]
    exact Or.inr ⟨hne, h.2.1⟩

theorem set_valid (ids : Identifiers) (key : Bytes) (value : Identifier)
    (hids : ∀ id ∈ ids, IsValidIdentifier id) (hv : IsValidIdentifier value) :
    ∀ id ∈ (Identifiers.set ids key value).1, IsValidIdentifier id := by
  rw [set_eq]
  cases findPair (fun k _ => isKey key k) ids with
  | none => exact hids
  | some n =>
    intro id hid
    rcases List.mem_or_eq_of_mem_set hid with h | h
    · exact hids id h
    · rw [h]; exact hv

theorem increment_valid (ids : Identifiers) (key : Bytes)
    (hids : ∀ id ∈ ids, IsValidIdentifier id) :
    ∀ id ∈ (ids.Increment key).1, IsValidIdentifier id := by
  rcases increment_found_or_unchanged ids key with ⟨_, h2⟩ | ⟨n, h1, h2⟩
  · rw [h2]; exact hids
  · rw [h2]
    obtain ⟨_, _, g3, _⟩ := (findPair_eq_some_iff _ ids n).1 h1
    simp only [Bool.and_eq_true] at g3
    intro id hid
    rcases List.mem_or_eq_of_mem_set hid with h | h
    · exact hids id h
    · rw [h]; exact Or.inl g3.2

/-- C30, as the code has it: every identifier `newIdentifier` returns is
numeric or a non-empty text token over `[0-9A-Za-z-]`, and so is every element
of a sequence obtained from such identifiers by any number of `SetWithNumber`
and `Increment` calls and of `SetWithString` calls whose string is itself such
a token. -/
theorem identifier_validity_invariant (ids : Identifiers) (ops : List MapOp)
    (hids : ∀ id ∈ ids, IsValidIdentifier id) (hops : ∀ op ∈ ops, op.StoresToken) :
    (∀ s strict id, newIdentifier s strict = .ok id → IsValidIdentifier id) ∧
      ∀ id ∈ ops.foldl (fun acc op => op.apply acc) ids, IsValidIdentifier id := by
  refine ⟨newIdentifier_valid, ?_⟩
  induction ops generalizing ids with
  | nil => exact hids
  | cons op rest ih =>
    simp only [List.foldl_cons]
    apply ih
    · have hop := hops op (by simp)
      cases op with
      | setWithString key s => exact set_valid ids key _ hids (Or.inr hop)
      | setWithNumber key n => exact set_valid ids key _ hids (Or.inl rfl)
      | increment key => exact increment_valid ids key hids
    · intro o ho
      exact hops o (by simp [ho])

/-- Witness for C30: a.12.b.c.3.d.e under the calls of the package's tests. -/
theorem identifier_validity_invariant_witness :
    (∀ id ∈ mapViewExample, IsValidIdentifier id) ∧
    (∀ op ∈ [MapOp.increment (ascii "a"), .setWithNumber (ascii "a") 42,
        .setWithString (ascii "a") (ascii "bar"), .setWithString (ascii "b") (ascii "car")],
      op.StoresToken) ∧
    ∀ id ∈ List.foldl (fun acc (op : MapOp) => op.apply acc) mapViewExample
        [.increment (ascii "a"), .setWithNumber (ascii "a") 42,
          .setWithString (ascii "a") (ascii "bar"), .setWithString (ascii "b") (ascii "car")],
      IsValidIdentifier id :=
  ⟨by decide, by decide,
    (identifier_validity_invariant mapViewExample
      [.increment (ascii "a"), .setWithNumber (ascii "a") 42,
        .setWithString (ascii "a") (ascii "bar"), .setWithString (ascii "b") (ascii "car")]
      (by decide) (by decide)).2⟩

/-- Counterexample to C30 as stated: on the sequence a.12, whose identifiers
come from `newIdentifier`, `SetWithString("a", "")` stores the empty text
identifier and `SetWithString("a", "b#r")` one with a byte outside
`[0-9A-Za-z-]`; neither is numeric or a valid text token. -/
theorem setWithString_stores_unchecked :
    newIdentifier (ascii "a") true = .ok { Str := ascii "a" } ∧
      newIdentifier (ascii "12") true = .ok { Num := 12, IsNum := true } ∧
      Identifiers.SetWithString [{ Str := ascii "a" }, { Num := 12, IsNum := true }]
          (ascii "a") [] = ([{ Str := ascii "a" }, { Str := [] }], true) ∧
      ¬ IsValidIdentifier { Str := [] } ∧
      Identifiers.SetWithString [{ Str := ascii "a" }, { Num := 12, IsNum := true }]
          (ascii "a") (ascii "b#r") = ([{ Str := ascii "a" }, { Str := ascii "b#r" }], true) ∧
      ¬ IsValidIdentifier { Str := ascii "b#r" } :=
  ⟨rfl, rfl, by decide, by decide, by decide, by decide⟩

/-! ## Cloning -/

theorem identifiers_clone_eq (ids : Identifiers) : Identifiers.Clone ids = ids := by
  unfold Identifiers.Clone
  induction ids with
  | nil => rfl
  | cons a as ih => simp [List.replicate_succ, ih]

theorem mutate_arrays_ne (h : Heap) (a b : Nat) (op : MapOp) (hne : b ≠ a) :
    (h.mutate a op).arrays b = h.arrays b := by
  simp [Heap.mutate, Function.update, hne]

/-- Mutating calls on slices at addresses from `bound` on leave the backing
arrays below `bound` as they were. -/
theorem mutateAll_arrays_below (calls : List (Nat × MapOp)) (bound : Nat) :
    ∀ (h : Heap), (∀ call ∈ calls, bound ≤ call.1) →
      ∀ b, b < bound → (h.mutateAll calls).arrays b = h.arrays b := by
  induction calls with
  | nil => intro h _ b _; rfl
  | cons call rest ih =>
    intro h hc b hb
    have h1 : bound ≤ call.1 := hc call (by simp)
    show ((h.mutate call.1 call.2).mutateAll rest).arrays b = h.arrays b
    rw [ih (h.mutate call.1 call.2) (fun c hcm => hc c (by simp [hcm])) b hb]
    exact mutate_arrays_ne h call.1 b call.2 (by omega)

/-- C29: `Clone` is a deep copy. The clone of a version whose sequences are in
use has the same numbers and sequences equal to the original's, element for
element (`Identifiers.Clone` returns the same elements, in the same number);
its sequences live in backing arrays of their own, so any series of
`SetWithString`, `SetWithNumber` and `Increment` calls on the clone's sequences
leaves the original's numbers and sequences as they were. -/
theorem clone_deep_copy (h : Heap) (r : VersionRef) (ids : Identifiers)
    (calls : List (Nat × MapOp))
    (hpre : r.PreRelease < h.next) (hmd : r.Metadata < h.next)
    (hcalls : ∀ call ∈ calls, call.1 = (h.cloneVersion r).2.PreRelease ∨
      call.1 = (h.cloneVersion r).2.Metadata) :
    (h.cloneVersion r).1.version (h.cloneVersion r).2 = h.version r ∧
      (h.cloneVersion r).1.version r = h.version r ∧
      (h.cloneVersion r).2.PreRelease ≠ r.PreRelease ∧
      (h.cloneVersion r).2.Metadata ≠ r.Metadata ∧
      (h.cloneVersion r).2.PreRelease ≠ r.Metadata ∧
      (h.cloneVersion r).2.Metadata ≠ r.PreRelease ∧
      Identifiers.Clone ids = ids ∧ (Identifiers.Clone ids).length = ids.length ∧
      ((h.cloneVersion r).1.mutateAll calls).version r = h.version r := by
  have e1 : (h.cloneVersion r).2.PreRelease = h.next := rfl
  have e2 : (h.cloneVersion r).2.Metadata = h.next + 1 := rfl
  have hbelow : ∀ b, b < h.next → (h.cloneVersion r).1.arrays b = h.arrays b := by
    intro b hb
    simp only [Heap.cloneVersion, Heap.clone, Function.update]
    have n1 : ¬ b = h.next + 1 := by omega
    have n2 : ¬ b = h.next := by omega
    simp [n1, n2]
  have hclone : (h.cloneVersion r).1.version (h.cloneVersion r).2 = h.version r := by
    have n1 : ¬ h.next = h.next + 1 := by omega
    have n2 : ¬ r.Metadata = h.next := by omega
    simp [Heap.cloneVersion, Heap.clone, Heap.version, Function.update, identifiers_clone_eq,
      n1, n2]
  have horig : (h.cloneVersion r).1.version r = h.version r := by
    simp only [Heap.version]
    rw [hbelow _ hpre, hbelow _ hmd]
  refine ⟨hclone, horig, by omega, by omega, by omega, by omega, identifiers_clone_eq ids,
    by rw [identifiers_clone_eq], ?_⟩
  have hge : ∀ call ∈ calls, h.next ≤ call.1 := by
    intro call hc
    rcases hcalls call hc with e | e <;> omega
  have hm := mutateAll_arrays_below calls h.next (h.cloneVersion r).1 hge
  rw [← horig]
  simp only [Heap.version]
  rw [hm _ hpre, hm _ hmd]

/-- Witness for C29: the version 1.2.3-a.12+a.12 with its sequences at
addresses 0 and 1; its clone's sequences are at addresses 2 and 3, and setting
`a` in both leaves the original as it was. -/
theorem clone_deep_copy_witness :
    (((Heap.cloneVersion
            ⟨fun a => if a < 2 then [{ Str := ascii "a" }, { Num := 12, IsNum := true }] else [], 2⟩
            ⟨1, 2, 3, 0, 1⟩).1.mutateAll
          [(2, .setWithNumber (ascii "a") 42), (3, .setWithString (ascii "a") (ascii "bar"))]).version
        ⟨1, 2, 3, 0, 1⟩) =
      { Major := 1, Minor := 2, Patch := 3,
        PreRelease := [{ Str := ascii "a" }, { Num := 12, IsNum := true }],
        Metadata := [{ Str := ascii "a" }, { Num := 12, IsNum := true }] } :=
  (clone_deep_copy
    ⟨fun a => if a < 2 then [{ Str := ascii "a" }, { Num := 12, IsNum := true }] else [], 2⟩
    ⟨1, 2, 3, 0, 1⟩ []
    [(2, .setWithNumber (ascii "a") 42), (3, .setWithString (ascii "a") (ascii "bar"))]
    (by decide) (by decide) (by decide)).2.2.2.2.2.2.2.2

/-! ## Tokens of a range expression -/

theorem joinSpaces_cons_cons (t u : Bytes) (l : List Bytes) :
    joinSpaces (t :: u :: l) = t ++ 32 :: joinSpaces (u :: l) := by
  simp [joinSpaces]

theorem split_joinSpaces (l : List Bytes) (hne : l ≠ []) (h : ∀ t ∈ l, 32 ∉ t) :
    Split (joinSpaces l) 32 = l := by
  induction l with
  | nil => exact absurd rfl hne
  | cons t ts ih =>
    cases ts with
    | nil => simpa [joinSpaces] using split_no_sep_self t 32 (h t (by simp))
    | cons u us =>
      rw [joinSpaces_cons_cons, split_append_sep _ _ _ (h t (by simp)),
        ih (by simp) (fun x hx => h x (by simp [hx]))]

/-- Splitting on spaces gives back the tokens that were joined by spaces, when
none is empty or holds a space. -/
theorem fields_joinSpaces (l : List Bytes) (h : ∀ t ∈ l, t ≠ [] ∧ 32 ∉ t) :
    (Split (joinSpaces l) 32).filter (fun t => t ≠ []) = l := by
  cases l with
  | nil => simp [joinSpaces, Split]
  | cons t ts =>
    rw [split_joinSpaces _ (by simp) (fun x hx => (h x hx).2)]
    rw [List.filter_eq_self]
    intro x hx
    simpa using (h x hx).1

theorem rejoin_id : ∀ (l : List Bytes), (∀ t ∈ l, isLoneComparator t = false) → rejoin l = l
  | [], _ => rfl
  | [_], _ => rfl
  | t :: u :: rest, h => by
    have ht : isLoneComparator t = false := h t (by simp)
    have ih := rejoin_id (u :: rest) (fun x hx => h x (by simp [hx]))
    simp only [rejoin, ht, Bool.false_eq_true, if_false, ih]

theorem splitOnOr_ne_nil (l : List Bytes) : splitOnOr l ≠ [] := by
  induction l with
  | nil => simp [splitOnOr]
  | cons t ts ih =>
    simp only [splitOnOr]
    split_ifs
    · simp
    · cases h : splitOnOr ts <;> simp

theorem splitOnOr_no_or (g : List Bytes) (h : orToken ∉ g) : splitOnOr g = [g] := by
  induction g with
  | nil => rfl
  | cons t ts ih =>
    simp only [List.mem_cons, not_or] at h
    have ht : ¬ t = orToken := fun e => h.1 e.symm
    simp [splitOnOr, ht, ih h.2]

theorem splitOnOr_append_or (g rest : List Bytes) (h : orToken ∉ g) :
    splitOnOr (g ++ orToken :: rest) = g :: splitOnOr rest := by
  induction g with
  | nil => simp [splitOnOr]
  | cons t ts ih =>
    simp only [List.mem_cons, not_or] at h
    have ht : ¬ t = orToken := fun e => h.1 e.symm
    rw [show (t :: ts) ++ orToken :: rest = t :: (ts ++ orToken :: rest) from rfl]
    simp [splitOnOr, ht, ih h.2]

/-- The token stream of a list of groups splits at its `||` tokens into the
groups it was made from, when no term is the token `||`. -/
theorem splitOnOr_tokenStream : ∀ (gs : List (List WrittenTerm)), gs ≠ [] →
    (∀ g ∈ gs, ∀ t ∈ g, t.op ++ t.text ≠ orToken) →
    splitOnOr (tokenStream gs) = gs.map (fun g => g.map (fun t => t.op ++ t.text))
  | [], h, _ => absurd rfl h
  | [g], _, h => by
    simp only [tokenStream, List.map_cons, List.map_nil]
    apply splitOnOr_no_or
    intro hm
    obtain ⟨t, ht, e⟩ := List.mem_map.1 hm
    exact h g (by simp) t ht e
  | g :: g' :: gs, _, h => by
    have ih := splitOnOr_tokenStream (g' :: gs) (by simp) (fun x hx => h x (by simp [hx]))
    simp only [tokenStream, List.map_cons] at ih ⊢
    rw [splitOnOr_append_or, ih]
    intro hm
    obtain ⟨t, ht, e⟩ := List.mem_map.1 hm
    exact h g (by simp) t ht e

theorem mapExcept_ok_of_forall {α β : Type} (f : α → Except RangeError β) (g : α → β) :
    ∀ (l : List α), (∀ a ∈ l, f a = .ok (g a)) → mapExcept f l = .ok (l.map g)
  | [], _ => rfl
  | a :: as, h => by
    have ih := mapExcept_ok_of_forall f g as (fun x hx => h x (by simp [hx]))
    simp [mapExcept, h a (by simp), ih]

theorem mapExcept_ok_mem {α β : Type} (f : α → Except RangeError β) :
    ∀ (l : List α) (bs : List β), mapExcept f l = .ok bs → ∀ a ∈ l, ∃ b, f a = .ok b
  | [], _, _ => by simp
  | a :: as, bs, h => by
    simp only [mapExcept] at h
    cases ha : f a with
    | error e => rw [ha] at h; cases h
    | ok b =>
      rw [ha] at h
      cases hr : mapExcept f as with
      | error e => rw [hr] at h; cases h
      | ok bs' =>
        have ih := mapExcept_ok_mem f as bs' hr
        intro x hx
        rcases List.mem_cons.1 hx with rfl | hx
        · exact ⟨b, ha⟩
        · exact ih x hx

/-! ## Terms of a range expression -/

theorem parseComparator_some (op : Bytes) (c : Comparator) (h : parseComparator op = some c) :
    op.all isComparatorByte = true := by
  unfold parseComparator at h
  split_ifs at h with h1 h2 h3 h4 h5 h6
  · rw [h1]; decide
  · rw [h2]; decide
  · rw [h3]; decide
  · rw [h4]; decide
  · rcases h5 with e | e | e <;> rw [e] <;> decide
  · rcases h6 with e | e <;> rw [e] <;> decide

theorem comparatorByte_not_identifier (c : Nat) (h : isComparatorByte c = true) :
    ¬ (IsIdentifierByte c ∨ c = 46 ∨ c = 43) ∧ c ≠ 32 ∧ c ≠ 124 := by
  simp only [isComparatorByte, Bool.or_eq_true, beq_iff_eq] at h
  unfold IsIdentifierByte
  omega

/-- The bytes of an accepted version string: it starts with a digit and holds
only bytes of `[0-9A-Za-z-]`, dots and `+`. -/
theorem newVersion_ok_bytes (w : Bytes) (v : Version) (h : NewVersion w = .ok v) :
    (∃ c rest, w = c :: rest ∧ IsDigitByte c) ∧
      ∀ c ∈ w, IsIdentifierByte c ∨ c = 46 ∨ c = 43 := by
  obtain ⟨p0, p1, p2, hsp, g0, g1, g2, g3, g4⟩ := (newVersion_ok_iff w v).1 h
  obtain ⟨hs, _, _⟩ := (splitN_three w p0 p1 p2).1 hsp
  obtain ⟨a0, b0, _⟩ := (checkNumber_ok_iff _ _ _ _).1 g0
  obtain ⟨_, b1, _⟩ := (checkNumber_ok_iff _ _ _ _).1 g1
  obtain ⟨_, b2, _⟩ := (checkNumber_ok_iff _ _ _ _).1 g2
  obtain ⟨pre, _, fpre⟩ := (appendIdentifiers_ok_iff _ _ _ _).1 g3
  obtain ⟨md, _, fmd⟩ := (appendIdentifiers_ok_iff _ _ _ _).1 g4
  constructor
  · cases p0 with
    | nil => exact absurd rfl a0
    | cons c rest => exact ⟨c, _, by rw [hs]; rfl, b0 c (by simp)⟩
  · intro c hc
    have dig : ∀ x, (48 ≤ x ∧ x ≤ 57) → IsIdentifierByte x := fun x hx => Or.inl hx
    rw [hs] at hc
    rcases List.mem_append.1 hc with hc | hc
    · exact Or.inl (dig c (b0 c hc))
    rcases List.mem_cons.1 hc with hc | hc
    · exact Or.inr (Or.inl hc)
    rcases List.mem_append.1 hc with hc | hc
    · exact Or.inl (dig c (b1 c hc))
    rcases List.mem_cons.1 hc with hc | hc
    · exact Or.inr (Or.inl hc)
    rw [splitPatch_join p2] at hc
    rcases List.mem_append.1 hc with hc | hc
    · rcases List.mem_append.1 hc with hc | hc
      · exact Or.inl (dig c (b2 c hc))
      · rcases mem_segment _ _ _ hc with e | e | ⟨t, ht, hct⟩
        · exact Or.inl (Or.inr (Or.inr (Or.inr e)))
        · exact Or.inr (Or.inl e)
        · have := (newIdentifier_strict_iff t).1 (forall₂_newIdentifier_mem _ _ _ fpre t ht)
          exact Or.inl (this.2.1 c hct)
    · rcases mem_segment _ _ _ hc with e | e | ⟨t, ht, hct⟩
      · exact Or.inr (Or.inr e)
      · exact Or.inr (Or.inl e)
      · have := (newIdentifier_lenient_iff t).1 (forall₂_newIdentifier_mem _ _ _ fmd t ht)
        exact Or.inl (this.2.1 c hct)

theorem count_eq_zero_of_not_mem (t : Bytes) (c : Nat) (h : c ∉ t) : t.count c = 0 :=
  List.count_eq_zero.2 h

/-- A valid version string is no wildcard. -/
theorem getWildcard_version (w : Bytes) (v : Version) (h : NewVersion w = .ok v) :
    getWildcard w = none := by
  obtain ⟨⟨c, rest, hw, hc⟩, _⟩ := newVersion_ok_bytes w v h
  obtain ⟨p0, p1, p2, hsp3, _⟩ := (newVersion_ok_iff w v).1 h
  have hcount := splitN_three_count w p0 p1 p2 hsp3
  unfold getWildcard
  have hx : ¬ (w = ascii "x" ∨ w = ascii "*") := by
    rintro (e | e)
    · rw [e] at hw
      have : c = 120 := by
        have := congrArg List.head? hw
        simpa [ascii] using this.symm
      unfold IsDigitByte at hc
      omega
    · rw [e] at hw
      have : c = 42 := by
        have := congrArg List.head? hw
        simpa [ascii] using this.symm
      unfold IsDigitByte at hc
      omega
  rw [if_neg hx]
  have hjoin := joinDots_split w
  have hnos := split_no_sep w 46
  cases hsp : Split w 46 with
  | nil => rfl
  | cons a l1 =>
    cases l1 with
    | nil => rfl
    | cons b l2 =>
      cases l2 with
      | nil =>
        exfalso
        rw [hsp] at hjoin hnos
        have ha := hnos a (by simp)
        have hb := hnos b (by simp)
        rw [← hjoin] at hcount
        simp only [joinDots, List.flatMap_cons, List.flatMap_nil, List.append_nil,
          List.count_append, List.count_cons_self, count_eq_zero_of_not_mem _ _ ha,
          count_eq_zero_of_not_mem _ _ hb] at hcount
        omega
      | cons d l3 =>
        cases l3 with
        | cons e l4 => rfl
        | nil =>
          simp only []
          by_cases hd : d = ascii "x"
          · exfalso
            rw [hsp] at hjoin hnos
            have ha := hnos a (by simp)
            have hb := hnos b (by simp)
            have hwe : w = a ++ [46] ++ b ++ [46] ++ ascii "x" ++ segment 45 [] ++ segment 43 [] := by
              rw [← hjoin, hd]
              simp [joinDots, segment]
            rw [hwe] at h
            obtain ⟨_, _, g2, _⟩ := (newVersion_compose_iff a b (ascii "x") [] [] ha hb
              (by decide) (by decide) (by simp) (by simp) v).1 h
            obtain ⟨_, dg, _⟩ := (checkNumber_ok_iff _ _ _ _).1 g2
            have := dg 120 (by decide)
            omega
          · rw [if_neg hd]

theorem takeWhile_append_stop (p : Nat → Bool) (op w : Bytes) (hop : op.all p = true)
    (hw : ∀ c rest, w = c :: rest → p c = false) :
    (op ++ w).takeWhile p = op ∧ (op ++ w).dropWhile p = w := by
  induction op with
  | nil =>
    cases w with
    | nil => simp
    | cons c rest => simp [List.takeWhile, List.dropWhile, hw c rest rfl]
  | cons a as ih =>
    simp only [List.all_cons, Bool.and_eq_true] at hop
    have := ih hop.2
    simp [List.takeWhile, List.dropWhile, hop.1, this.1, this.2]

/-- A well-formed term splits into its comparator spelling and its version
text. -/
theorem splitComparatorVersion_term (t : WrittenTerm) (h : t.WellFormed) :
    splitComparatorVersion (t.op ++ t.text) = .ok (t.op, t.text) := by
  obtain ⟨hc, hv⟩ := h
  obtain ⟨⟨c, rest, hw, hd⟩, _⟩ := newVersion_ok_bytes t.text t.w hv
  have hop := parseComparator_some t.op t.c hc
  have hstop : ∀ c' rest', t.text = c' :: rest' → isComparatorByte c' = false := by
    intro c' rest' e
    rw [hw] at e
    have : c' = c := by injection e with e1 _; exact e1.symm
    rw [this]
    by_contra hcon
    have := (comparatorByte_not_identifier c (by simpa using hcon)).1
    exact this (Or.inl (Or.inl hd))
  obtain ⟨e1, e2⟩ := takeWhile_append_stop isComparatorByte t.op t.text hop hstop
  unfold splitComparatorVersion
  simp only [e1, e2, hc, hv]
  simp

theorem expandTerm_term (t : WrittenTerm) (h : t.WellFormed) :
    expandTerm (t.op ++ t.text) = .ok [t.op ++ t.text] := by
  unfold expandTerm
  rw [splitComparatorVersion_term t h]
  simp only [getWildcard_version t.text t.w h.2]

theorem buildVersionRange_term (t : WrittenTerm) (h : t.WellFormed) :
    buildVersionRange t.op t.text = .ok { v := t.w, c := t.c } := by
  unfold buildVersionRange
  simp only [h.1, h.2]

/-- The facts about the token of a well-formed term the tokenizer needs: it is
not empty, holds no space, is no lone comparator and is not the token `||`. -/
theorem term_token (t : WrittenTerm) (h : t.WellFormed) :
    t.op ++ t.text ≠ [] ∧ 32 ∉ t.op ++ t.text ∧
      isLoneComparator (t.op ++ t.text) = false ∧ t.op ++ t.text ≠ orToken := by
  obtain ⟨hc, hv⟩ := h
  obtain ⟨⟨c, rest, hw, hd⟩, hbytes⟩ := newVersion_ok_bytes t.text t.w hv
  have hop := parseComparator_some t.op t.c hc
  have hcmem : c ∈ t.op ++ t.text := by rw [hw]; simp
  have hcnot : isComparatorByte c = false := by
    by_contra hcon
    exact (comparatorByte_not_identifier c (by simpa using hcon)).1 (Or.inl (Or.inl hd))
  refine ⟨?_, ?_, ?_, ?_⟩
  · intro e; rw [e] at hcmem; simp at hcmem
  · intro hm
    rcases List.mem_append.1 hm with hm | hm
    · have := List.all_eq_true.1 hop 32 hm
      revert this; decide
    · have := hbytes 32 hm
      unfold IsIdentifierByte at this
      omega
  · unfold isLoneComparator
    have : (t.op ++ t.text).all isComparatorByte = false := by
      rw [Bool.eq_false_iff]
      intro hall
      have := List.all_eq_true.1 hall c hcmem
      rw [hcnot] at this
      cases this
    simp [this]
  · intro e
    rw [e] at hcmem
    simp only [orToken, List.mem_cons, List.mem_singleton, List.not_mem_nil, or_false,
      or_self] at hcmem
    unfold IsDigitByte at hd
    omega

/-! ## Parsing a range expression -/

theorem mapExcept_map {α β γ : Type} (f : β → Except RangeError γ) (k : α → β) :
    ∀ (l : List α), mapExcept f (l.map k) = mapExcept (fun a => f (k a)) l
  | [] => rfl
  | a :: as => by
    simp only [List.map_cons, mapExcept, mapExcept_map f k as]

theorem flatten_map_singleton {α β : Type} (k : α → β) :
    ∀ (l : List α), (l.map (fun a => [k a])).flatten = l.map k
  | [] => rfl
  | a :: as => by
    simp only [List.map_cons, List.flatten, List.singleton_append]
    exact congrArg _ (flatten_map_singleton k as)

theorem mem_tokenStream : ∀ (gs : List (List WrittenTerm)) (tok : Bytes),
    tok ∈ tokenStream gs → tok = orToken ∨ ∃ g ∈ gs, ∃ t ∈ g, tok = t.op ++ t.text
  | [], tok, h => by simp [tokenStream] at h
  | [g], tok, h => by
    simp only [tokenStream] at h
    obtain ⟨t, ht, e⟩ := List.mem_map.1 h
    exact Or.inr ⟨g, by simp, t, ht, e.symm⟩
  | g :: g' :: gs, tok, h => by
    simp only [tokenStream, List.mem_append, List.mem_cons] at h
    rcases h with h | h | h
    · obtain ⟨t, ht, e⟩ := List.mem_map.1 h
      exact Or.inr ⟨g, by simp, t, ht, e.symm⟩
    · exact Or.inl h
    · rcases mem_tokenStream (g' :: gs) tok h with e | ⟨x, hx, t, ht, e⟩
      · exact Or.inl e
      · exact Or.inr ⟨x, by simp [hx], t, ht, e⟩

/-- The tokenizer gives back the token stream an expression was rendered
from. -/
theorem splitAndTrim_renderRange (gs : List (List WrittenTerm))
    (hwf : ∀ g ∈ gs, ∀ t ∈ g, t.WellFormed) :
    splitAndTrim (renderRange gs) = tokenStream gs := by
  have htok : ∀ tok ∈ tokenStream gs,
      tok ≠ [] ∧ 32 ∉ tok ∧ isLoneComparator tok = false := by
    intro tok hm
    rcases mem_tokenStream gs tok hm with e | ⟨g, hg, t, ht, e⟩
    · rw [e]; decide
    · rw [e]
      have := term_token t (hwf g hg t ht)
      exact ⟨this.1, this.2.1, this.2.2.1⟩
  unfold splitAndTrim renderRange
  rw [fields_joinSpaces _ (fun t ht => ⟨(htok t ht).1, (htok t ht).2.1⟩)]
  exact rejoin_id _ (fun t ht => (htok t ht).2.2)

/-- The groups of comparator and version a rendered expression denotes. -/
theorem parseRangeGroups_renderRange (gs : List (List WrittenTerm)) (hne : gs ≠ [])
    (hg : ∀ g ∈ gs, g ≠ []) (hwf : ∀ g ∈ gs, ∀ t ∈ g, t.WellFormed) :
    parseRangeGroups (renderRange gs) =
      .ok (gs.map (fun g => g.map (fun t => ({ v := t.w, c := t.c } : VersionRange)))) := by
  unfold parseRangeGroups
  rw [splitAndTrim_renderRange gs hwf]
  have hsplit := splitOnOr_tokenStream gs hne
    (fun g hgm t ht => (term_token t (hwf g hgm t ht)).2.2.2)
  have hor : splitORParts (tokenStream gs) =
      .ok (gs.map (fun g => g.map (fun t => t.op ++ t.text))) := by
    unfold splitORParts
    rw [hsplit]
    have : (gs.map (fun g => g.map (fun t => t.op ++ t.text))).any (fun g => g.isEmpty) = false := by
      rw [Bool.eq_false_iff]
      intro hany
      obtain ⟨x, hx, hemp⟩ := List.any_eq_true.1 hany
      obtain ⟨g, hgm, e⟩ := List.mem_map.1 hx
      rw [← e] at hemp
      have := hg g hgm
      cases g with
      | nil => exact this rfl
      | cons a as => simp at hemp
    simp [this]
  have hexp : expandWildcardVersion (gs.map (fun g => g.map (fun t => t.op ++ t.text))) =
      .ok (gs.map (fun g => g.map (fun t => t.op ++ t.text))) := by
    unfold expandWildcardVersion
    rw [mapExcept_map]
    have := mapExcept_ok_of_forall
      (fun g : List WrittenTerm =>
        match mapExcept expandTerm (g.map (fun t => t.op ++ t.text)) with
        | .error err => .error err
        | .ok parts => .ok parts.flatten)
      (fun g => g.map (fun t => t.op ++ t.text)) gs
      (by
        intro g hgm
        have e : mapExcept expandTerm (g.map (fun t => t.op ++ t.text)) =
            .ok (g.map (fun t => [t.op ++ t.text])) := by
          rw [mapExcept_map]
          exact mapExcept_ok_of_forall _ _ g (fun t ht => expandTerm_term t (hwf g hgm t ht))
        simp only [e]
        congr 1
        exact flatten_map_singleton _ g)
    exact this
  rw [hor]
  simp only [hexp]
  rw [mapExcept_map]
  apply mapExcept_ok_of_forall
  intro g hgm
  rw [mapExcept_map]
  apply mapExcept_ok_of_forall
  intro t ht
  simp only [splitComparatorVersion_term t (hwf g hgm t ht),
    buildVersionRange_term t (hwf g hgm t ht)]

theorem all_map_term (v : Version) : ∀ (g : List WrittenTerm),
    (g.map (fun t => ({ v := t.w, c := t.c } : VersionRange))).all (fun vr => vr.rangeFunc v) =
      g.all (fun t => t.c.holds v t.w)
  | [] => rfl
  | t :: ts => by
    simp only [List.map_cons, List.all_cons, all_map_term v ts]
    rfl

theorem rangeOfGroups_map (v : Version) : ∀ (gs : List (List WrittenTerm)),
    rangeOfGroups (gs.map (fun g => g.map (fun t => ({ v := t.w, c := t.c } : VersionRange)))) v =
      acceptsSpec gs v
  | [] => rfl
  | g :: gs => by
    have ih := rangeOfGroups_map v gs
    simp only [rangeOfGroups, acceptsSpec] at ih ⊢
    simp only [List.map_cons, List.any_cons, ih, all_map_term v g]

theorem parseRange_renderRange (gs : List (List WrittenTerm)) (hne : gs ≠ [])
    (hg : ∀ g ∈ gs, g ≠ []) (hwf : ∀ g ∈ gs, ∀ t ∈ g, t.WellFormed) :
    ∃ r, ParseRange (renderRange gs) = .ok r ∧ ∀ v, r v = acceptsSpec gs v := by
  refine ⟨rangeOfGroups
    (gs.map (fun g => g.map (fun t => ({ v := t.w, c := t.c } : VersionRange)))), ?_, ?_⟩
  · unfold ParseRange
    rw [parseRangeGroups_renderRange gs hne hg hwf]
  · intro v
    exact rangeOfGroups_map v gs


theorem holds_iff_satisfied (c : Comparator) (v w : Version) :
    c.holds v w = true ↔ c.Satisfied (v.Compare w) := by
  cases c <;> simp [Comparator.holds, Comparator.Satisfied]

theorem acceptsSpec_iff (gs : List (List WrittenTerm)) (v : Version) :
    acceptsSpec gs v = true ↔ ∃ g ∈ gs, ∀ t ∈ g, t.c.Satisfied (v.Compare t.w) := by
  simp only [acceptsSpec, List.any_eq_true, List.all_eq_true, holds_iff_satisfied]

theorem compoundExample_wellFormed : ∀ g ∈ compoundExample, ∀ t ∈ g, t.WellFormed := by
  intro g hg t ht
  simp only [compoundExample, List.mem_cons, List.mem_singleton, List.not_mem_nil, or_false] at hg
  rcases hg with rfl | rfl
  · simp only [List.mem_cons, List.mem_singleton, List.not_mem_nil, or_false] at ht
    rcases ht with rfl | rfl <;> exact ⟨rfl, rfl⟩
  · simp only [List.mem_cons, List.mem_singleton, List.not_mem_nil, or_false] at ht
    rcases ht with rfl | rfl <;> exact ⟨rfl, rfl⟩

/-- C25: a range expression made of well-written comparator and version terms,
the terms of a group separated by a space and the groups by `||`, parses to a
predicate that accepts a version `v` exactly when, for at least one group,
every term `(op, w)` of the group has `op` satisfied by `v.Compare(w)` (`EQ`:
zero, `NE`: not zero, `GT`: positive, `GE`: not negative, `LT`: negative, `LE`:
not positive); `Range.AND` and `Range.OR` are the pointwise conjunction and
disjunction; and `>1.2.2 <1.2.4 || >=2.0.0 <3.0.0` matches 1.2.3, 2.0.0 and
2.9.9 and rejects 1.2.2, 1.2.4 and 3.0.0. -/
theorem parseRange_semantics (gs : List (List WrittenTerm)) (hne : gs ≠ [])
    (hg : ∀ g ∈ gs, g ≠ []) (hwf : ∀ g ∈ gs, ∀ t ∈ g, t.WellFormed) :
    (∃ r, ParseRange (renderRange gs) = .ok r ∧
      ∀ v, (r v = true ↔ ∃ g ∈ gs, ∀ t ∈ g, t.c.Satisfied (v.Compare t.w))) ∧
    (∀ (r o : Range) (v : Version),
      (r.AND o) v = (r v && o v) ∧ (r.OR o) v = (r v || o v)) ∧
    (∃ r, ParseRange (ascii ">1.2.2 <1.2.4 || >=2.0.0 <3.0.0") = .ok r ∧
      r { Major := 1, Minor := 2, Patch := 3 } = true ∧
      r { Major := 2, Minor := 0, Patch := 0 } = true ∧
      r { Major := 2, Minor := 9, Patch := 9 } = true ∧
      r { Major := 1, Minor := 2, Patch := 2 } = false ∧
      r { Major := 1, Minor := 2, Patch := 4 } = false ∧
      r { Major := 3, Minor := 0, Patch := 0 } = false) := by
  refine ⟨?_, fun r o v => ⟨rfl, rfl⟩, ?_⟩
  · obtain ⟨r, hr, hv⟩ := parseRange_renderRange gs hne hg hwf
    exact ⟨r, hr, fun v => by rw [hv v]; exact acceptsSpec_iff gs v⟩
  · exact ⟨rangeOfGroups
      [[{ v := { Major := 1, Minor := 2, Patch := 2 }, c := .GT },
        { v := { Major := 1, Minor := 2, Patch := 4 }, c := .LT }],
       [{ v := { Major := 2, Minor := 0, Patch := 0 }, c := .GE },
        { v := { Major := 3, Minor := 0, Patch := 0 }, c := .LT }]],
      rfl, by decide, by decide, by decide, by decide, by decide, by decide⟩

/-- The compound expression `>1.2.2 <1.2.4 || >=2.0.0 <3.0.0` is the rendering
of two groups of two well-written terms, so it parses, to the predicate of
those four terms. -/
theorem parseRange_semantics_witness :
    compoundExample ≠ [] ∧ (∀ g ∈ compoundExample, g ≠ []) ∧
    (∀ g ∈ compoundExample, ∀ t ∈ g, t.WellFormed) ∧
    ∃ r, ParseRange (ascii ">1.2.2 <1.2.4 || >=2.0.0 <3.0.0") = .ok r ∧
      ∀ v, (r v = true ↔
        ∃ g ∈ compoundExample, ∀ t ∈ g, t.c.Satisfied (v.Compare t.w)) :=
  ⟨by simp [compoundExample], by simp [compoundExample], compoundExample_wellFormed,
    (parseRange_semantics compoundExample (by simp [compoundExample])
      (by simp [compoundExample]) compoundExample_wellFormed).1⟩

/-! ## Wildcard expansion -/

theorem checkNumber_formatUint (M : Nat) (h : M ≤ maxUint64) (e1 e2 : Bytes → Error) :
    checkNumber (FormatUint M) e1 e2 = .ok M := by
  obtain ⟨hne, hd, hz, hv⟩ := formatUint_spec M
  rw [checkNumber_ok_iff]
  exact ⟨hne, hd, (hasLeadingZeroes_false_iff _).2 hz, hv.symm, h⟩

theorem formatUint_head (M : Nat) : ∃ d rest, FormatUint M = d :: rest ∧ IsDigitByte d := by
  obtain ⟨hne, hd, _, _⟩ := formatUint_spec M
  cases e : FormatUint M with
  | nil => exact absurd e hne
  | cons d rest => exact ⟨d, rest, rfl, hd d (by rw [e]; simp)⟩

theorem getWildcard_minor (M : Nat) (h : M ≤ maxUint64) :
    getWildcard (writeMinorWildcard M) = some (.minor M) := by
  obtain ⟨d, rest, e, hd⟩ := formatUint_head M
  have hdot : 46 ∉ FormatUint M := (digit_not_special _ (formatUint_spec M).2.1).2.2
  have hs : Split (writeMinorWildcard M) 46 = [FormatUint M, ascii "x"] := by
    show Split (FormatUint M ++ 46 :: ascii "x") 46 = _
    rw [split_append_sep _ _ _ hdot]
    rfl
  have h1 : writeMinorWildcard M ≠ ascii "x" := by
    intro c
    have := congrArg List.length c
    simp [writeMinorWildcard, e, ascii] at this
  have h2 : writeMinorWildcard M ≠ ascii "*" := by
    intro c
    have := congrArg List.length c
    simp [writeMinorWildcard, e, ascii] at this
  unfold getWildcard
  rw [if_neg (by rintro (c | c); exact h1 c; exact h2 c), hs]
  simp only [if_true, checkNumber_formatUint M h]

theorem getWildcard_patch (M m : Nat) (h : M ≤ maxUint64) (hm : m ≤ maxUint64) :
    getWildcard (writePatchWildcard M m) = some (.patch M m) := by
  obtain ⟨d, rest, e, hd⟩ := formatUint_head M
  have hdot : 46 ∉ FormatUint M := (digit_not_special _ (formatUint_spec M).2.1).2.2
  have hdot2 : 46 ∉ FormatUint m := (digit_not_special _ (formatUint_spec m).2.1).2.2
  have hs : Split (writePatchWildcard M m) 46 = [FormatUint M, FormatUint m, ascii "x"] := by
    have : writePatchWildcard M m = FormatUint M ++ 46 :: (FormatUint m ++ 46 :: ascii "x") := by
      simp [writePatchWildcard, ascii]
    rw [this, split_append_sep _ _ _ hdot, split_append_sep _ _ _ hdot2]
    rfl
  have h1 : writePatchWildcard M m ≠ ascii "x" := by
    intro c
    have := congrArg List.length c
    simp [writePatchWildcard, e, ascii] at this
  have h2 : writePatchWildcard M m ≠ ascii "*" := by
    intro c
    have := congrArg List.length c
    simp [writePatchWildcard, e, ascii] at this
  unfold getWildcard
  rw [if_neg (by rintro (c | c); exact h1 c; exact h2 c), hs]
  simp only [if_true, checkNumber_formatUint M h, checkNumber_formatUint m hm]

theorem splitComparatorVersion_wildcard (op v : Bytes) (c : Comparator) (w : Wildcard)
    (hop : parseComparator op = some c) (hd : ∃ d rest, v = d :: rest ∧ IsDigitByte d)
    (hw : getWildcard v = some w) :
    splitComparatorVersion (op ++ v) = .ok (op, v) := by
  obtain ⟨d, rest, e, hdig⟩ := hd
  have hstop : ∀ x r, v = x :: r → isComparatorByte x = false := by
    intro x r ex
    rw [e] at ex
    injection ex with ex1 _
    subst ex1
    cases hb : isComparatorByte d with
    | false => rfl
    | true =>
      exact absurd (Or.inl (Or.inl hdig)) (comparatorByte_not_identifier d hb).1
  obtain ⟨ht, hdrop⟩ := takeWhile_append_stop isComparatorByte op v
    (parseComparator_some op c hop) hstop
  unfold splitComparatorVersion
  simp only [ht, hdrop, hop, hw]
  cases NewVersion v <;> simp

/-- The expansion of a term `op ++ v` whose `v` is a minor or patch wildcard:
the row of the table for the comparator `op` spells. -/
theorem expandTerm_wildcard (op v : Bytes) (c : Comparator) (w : Wildcard)
    (hop : parseComparator op = some c) (hd : ∃ d rest, v = d :: rest ∧ IsDigitByte d)
    (hw : getWildcard v = some w) (hmaj : w ≠ .major) :
    expandTerm (op ++ v) = .ok
      (match c with
        | .EQ => [ascii ">=" ++ wildcardFloor w, ascii "<" ++ wildcardCeiling w]
        | .GE => [ascii ">=" ++ wildcardFloor w]
        | .LE => [ascii "<" ++ wildcardCeiling w]
        | .GT => [ascii ">=" ++ wildcardCeiling w]
        | .LT => [ascii "<" ++ wildcardFloor w]
        | .NE => [ascii "<" ++ wildcardFloor w, ascii ">=" ++ wildcardCeiling w]) := by
  unfold expandTerm
  rw [splitComparatorVersion_wildcard op v c w hop hd hw]
  simp only [hw, hop]
  cases w with
  | major => exact absurd rfl hmaj
  | minor M => cases c <;> rfl
  | patch M m => cases c <;> rfl

theorem expandWildcardVersion_single (term : Bytes) (out : List Bytes)
    (h : expandTerm term = .ok out) : expandWildcardVersion [[term]] = .ok [out] := by
  simp [expandWildcardVersion, mapExcept, h]

theorem minorWildcard_head (M : Nat) :
    ∃ d rest, writeMinorWildcard M = d :: rest ∧ IsDigitByte d := by
  obtain ⟨d, rest, e, hd⟩ := formatUint_head M
  exact ⟨d, rest ++ ascii ".x", by simp [writeMinorWildcard, e], hd⟩

theorem patchWildcard_head (M m : Nat) :
    ∃ d rest, writePatchWildcard M m = d :: rest ∧ IsDigitByte d := by
  obtain ⟨d, rest, e, hd⟩ := formatUint_head M
  exact ⟨d, rest ++ [46] ++ FormatUint m ++ ascii ".x", by simp [writePatchWildcard, e], hd⟩

theorem expand_minor (M : Nat) (hM : M ≤ maxUint64) (op : Bytes) (c : Comparator)
    (hop : parseComparator op = some c) :
    expandWildcardVersion [[op ++ writeMinorWildcard M]] = .ok
      [match c with
        | .EQ => [ascii ">=" ++ renderCore M 0 0,
            ascii "<" ++ renderCore ((M + 1) % 2 ^ 64) 0 0]
        | .GE => [ascii ">=" ++ renderCore M 0 0]
        | .LE => [ascii "<" ++ renderCore ((M + 1) % 2 ^ 64) 0 0]
        | .GT => [ascii ">=" ++ renderCore ((M + 1) % 2 ^ 64) 0 0]
        | .LT => [ascii "<" ++ renderCore M 0 0]
        | .NE => [ascii "<" ++ renderCore M 0 0,
            ascii ">=" ++ renderCore ((M + 1) % 2 ^ 64) 0 0]] :=
  expandWildcardVersion_single _ _
    (expandTerm_wildcard op _ c (.minor M) hop (minorWildcard_head M)
      (getWildcard_minor M hM) (by simp))

theorem expand_patch (M m : Nat) (hM : M ≤ maxUint64) (hm : m ≤ maxUint64) (op : Bytes)
    (c : Comparator) (hop : parseComparator op = some c) :
    expandWildcardVersion [[op ++ writePatchWildcard M m]] = .ok
      [match c with
        | .EQ => [ascii ">=" ++ renderCore M m 0,
            ascii "<" ++ renderCore M ((m + 1) % 2 ^ 64) 0]
        | .GE => [ascii ">=" ++ renderCore M m 0]
        | .LE => [ascii "<" ++ renderCore M ((m + 1) % 2 ^ 64) 0]
        | .GT => [ascii ">=" ++ renderCore M ((m + 1) % 2 ^ 64) 0]
        | .LT => [ascii "<" ++ renderCore M m 0]
        | .NE => [ascii "<" ++ renderCore M m 0,
            ascii ">=" ++ renderCore M ((m + 1) % 2 ^ 64) 0]] :=
  expandWildcardVersion_single _ _
    (expandTerm_wildcard op _ c (.patch M m) hop (patchWildcard_head M m)
      (getWildcard_patch M m hM hm) (by simp))

/-- The sum of a number below `2^64 - 1` and one fits in 64 bits. -/
theorem succ_mod_of_lt_max (n : Nat) (h : n < maxUint64) : (n + 1) % 2 ^ 64 = n + 1 := by
  unfold maxUint64 at h
  exact Nat.mod_eq_of_lt (by omega)

/-- The rows of the table for `M.x` that name `M + 1`, for `M` below
`2^64 - 1`. -/
theorem expand_minor_ceiling (M : Nat) (hM : M < maxUint64) :
    expandWildcardVersion [[writeMinorWildcard M]] =
        .ok [[ascii ">=" ++ renderCore M 0 0, ascii "<" ++ renderCore (M + 1) 0 0]] ∧
      expandWildcardVersion [[ascii "=" ++ writeMinorWildcard M]] =
        .ok [[ascii ">=" ++ renderCore M 0 0, ascii "<" ++ renderCore (M + 1) 0 0]] ∧
      expandWildcardVersion [[ascii "<=" ++ writeMinorWildcard M]] =
        .ok [[ascii "<" ++ renderCore (M + 1) 0 0]] ∧
      expandWildcardVersion [[ascii ">" ++ writeMinorWildcard M]] =
        .ok [[ascii ">=" ++ renderCore (M + 1) 0 0]] ∧
      expandWildcardVersion [[ascii "!=" ++ writeMinorWildcard M]] =
        .ok [[ascii "<" ++ renderCore M 0 0, ascii ">=" ++ renderCore (M + 1) 0 0]] := by
  have hle : M ≤ maxUint64 := Nat.le_of_lt hM
  have e := succ_mod_of_lt_max M hM
  have r1 := expand_minor M hle [] .EQ rfl
  have r2 := expand_minor M hle (ascii "=") .EQ rfl
  have r3 := expand_minor M hle (ascii "<=") .LE rfl
  have r4 := expand_minor M hle (ascii ">") .GT rfl
  have r5 := expand_minor M hle (ascii "!=") .NE rfl
  rw [e] at r1 r2 r3 r4 r5
  exact ⟨r1, r2, r3, r4, r5⟩

/-- The rows of the table for `M.m.x` that name `m + 1`, for `m` below
`2^64 - 1`. -/
theorem expand_patch_ceiling (M m : Nat) (hM : M ≤ maxUint64) (hm : m < maxUint64) :
    expandWildcardVersion [[writePatchWildcard M m]] =
        .ok [[ascii ">=" ++ renderCore M m 0, ascii "<" ++ renderCore M (m + 1) 0]] ∧
      expandWildcardVersion [[ascii "=" ++ writePatchWildcard M m]] =
        .ok [[ascii ">=" ++ renderCore M m 0, ascii "<" ++ renderCore M (m + 1) 0]] ∧
      expandWildcardVersion [[ascii "<=" ++ writePatchWildcard M m]] =
        .ok [[ascii "<" ++ renderCore M (m + 1) 0]] ∧
      expandWildcardVersion [[ascii ">" ++ writePatchWildcard M m]] =
        .ok [[ascii ">=" ++ renderCore M (m + 1) 0]] ∧
      expandWildcardVersion [[ascii "!=" ++ writePatchWildcard M m]] =
        .ok [[ascii "<" ++ renderCore M m 0, ascii ">=" ++ renderCore M (m + 1) 0]] := by
  have hle : m ≤ maxUint64 := Nat.le_of_lt hm
  have e := succ_mod_of_lt_max m hm
  have r1 := expand_patch M m hM hle [] .EQ rfl
  have r2 := expand_patch M m hM hle (ascii "=") .EQ rfl
  have r3 := expand_patch M m hM hle (ascii "<=") .LE rfl
  have r4 := expand_patch M m hM hle (ascii ">") .GT rfl
  have r5 := expand_patch M m hM hle (ascii "!=") .NE rfl
  rw [e] at r1 r2 r3 r4 r5
  exact ⟨r1, r2, r3, r4, r5⟩

/-- C26: wildcard expansion follows the table for every major `M` and minor
`m` that fit in 64 bits. The rows that name no successor hold for every such
number: `>=M.x` expands to `>=M.0.0` and `<M.x` to `<M.0.0`. The rows that
name `M + 1` hold for every `M` below `2^64 - 1`, whose successor fits in 64
bits: `M.x` alone or after `=` expands to `>=M.0.0` and `<(M+1).0.0`, `<=M.x`
to `<(M+1).0.0`, `>M.x` to `>=(M+1).0.0`, `!=M.x` to the two terms `<M.0.0` and
`>=(M+1).0.0`. The wildcard `M.m.x` expands likewise with the minor bumped,
for `m` below `2^64 - 1` where `m + 1` is named. The range `1.x` matches 1.0.0
and 1.9.9 and rejects 0.9.9 and 2.0.0. -/
theorem wildcard_expansion_table (M m : Nat) (hM : M ≤ maxUint64) (hm : m ≤ maxUint64) :
    (expandWildcardVersion [[ascii ">=" ++ writeMinorWildcard M]] =
        .ok [[ascii ">=" ++ renderCore M 0 0]] ∧
      expandWildcardVersion [[ascii "<" ++ writeMinorWildcard M]] =
        .ok [[ascii "<" ++ renderCore M 0 0]]) ∧
    (M < maxUint64 →
      expandWildcardVersion [[writeMinorWildcard M]] =
        .ok [[ascii ">=" ++ renderCore M 0 0, ascii "<" ++ renderCore (M + 1) 0 0]] ∧
      expandWildcardVersion [[ascii "=" ++ writeMinorWildcard M]] =
        .ok [[ascii ">=" ++ renderCore M 0 0, ascii "<" ++ renderCore (M + 1) 0 0]] ∧
      expandWildcardVersion [[ascii "<=" ++ writeMinorWildcard M]] =
        .ok [[ascii "<" ++ renderCore (M + 1) 0 0]] ∧
      expandWildcardVersion [[ascii ">" ++ writeMinorWildcard M]] =
        .ok [[ascii ">=" ++ renderCore (M + 1) 0 0]] ∧
      expandWildcardVersion [[ascii "!=" ++ writeMinorWildcard M]] =
        .ok [[ascii "<" ++ renderCore M 0 0, ascii ">=" ++ renderCore (M + 1) 0 0]]) ∧
    (expandWildcardVersion [[ascii ">=" ++ writePatchWildcard M m]] =
        .ok [[ascii ">=" ++ renderCore M m 0]] ∧
      expandWildcardVersion [[ascii "<" ++ writePatchWildcard M m]] =
        .ok [[ascii "<" ++ renderCore M m 0]]) ∧
    (m < maxUint64 →
      expandWildcardVersion [[writePatchWildcard M m]] =
        .ok [[ascii ">=" ++ renderCore M m 0, ascii "<" ++ renderCore M (m + 1) 0]] ∧
      expandWildcardVersion [[ascii "=" ++ writePatchWildcard M m]] =
        .ok [[ascii ">=" ++ renderCore M m 0, ascii "<" ++ renderCore M (m + 1) 0]] ∧
      expandWildcardVersion [[ascii "<=" ++ writePatchWildcard M m]] =
        .ok [[ascii "<" ++ renderCore M (m + 1) 0]] ∧
      expandWildcardVersion [[ascii ">" ++ writePatchWildcard M m]] =
        .ok [[ascii ">=" ++ renderCore M (m + 1) 0]] ∧
      expandWildcardVersion [[ascii "!=" ++ writePatchWildcard M m]] =
        .ok [[ascii "<" ++ renderCore M m 0, ascii ">=" ++ renderCore M (m + 1) 0]]) ∧
    (∃ r, ParseRange (ascii "1.x") = .ok r ∧
      r { Major := 1, Minor := 0, Patch := 0 } = true ∧
      r { Major := 1, Minor := 9, Patch := 9 } = true ∧
      r { Major := 0, Minor := 9, Patch := 9 } = false ∧
      r { Major := 2, Minor := 0, Patch := 0 } = false) :=
  ⟨⟨expand_minor M hM (ascii ">=") .GE rfl, expand_minor M hM (ascii "<") .LT rfl⟩,
    fun h => expand_minor_ceiling M h,
    ⟨expand_patch M m hM hm (ascii ">=") .GE rfl, expand_patch M m hM hm (ascii "<") .LT rfl⟩,
    fun h => expand_patch_ceiling M m hM h,
    ⟨rangeOfGroups
      [[{ v := { Major := 1, Minor := 0, Patch := 0 }, c := .GE },
        { v := { Major := 2, Minor := 0, Patch := 0 }, c := .LT }]],
      rfl, by decide, by decide, by decide, by decide⟩⟩

/-- The table at `M = 1` and `m = 2`, as the strings of the tests: `1.x` and
`1.2.x` under each comparator. -/
theorem wildcard_expansion_table_witness :
    (1 ≤ maxUint64 ∧ 2 ≤ maxUint64 ∧ 1 < maxUint64 ∧ 2 < maxUint64) ∧
    (expandWildcardVersion [[ascii ">=1.x"]] = .ok [[ascii ">=1.0.0"]] ∧
      expandWildcardVersion [[ascii "<1.x"]] = .ok [[ascii "<1.0.0"]]) ∧
    (expandWildcardVersion [[ascii "1.x"]] = .ok [[ascii ">=1.0.0", ascii "<2.0.0"]] ∧
      expandWildcardVersion [[ascii "=1.x"]] = .ok [[ascii ">=1.0.0", ascii "<2.0.0"]] ∧
      expandWildcardVersion [[ascii "<=1.x"]] = .ok [[ascii "<2.0.0"]] ∧
      expandWildcardVersion [[ascii ">1.x"]] = .ok [[ascii ">=2.0.0"]] ∧
      expandWildcardVersion [[ascii "!=1.x"]] = .ok [[ascii "<1.0.0", ascii ">=2.0.0"]]) ∧
    (expandWildcardVersion [[ascii ">=1.2.x"]] = .ok [[ascii ">=1.2.0"]] ∧
      expandWildcardVersion [[ascii "<1.2.x"]] = .ok [[ascii "<1.2.0"]]) ∧
    (expandWildcardVersion [[ascii "1.2.x"]] = .ok [[ascii ">=1.2.0", ascii "<1.3.0"]] ∧
      expandWildcardVersion [[ascii "=1.2.x"]] = .ok [[ascii ">=1.2.0", ascii "<1.3.0"]] ∧
      expandWildcardVersion [[ascii "<=1.2.x"]] = .ok [[ascii "<1.3.0"]] ∧
      expandWildcardVersion [[ascii ">1.2.x"]] = .ok [[ascii ">=1.3.0"]] ∧
      expandWildcardVersion [[ascii "!=1.2.x"]] = .ok [[ascii "<1.2.0", ascii ">=1.3.0"]]) :=
  ⟨⟨by decide, by decide, by decide, by decide⟩,
    (wildcard_expansion_table 1 2 (by decide) (by decide)).1,
    (wildcard_expansion_table 1 2 (by decide) (by decide)).2.1 (by decide),
    (wildcard_expansion_table 1 2 (by decide) (by decide)).2.2.1,
    (wildcard_expansion_table 1 2 (by decide) (by decide)).2.2.2.1 (by decide)⟩

/-! ## Malformed range expressions -/

theorem parseComparator_none_iff (op : Bytes) :
    parseComparator op = none ↔ op ∉ comparatorSpellings := by
  unfold parseComparator comparatorSpellings
  simp only [List.mem_cons, List.mem_singleton, List.not_mem_nil, or_false, not_or]
  constructor
  · intro h
    split_ifs at h with h1 h2 h3 h4 h5 h6
    simp only [not_or] at h5 h6
    exact ⟨h1, h2, h3, h4, h5.2.1, h5.2.2, h6.1, h6.2, h5.1⟩
  · rintro ⟨h1, h2, h3, h4, h5, h6, h7, h8, h9⟩
    rw [if_neg h1, if_neg h2, if_neg h3, if_neg h4,
      if_neg (by rintro (c | c | c); exact h9 c; exact h5 c; exact h6 c),
      if_neg (by rintro (c | c); exact h7 c; exact h8 c)]

theorem splitComparatorVersion_bad (t : Bytes) (h : BadComparator t ∨ BadOperand t) :
    ∃ err, splitComparatorVersion t = .error err := by
  unfold splitComparatorVersion
  by_cases hc : parseComparator (t.takeWhile isComparatorByte) = none
  · exact ⟨.comparator t, by simp only [hc, if_true]⟩
  · rcases h with h | ⟨hv, hw⟩
    · exact absurd ((parseComparator_none_iff _).2 h) hc
    · simp only [hc, if_false, hw]
      cases e : NewVersion (t.dropWhile isComparatorByte) with
      | error err => exact ⟨_, rfl⟩
      | ok v => exact absurd e (hv v)

theorem expandTerm_ok_split (t : Bytes) (out : List Bytes) (h : expandTerm t = .ok out) :
    ∃ p, splitComparatorVersion t = .ok p := by
  unfold expandTerm at h
  cases e : splitComparatorVersion t with
  | error err => rw [e] at h; cases h
  | ok p => exact ⟨p, rfl⟩

theorem expandWildcardVersion_ok_mem (groups ex : List (List Bytes))
    (h : expandWildcardVersion groups = .ok ex) :
    ∀ g ∈ groups, ∀ t ∈ g, ∃ p, splitComparatorVersion t = .ok p := by
  intro g hg t ht
  obtain ⟨b, hb⟩ := mapExcept_ok_mem _ groups ex h g hg
  cases e : mapExcept expandTerm g with
  | error err => simp only [e] at hb; cases hb
  | ok parts =>
    obtain ⟨out, hout⟩ := mapExcept_ok_mem _ g parts e t ht
    exact expandTerm_ok_split t out hout

theorem mem_splitOnOr : ∀ (l : List Bytes) (t : Bytes), t ∈ l → t ≠ orToken →
    ∃ g ∈ splitOnOr l, t ∈ g
  | [], t, h, _ => by simp at h
  | a :: as, t, h, hne => by
    rcases List.mem_cons.1 h with e | hm
    · subst e
      simp only [splitOnOr, if_neg hne]
      cases e2 : splitOnOr as with
      | nil => exact ⟨[t], by simp, by simp⟩
      | cons g gs => exact ⟨t :: g, by simp, by simp⟩
    · obtain ⟨g, hg, htg⟩ := mem_splitOnOr as t hm hne
      simp only [splitOnOr]
      by_cases ha : a = orToken
      · rw [if_pos ha]
        exact ⟨g, by simp [hg], htg⟩
      · rw [if_neg ha]
        cases e2 : splitOnOr as with
        | nil => rw [e2] at hg; simp at hg
        | cons g2 gs =>
          rw [e2] at hg
          rcases List.mem_cons.1 hg with e3 | hin
          · exact ⟨a :: g2, by simp, by rw [← e3]; simp [htg]⟩
          · exact ⟨g, by simp [hin], htg⟩

theorem splitOnOr_last_or : ∀ (l : List Bytes), l.getLast? = some orToken →
    ∃ gs, gs ≠ [] ∧ splitOnOr l = gs ++ [[]]
  | [], h => by simp at h
  | [a], h => by
    simp only [List.getLast?_singleton, Option.some.injEq] at h
    subst h
    exact ⟨[[]], by simp, rfl⟩
  | a :: b :: rest, h => by
    rw [List.getLast?_cons_cons] at h
    obtain ⟨gs, hne, e⟩ := splitOnOr_last_or (b :: rest) h
    by_cases ha : a = orToken
    · refine ⟨[] :: gs, by simp, ?_⟩
      rw [splitOnOr, if_pos ha, e]
      rfl
    · cases gs with
      | nil => exact absurd rfl hne
      | cons g gs2 =>
        refine ⟨(a :: g) :: gs2, by simp, ?_⟩
        rw [splitOnOr, if_neg ha, e]
        rfl

theorem splitORParts_error_of_nil_mem (toks : List Bytes) (h : [] ∈ splitOnOr toks) :
    splitORParts toks = .error .emptyGroup := by
  unfold splitORParts
  rw [if_pos]
  exact List.any_eq_true.2 ⟨[], h, rfl⟩

theorem parseRange_error_of_split (s : Bytes) (err : RangeError)
    (h : splitORParts (splitAndTrim s) = .error err) : ParseRange s = .error err := by
  simp only [ParseRange, parseRangeGroups, h]

theorem parseRange_malformed (s : Bytes) (h : Malformed s) : ∃ err, ParseRange s = .error err := by
  rcases h with h | h | h | ⟨t, ht, hne, hbad⟩
  · subst h
    exact ⟨.emptyGroup, rfl⟩
  · refine ⟨_, parseRange_error_of_split s _ (splitORParts_error_of_nil_mem _ ?_)⟩
    cases e : splitAndTrim s with
    | nil => rw [e] at h; simp at h
    | cons a as =>
      rw [e] at h
      simp only [List.head?_cons, Option.some.injEq] at h
      subst h
      simp [splitOnOr]
  · refine ⟨_, parseRange_error_of_split s _ (splitORParts_error_of_nil_mem _ ?_)⟩
    obtain ⟨gs, _, e⟩ := splitOnOr_last_or _ h
    rw [e]
    simp
  · cases e1 : splitORParts (splitAndTrim s) with
    | error err => exact ⟨err, parseRange_error_of_split s err e1⟩
    | ok groups =>
      have hgroups : groups = splitOnOr (splitAndTrim s) := by
        unfold splitORParts at e1
        split_ifs at e1
        injection e1 with e1
        exact e1.symm
      cases e2 : expandWildcardVersion groups with
      | error err => exact ⟨err, by simp only [ParseRange, parseRangeGroups, e1, e2]⟩
      | ok ex =>
        obtain ⟨g, hg, htg⟩ := mem_splitOnOr _ t ht hne
        rw [← hgroups] at hg
        obtain ⟨p, hp⟩ := expandWildcardVersion_ok_mem groups ex e2 g hg t htg
        obtain ⟨err, herr⟩ := splitComparatorVersion_bad t hbad
        rw [hp] at herr
        cases herr


/-- C27: `ParseRange` returns an error, and so no predicate, for every
malformed expression: one with a term whose comparator prefix is unrecognised
(`>>1.2.3`, `!!1.2.3`), one with a term whose operand is neither a valid
version nor a wildcard (`1.0`, `string`, `fo.ob.ar.x`), the empty string, and
one whose first or last token is `||`. -/
theorem parseRange_rejects_malformed (s : Bytes) (h : Malformed s) :
    (∃ err, ParseRange s = .error err) ∧
    ParseRange (ascii ">>1.2.3") = .error (.comparator (ascii ">>1.2.3")) ∧
    ParseRange (ascii "!!1.2.3") = .error (.comparator (ascii "!!1.2.3")) ∧
    ParseRange (ascii "1.0") = .error (.operand (ascii "1.0")) ∧
    ParseRange (ascii "string") = .error (.operand (ascii "string")) ∧
    ParseRange (ascii "fo.ob.ar.x") = .error (.operand (ascii "fo.ob.ar.x")) ∧
    ParseRange (ascii "") = .error .emptyGroup ∧
    ParseRange (ascii ">1.2.3 ||") = .error .emptyGroup ∧
    ParseRange (ascii "|| >1.2.3") = .error .emptyGroup :=
  ⟨parseRange_malformed s h, rfl, rfl, rfl, rfl, rfl, rfl, rfl, rfl⟩

/-- The expression `>>1.2.3` is malformed, its one term having the
unrecognised comparator prefix `>>`, and is rejected. -/
theorem parseRange_rejects_malformed_witness :
    Malformed (ascii ">>1.2.3") ∧ ∃ err, ParseRange (ascii ">>1.2.3") = .error err :=
  ⟨Or.inr (Or.inr (Or.inr ⟨ascii ">>1.2.3", by decide, by decide, Or.inl (by decide)⟩)),
    (parseRange_rejects_malformed (ascii ">>1.2.3")
      (Or.inr (Or.inr (Or.inr
        ⟨ascii ">>1.2.3", by decide, by decide, Or.inl (by decide)⟩)))).1⟩

/-! ## The precedence example of Semantic Versioning -/

/-- C31: the precedence rules give the canonical chain: each of 1.0.0-alpha,
1.0.0-alpha.1, 1.0.0-alpha.beta, 1.0.0-beta, 1.0.0-beta.2, 1.0.0-beta.11,
1.0.0-rc.1, 1.0.0 parses, and the version of each compares `-1` with the
version of the next. -/
theorem canonical_precedence_chain :
    precedenceChain.map NewVersion = precedenceVersions.map Except.ok ∧
      List.Chain' (fun v w => Version.Compare v w = -1) precedenceVersions :=
  ⟨rfl, by
    unfold precedenceVersions
    simp only [List.chain'_cons, List.chain'_singleton, and_true]
    decide⟩

/-! ## Increments and precedence -/

/-- C35: increments move strictly upward when the incremented field does not
overflow: the incremented version compares `1` with the version it was made
from, whatever its pre-release; a field that holds `2^64 - 1` wraps to 0. -/
theorem increments_move_up (v : Version) :
    (v.Patch < 2 ^ 64 - 1 → v.IncrementPatch.Compare v = 1) ∧
      (v.Minor < 2 ^ 64 - 1 → v.IncrementMinor.Compare v = 1) ∧
      (v.Major < 2 ^ 64 - 1 → v.IncrementMajor.Compare v = 1) ∧
      (v.Patch = 2 ^ 64 - 1 → v.IncrementPatch.Patch = 0) ∧
      (v.Minor = 2 ^ 64 - 1 → v.IncrementMinor.Minor = 0) ∧
      (v.Major = 2 ^ 64 - 1 → v.IncrementMajor.Major = 0) := by
  refine ⟨?_, ?_, ?_, ?_, ?_, ?_⟩
  · intro h
    have e : (v.Patch + 1) % 2 ^ 64 = v.Patch + 1 := Nat.mod_eq_of_lt (by omega)
    simp only [Version.IncrementPatch, Version.Compare, e]
    rw [if_neg (by simp), if_neg (by simp), if_pos (by omega), if_pos (by omega)]
  · intro h
    have e : (v.Minor + 1) % 2 ^ 64 = v.Minor + 1 := Nat.mod_eq_of_lt (by omega)
    simp only [Version.IncrementMinor, Version.Compare, e]
    rw [if_neg (by simp), if_pos (by omega), if_pos (by omega)]
  · intro h
    have e : (v.Major + 1) % 2 ^ 64 = v.Major + 1 := Nat.mod_eq_of_lt (by omega)
    simp only [Version.IncrementMajor, Version.Compare, e]
    rw [if_pos (by omega), if_pos (by omega)]
  · intro h
    simp [Version.IncrementPatch, h]
  · intro h
    simp [Version.IncrementMinor, h]
  · intro h
    simp [Version.IncrementMajor, h]

/-- The increments of 1.2.3-alpha compare `1` with it, and the increments of a
version whose three numbers are `2^64 - 1` wrap the incremented number to 0. -/
theorem increments_move_up_witness :
    (Version.Compare (Version.IncrementPatch
        { Major := 1, Minor := 2, Patch := 3, PreRelease := [{ Str := ascii "alpha" }] })
        { Major := 1, Minor := 2, Patch := 3, PreRelease := [{ Str := ascii "alpha" }] } = 1) ∧
    (Version.IncrementPatch
        { Major := 2 ^ 64 - 1, Minor := 2 ^ 64 - 1, Patch := 2 ^ 64 - 1 }).Patch = 0 :=
  ⟨(increments_move_up
      { Major := 1, Minor := 2, Patch := 3, PreRelease := [{ Str := ascii "alpha" }] }).1
      (by decide),
    (increments_move_up
      { Major := 2 ^ 64 - 1, Minor := 2 ^ 64 - 1, Patch := 2 ^ 64 - 1 }).2.2.2.1 rfl⟩

/-! ## `Contains` and the map view -/

theorem containsLoop_eq_getLoop (ids : Identifiers) (key : Bytes) :
    ∀ (fuel i : Nat),
      Identifiers.containsLoop ids key fuel i = (Identifiers.getLoop ids key fuel i).2
  | 0, _ => rfl
  | fuel + 1, i => by
    simp only [Identifiers.containsLoop, Identifiers.getLoop]
    split_ifs
    · rfl
    · exact containsLoop_eq_getLoop ids key fuel (i + 2)
    · rfl

theorem contains_eq_get (ids : Identifiers) (key : Bytes) :
    ids.Contains key = (ids.Get key).2 :=
  containsLoop_eq_getLoop ids key ids.length 1

/-- The keys `Contains` reports: those the map view holds at some index. -/
theorem contains_iff_key (ids : Identifiers) (key : Bytes) :
    ids.Contains key = true ↔ ∃ i, IsKeyAt ids key i := by
  rw [contains_eq_get, get_eq]
  cases e : findPair (fun k _ => isKey key k) ids with
  | none =>
    have := (findPair_key_none_iff ids key).1 e
    simp only [Bool.false_eq_true, false_iff, not_exists]
    exact this
  | some n =>
    have := (findPair_key_some_iff ids key n).1 e
    simp only [true_iff]
    exact ⟨n, this.1⟩

/-- C36: `Contains` agrees with `Get`: it returns `true` exactly when `Get`
returns `ok == true`, and the two loops stop at the same index. -/
theorem contains_agrees_with_get (ids : Identifiers) (key : Bytes) :
    (ids.Contains key = true ↔ (ids.Get key).2 = true) ∧
      ids.Contains key = (ids.Get key).2 ∧
      (ids.Contains key = true ↔ ∃ i, IsKeyAt ids key i) := by
  refine ⟨?_, contains_eq_get ids key, contains_iff_key ids key⟩
  rw [contains_eq_get]

/-! ## Writes to value positions -/

theorem isKeyAt_set_odd (ids : Identifiers) (i : Nat) (value : Identifier) (key : Bytes)
    (j : Nat) (hi : i % 2 = 1) :
    IsKeyAt (List.set ids i value) key j ↔ IsKeyAt ids key j := by
  unfold IsKeyAt
  constructor
  · rintro ⟨h1, h2, h3⟩
    rw [getD_set_ne ids i j value (by omega)] at h3
    rw [List.length_set] at h2
    exact ⟨h1, h2, h3⟩
  · rintro ⟨h1, h2, h3⟩
    rw [getD_set_ne ids i j value (by omega), List.length_set]
    exact ⟨h1, h2, h3⟩

theorem get_set_odd (ids : Identifiers) (key : Bytes) (n : Nat) (value : Identifier)
    (h : findPair (fun k _ => isKey key k) ids = some n) :
    Identifiers.Get (List.set ids (n + 1) value) key = (value, true) := by
  obtain ⟨hk, hfirst⟩ := (findPair_key_some_iff ids key n).1 h
  have hn : n % 2 = 0 := hk.1
  have hlt : n + 1 < ids.length := hk.2.1
  have h2 : findPair (fun k _ => isKey key k) (List.set ids (n + 1) value) = some n := by
    rw [findPair_key_some_iff]
    refine ⟨(isKeyAt_set_odd ids (n + 1) value key n (by omega)).2 hk, ?_⟩
    intro j hj hkj
    exact hfirst j hj ((isKeyAt_set_odd ids (n + 1) value key j (by omega)).1 hkj)
  rw [get_eq, h2]
  simp only
  rw [getD_set_self ids (n + 1) value hlt]

theorem set_then_get_value (ids : Identifiers) (key : Bytes) (value : Identifier)
    (h : (Identifiers.set ids key value).2 = true) :
    (Identifiers.set ids key value).1.Get key = (value, true) := by
  rw [set_eq] at h ⊢
  cases e : findPair (fun k _ => isKey key k) ids with
  | none => rw [e] at h; simp at h
  | some n =>
    simp only
    exact get_set_odd ids key n value e

/-- C37: set-then-get: when `SetWithNumber(k, n)` returns `true`, `Get(k)` on
the sequence after the call returns the numeric identifier `n` with `true`,
and when `SetWithString(k, s)` returns `true`, `Get(k)` afterwards returns the
text identifier `s` with `true`; so also when `k` occurs as a key more than
once, as in a.x.a.5. -/
theorem set_then_get (ids : Identifiers) (key s : Bytes) (n : Nat) :
    ((ids.SetWithNumber key n).2 = true →
        (ids.SetWithNumber key n).1.Get key = ({ Str := [], Num := n, IsNum := true }, true)) ∧
      ((ids.SetWithString key s).2 = true →
        (ids.SetWithString key s).1.Get key = ({ Str := s, Num := 0, IsNum := false }, true)) ∧
      (Identifiers.SetWithNumber [{ Str := ascii "a" }, { Str := ascii "x" },
          { Str := ascii "a" }, { Num := 5, IsNum := true }] (ascii "a") 7 =
        ([{ Str := ascii "a" }, { Num := 7, IsNum := true }, { Str := ascii "a" },
          { Num := 5, IsNum := true }], true)) ∧
      (Identifiers.Get [{ Str := ascii "a" }, { Num := 7, IsNum := true },
          { Str := ascii "a" }, { Num := 5, IsNum := true }] (ascii "a") =
        ({ Num := 7, IsNum := true }, true)) :=
  ⟨set_then_get_value ids key _, set_then_get_value ids key _, by decide, by decide⟩

/-- On a.12.b.c.3.d.e both calls find the key `a`, and `Get` then returns the
value just stored. -/
theorem set_then_get_witness :
    (mapViewExample.SetWithNumber (ascii "a") 42).2 = true ∧
    (mapViewExample.SetWithNumber (ascii "a") 42).1.Get (ascii "a") =
      ({ Num := 42, IsNum := true }, true) ∧
    (mapViewExample.SetWithString (ascii "a") (ascii "bar")).2 = true ∧
    (mapViewExample.SetWithString (ascii "a") (ascii "bar")).1.Get (ascii "a") =
      ({ Str := ascii "bar" }, true) :=
  ⟨by decide,
    (set_then_get mapViewExample (ascii "a") (ascii "bar") 42).1 (by decide),
    by decide,
    (set_then_get mapViewExample (ascii "a") (ascii "bar") 42).2.1 (by decide)⟩

/-- What a map-view call leaves of the sequence: the sequence itself, or the
sequence with the element at one odd index replaced. -/
theorem mapOp_apply_cases (op : MapOp) (ids : Identifiers) :
    op.apply ids = ids ∨ ∃ i value, i % 2 = 1 ∧ op.apply ids = List.set ids i value := by
  cases op with
  | setWithString key s =>
    simp only [MapOp.apply, Identifiers.SetWithString, set_eq]
    cases e : findPair (fun k _ => isKey key k) ids with
    | none => exact Or.inl rfl
    | some n =>
      have := ((findPair_key_some_iff ids key n).1 e).1.1
      exact Or.inr ⟨n + 1, _, by omega, rfl⟩
  | setWithNumber key m =>
    simp only [MapOp.apply, Identifiers.SetWithNumber, set_eq]
    cases e : findPair (fun k _ => isKey key k) ids with
    | none => exact Or.inl rfl
    | some n =>
      have := ((findPair_key_some_iff ids key n).1 e).1.1
      exact Or.inr ⟨n + 1, _, by omega, rfl⟩
  | increment key =>
    simp only [MapOp.apply]
    rcases increment_found_or_unchanged ids key with ⟨_, h⟩ | ⟨n, h1, h⟩
    · rw [h]; exact Or.inl rfl
    · rw [h]
      have := ((findPair_eq_some_iff _ ids n).1 h1).1
      exact Or.inr ⟨n + 1, _, by omega, rfl⟩

/-- C38: the key set of the map view is invariant under mutation: a call of
`SetWithString`, `SetWithNumber` or `Increment` leaves the length of the
sequence and every element at an even index as they were, so `Contains`
answers the same for every key before and after the call. -/
theorem key_set_invariant (ids : Identifiers) (op : MapOp) (key : Bytes) :
    (op.apply ids).Contains key = ids.Contains key ∧
      (op.apply ids).length = ids.length ∧
      (∀ j, j % 2 = 0 → (op.apply ids).getD j default = ids.getD j default) ∧
      (∀ j, IsKeyAt (op.apply ids) key j ↔ IsKeyAt ids key j) := by
  rcases mapOp_apply_cases op ids with h | ⟨i, value, hi, h⟩
  · rw [h]
    exact ⟨rfl, rfl, fun _ _ => rfl, fun _ => Iff.rfl⟩
  · rw [h]
    refine ⟨?_, List.length_set .., fun j hj => getD_set_ne ids i j value (by omega),
      fun j => isKeyAt_set_odd ids i value key j hi⟩
    rw [Bool.eq_iff_iff, contains_iff_key, contains_iff_key]
    exact exists_congr (fun j => isKeyAt_set_odd ids i value key j hi)

/-! ## Precedence after an increment -/

/-- A sequence with one element replaced by one that compares `1` with it
compares `1` with the sequence, element by element. -/
theorem lexCompare_set_greater (new : Identifier) :
    ∀ (ids : Identifiers) (i : Nat), i < ids.length →
      new.Compare (ids.getD i default) = 1 → lexCompare (List.set ids i new) ids = 1
  | [], i, h, _ => by simp at h
  | a :: as, 0, _, hc => by
    simp only [List.getD_cons_zero] at hc
    simp only [List.set_cons_zero, lexCompare, hc]
    simp
  | a :: as, i + 1, h, hc => by
    simp only [List.getD_cons_succ] at hc
    simp only [List.set_cons_succ, lexCompare, identifier_compare_self, if_true]
    exact lexCompare_set_greater new as i (by simpa using h) hc

theorem identifiers_compare_set_greater (ids : Identifiers) (i : Nat) (new : Identifier)
    (h : i < ids.length) (hc : new.Compare (ids.getD i default) = 1) :
    Identifiers.Compare (List.set ids i new) ids = 1 := by
  have hl := lexCompare_set_greater new ids i h hc
  rw [identifiers_compare_eq]
  cases ids with
  | nil => simp at h
  | cons a as =>
    cases i with
    | zero => exact hl
    | succ j => exact hl

/-- C39: a successful `Increment` raises precedence: when `Increment` returns
`ok == true` and the element it changed held a number below `2^64 - 1`, the
sequence after the call compares `1` with the sequence before the call. -/
theorem increment_raises_precedence (ids after : Identifiers) (key : Bytes) (n : Nat)
    (h : ids.Increment key = (after, n, true))
    (hlt : ∀ i, after.getD i default ≠ ids.getD i default →
      (ids.getD i default).Num < 2 ^ 64 - 1) :
    after.Compare ids = 1 := by
  rcases increment_found_or_unchanged ids key with ⟨_, h2⟩ | ⟨i, h1, h2⟩
  · rw [h2] at h; cases h
  · rw [h2] at h
    simp only [Prod.mk.injEq, and_true] at h
    obtain ⟨hafter, hn⟩ := h
    obtain ⟨_, g2, g3, _⟩ := (findPair_eq_some_iff _ ids i).1 h1
    simp only [Bool.and_eq_true] at g3
    have hval := getD_set_self ids (i + 1)
      { ids.getD (i + 1) default with Num := ((ids.getD (i + 1) default).Num + 1) % 2 ^ 64 } g2
    have hne : after.getD (i + 1) default ≠ ids.getD (i + 1) default := by
      rw [← hafter, hval]
      intro c
      have := congrArg Identifier.Num c
      simp only at this
      omega
    have hm := hlt (i + 1) hne
    rw [← hafter]
    apply identifiers_compare_set_greater ids (i + 1) _ g2
    have e : ((ids.getD (i + 1) default).Num + 1) % 2 ^ 64 = (ids.getD (i + 1) default).Num + 1 :=
      Nat.mod_eq_of_lt (by omega)
    rw [e]
    simp only [Identifier.Compare, g3.2, Bool.not_true, Bool.and_false, Bool.false_and,
      Bool.and_self, Bool.false_eq_true, if_false, if_true]
    rw [if_neg (by omega), if_pos (by omega)]

/-- Incrementing `a` in a.12.b.c.3.d.e gives a.13.b.c.3.d.e, which compares
`1` with a.12.b.c.3.d.e. -/
theorem increment_raises_precedence_witness :
    mapViewExample.Increment (ascii "a") =
      ([{ Str := ascii "a" }, { Num := 13, IsNum := true }, { Str := ascii "b" },
        { Str := ascii "c" }, { Num := 3, IsNum := true }, { Str := ascii "d" },
        { Str := ascii "e" }], 13, true) ∧
    Identifiers.Compare
      [{ Str := ascii "a" }, { Num := 13, IsNum := true }, { Str := ascii "b" },
        { Str := ascii "c" }, { Num := 3, IsNum := true }, { Str := ascii "d" },
        { Str := ascii "e" }] mapViewExample = 1 :=
  ⟨by decide,
    increment_raises_precedence mapViewExample _ (ascii "a") 13 (by decide) (by
      intro i hi
      by_cases h7 : i < 7
      · interval_cases i <;> first | (exact absurd rfl hi) | decide
      · exact absurd (by
          rw [List.getD_eq_default _ _ (by simpa using h7),
            List.getD_eq_default _ _ (by simpa [mapViewExample] using h7)]) hi)⟩

/-! ## Well-formed versions -/

theorem forall₂_map_string (strict : Bool) :
    ∀ (ids : Identifiers), (∀ id ∈ ids, newIdentifier id.String strict = .ok id) →
      List.Forall₂ (fun t id => newIdentifier t strict = .ok id) (ids.map Identifier.String) ids
  | [], _ => List.Forall₂.nil
  | id :: rest, h =>
    List.Forall₂.cons (h id (by simp))
      (forall₂_map_string strict rest (fun x hx => h x (by simp [hx])))

theorem forall₂_newIdentifier_reparse (strict : Bool) (toks : List Bytes) (ids : Identifiers)
    (h : List.Forall₂ (fun t id => newIdentifier t strict = .ok id) toks ids) :
    ∀ id ∈ ids, newIdentifier id.String strict = .ok id := by
  induction h with
  | nil => simp
  | cons hd _ ih =>
    intro id hid
    rcases List.mem_cons.1 hid with e | hm
    · subst e
      rw [newIdentifier_string _ strict _ hd]
      exact hd
    · exact ih id hm

/-- What `NewVersion` returns is well formed. -/
theorem newVersion_wellFormed (s : Bytes) (v : Version) (h : NewVersion s = .ok v) :
    v.WellFormed := by
  obtain ⟨p0, p1, p2, _, g0, g1, g2, g3, g4⟩ := (newVersion_ok_iff s v).1 h
  obtain ⟨_, _, _, _, m0⟩ := (checkNumber_ok_iff _ _ _ _).1 g0
  obtain ⟨_, _, _, _, m1⟩ := (checkNumber_ok_iff _ _ _ _).1 g1
  obtain ⟨_, _, _, _, m2⟩ := (checkNumber_ok_iff _ _ _ _).1 g2
  obtain ⟨pre, hpre, fpre⟩ := (appendIdentifiers_ok_iff _ _ _ _).1 g3
  obtain ⟨md, hmd, fmd⟩ := (appendIdentifiers_ok_iff _ _ _ _).1 g4
  rw [List.nil_append] at hpre hmd
  refine ⟨m0, m1, m2, ?_, ?_⟩
  · rw [hpre]; exact forall₂_newIdentifier_reparse _ _ _ fpre
  · rw [hmd]; exact forall₂_newIdentifier_reparse _ _ _ fmd

/-- Formatting is a right inverse of parsing on well-formed versions. -/
theorem newVersion_string_of_wellFormed (v : Version) (h : v.WellFormed) :
    NewVersion v.String = .ok v := by
  obtain ⟨hM, hm, hp, hpre, hmd⟩ := h
  have dM := digit_not_special _ (formatUint_spec v.Major).2.1
  have dm := digit_not_special _ (formatUint_spec v.Minor).2.1
  have dp := digit_not_special _ (formatUint_spec v.Patch).2.1
  rw [version_string_eq, newVersion_compose_iff _ _ _ _ _ dM.2.2 dm.2.2 dp.1 dp.2.1]
  · refine ⟨checkNumber_formatUint _ hM _ _, checkNumber_formatUint _ hm _ _,
      checkNumber_formatUint _ hp _ _, ?_, ?_⟩
    · rw [appendIdentifiers_ok_iff]
      exact ⟨v.PreRelease, by simp, forall₂_map_string true _ hpre⟩
    · rw [appendIdentifiers_ok_iff]
      exact ⟨v.Metadata, by simp, forall₂_map_string false _ hmd⟩
  · intro t ht
    obtain ⟨id, hid, e⟩ := List.mem_map.1 ht
    have := (newIdentifier_strict_iff t).1 ⟨id, by rw [← e]; exact hpre id hid⟩
    exact identifier_not_special t this.2.1
  · intro t ht
    obtain ⟨id, hid, e⟩ := List.mem_map.1 ht
    have := (newIdentifier_lenient_iff t).1 ⟨id, by rw [← e]; exact hmd id hid⟩
    exact (identifier_not_special t this.2.1).2

theorem incrementMajor_wellFormed (v : Version) : v.IncrementMajor.WellFormed := by
  refine ⟨?_, Nat.zero_le _, Nat.zero_le _, by simp [Version.IncrementMajor],
    by simp [Version.IncrementMajor]⟩
  have : (v.Major + 1) % 2 ^ 64 < 2 ^ 64 := Nat.mod_lt _ (by norm_num)
  simp only [Version.IncrementMajor, maxUint64]
  omega

theorem incrementMinor_wellFormed (v : Version) (h : v.WellFormed) :
    v.IncrementMinor.WellFormed := by
  refine ⟨h.1, ?_, Nat.zero_le _, by simp [Version.IncrementMinor],
    by simp [Version.IncrementMinor]⟩
  have : (v.Minor + 1) % 2 ^ 64 < 2 ^ 64 := Nat.mod_lt _ (by norm_num)
  simp only [Version.IncrementMinor, maxUint64]
  omega

theorem incrementPatch_wellFormed (v : Version) (h : v.WellFormed) :
    v.IncrementPatch.WellFormed := by
  refine ⟨h.1, h.2.1, ?_, by simp [Version.IncrementPatch],
    by simp [Version.IncrementPatch]⟩
  have : (v.Patch + 1) % 2 ^ 64 < 2 ^ 64 := Nat.mod_lt _ (by norm_num)
  simp only [Version.IncrementPatch, maxUint64]
  omega

theorem constructed_wellFormed (v : Version) (h : Constructed v) : v.WellFormed := by
  induction h with
  | parsed s v h => exact newVersion_wellFormed s v h
  | incrementMajor v _ _ => exact incrementMajor_wellFormed v
  | incrementMinor v _ ih => exact incrementMinor_wellFormed v ih
  | incrementPatch v _ ih => exact incrementPatch_wellFormed v ih

/-- C33: formatting is a right inverse of parsing on constructed values: for
every version `NewVersion` returns, and every version obtained from one by
`IncrementMajor`, `IncrementMinor` and `IncrementPatch`, `NewVersion` accepts
the version's `String` and returns the version itself, equal in all five
fields; so two constructed versions with the same `String` are equal. -/
theorem format_then_parse (v : Version) (h : Constructed v) :
    NewVersion v.String = .ok v ∧
      ∀ w, Constructed w → v.String = w.String → v = w := by
  have hv := newVersion_string_of_wellFormed v (constructed_wellFormed v h)
  refine ⟨hv, ?_⟩
  intro w hw e
  have hw2 := newVersion_string_of_wellFormed w (constructed_wellFormed w hw)
  rw [e, hw2] at hv
  injection hv with hv
  exact hv.symm

/-- The minor increment of the patch increment of the version parsed from
1.2.3-alpha.0+build.012 is 1.3.0, whose string parses to it again. -/
theorem format_then_parse_witness :
    Constructed { Major := 1, Minor := 3, Patch := 0 } ∧
    NewVersion (ascii "1.3.0") = .ok { Major := 1, Minor := 3, Patch := 0 } :=
  ⟨.incrementMinor _ (.incrementPatch _ (.parsed (ascii "1.2.3-alpha.0+build.012") _ rfl)),
    (format_then_parse { Major := 1, Minor := 3, Patch := 0 }
      (.incrementMinor _
        (.incrementPatch _ (.parsed (ascii "1.2.3-alpha.0+build.012") _ rfl)))).1⟩

/-! ## `Scan` and `Value` -/

/-- The string of a parsed version is the string it was parsed from. -/
theorem string_of_newVersion (s : Bytes) (v : Version) (h : NewVersion s = .ok v) :
    v.String = s := by
  obtain ⟨p0, p1, p2, hsp, g0, g1, g2, g3, g4⟩ := (newVersion_ok_iff s v).1 h
  obtain ⟨hs, _, _⟩ := (splitN_three s p0 p1 p2).1 hsp
  obtain ⟨a0, b0, c0, d0, _⟩ := (checkNumber_ok_iff _ _ _ _).1 g0
  obtain ⟨a1, b1, c1, d1, _⟩ := (checkNumber_ok_iff _ _ _ _).1 g1
  obtain ⟨a2, b2, c2, d2, _⟩ := (checkNumber_ok_iff _ _ _ _).1 g2
  obtain ⟨pre, hpre, fpre⟩ := (appendIdentifiers_ok_iff _ _ _ _).1 g3
  obtain ⟨md, hmd, fmd⟩ := (appendIdentifiers_ok_iff _ _ _ _).1 g4
  rw [version_string_eq, d0, d1, d2, formatUint_decimalValue _ a0 b0 c0,
    formatUint_decimalValue _ a1 b1 c1, formatUint_decimalValue _ a2 b2 c2, hpre, hmd,
    List.nil_append, List.nil_append, forall₂_newIdentifier_string _ _ _ fpre,
    forall₂_newIdentifier_string _ _ _ fmd, hs]
  conv_rhs => rw [splitPatch_join p2]
  simp

theorem newVersion_of_set (s : Bytes) (h : (Version.Set {} s).2 = none) :
    NewVersion s = .ok (Version.Set {} s).1 := by
  unfold NewVersion
  cases e : Version.Set { PreRelease := [], Metadata := [] } s with
  | mk v err =>
    have e2 : Version.Set {} s = (v, err) := e
    rw [e2] at h
    simp only at h
    subst h
    rfl

theorem scan_text (s : Bytes) (src : Any) (hs : src = .string s ∨ src = .bytes s) :
    Version.Scan {} src = ((Version.Set {} s).1, (Version.Set {} s).2.map .set) := by
  rcases hs with rfl | rfl <;> rfl

/-- C32: `Scan` on a fresh version succeeds exactly when the source is a
string or a byte sequence whose text `Set` accepts, and fails for a source of
every other type, an integer, a float and a boolean among them; after a
successful `Scan` of the text `s`, `Value` returns the string `s` and a nil
error. -/
theorem scan_then_value (src : Any) :
    ((Version.Scan {} src).2 = none ↔
        ∃ s, (src = .string s ∨ src = .bytes s) ∧ (Version.Set {} s).2 = none) ∧
      (∀ n, (Version.Scan {} (.int n)).2 = some (.cannotConvert (ascii "int"))) ∧
      (∀ x, (Version.Scan {} (.float64 x)).2 = some (.cannotConvert (ascii "float64"))) ∧
      (∀ b, (Version.Scan {} (.bool b)).2 = some (.cannotConvert (ascii "bool"))) ∧
      (∀ t, (Version.Scan {} (.other t)).2 = some (.cannotConvert t)) ∧
      (∀ s, (src = .string s ∨ src = .bytes s) → (Version.Scan {} src).2 = none →
        (Version.Scan {} src).1.Value = (.string s, none)) := by
  refine ⟨?_, fun _ => rfl, fun _ => rfl, fun _ => rfl, fun _ => rfl, ?_⟩
  · constructor
    · intro h
      cases src with
      | string s =>
        refine ⟨s, Or.inl rfl, ?_⟩
        rw [scan_text s _ (Or.inl rfl)] at h
        simpa using h
      | bytes b =>
        refine ⟨b, Or.inr rfl, ?_⟩
        rw [scan_text b _ (Or.inr rfl)] at h
        simpa using h
      | int n => cases h
      | float64 x => cases h
      | bool b => cases h
      | other t => cases h
    · rintro ⟨s, hs, h⟩
      rw [scan_text s src hs, h]
      rfl
  · intro s hs h
    rw [scan_text s src hs] at h ⊢
    have hset : (Version.Set {} s).2 = none := by simpa using h
    simp only [Version.Value]
    rw [string_of_newVersion s _ (newVersion_of_set s hset)]

/-- The vectors of the package's test: the string and the bytes
1.2.3-alpha.0+build.012 are scanned and `Value` gives the string back; the
integer 7, the float 7e4 and `true` are refused. -/
theorem scan_then_value_witness :
    (Version.Scan {} (.string (ascii "1.2.3-alpha.0+build.012"))).2 = none ∧
    (Version.Scan {} (.string (ascii "1.2.3-alpha.0+build.012"))).1.Value =
      (.string (ascii "1.2.3-alpha.0+build.012"), none) ∧
    (Version.Scan {} (.bytes (ascii "1.2.3-alpha.0+build.012"))).1.Value =
      (.string (ascii "1.2.3-alpha.0+build.012"), none) ∧
    (Version.Scan {} (.int 7)).2 = some (.cannotConvert (ascii "int")) ∧
    (Version.Scan {} (.float64 4679546776582094848)).2 =
      some (.cannotConvert (ascii "float64")) ∧
    (Version.Scan {} (.bool true)).2 = some (.cannotConvert (ascii "bool")) :=
  ⟨by decide,
    (scan_then_value (.string (ascii "1.2.3-alpha.0+build.012"))).2.2.2.2.2 _
      (Or.inl rfl) (by decide),
    (scan_then_value (.bytes (ascii "1.2.3-alpha.0+build.012"))).2.2.2.2.2 _
      (Or.inr rfl) (by decide),
    (scan_then_value (.int 7)).2.1 7,
    (scan_then_value (.int 7)).2.2.1 4679546776582094848,
    (scan_then_value (.int 7)).2.2.2.1 true⟩

/-! ## Versions that compare equal -/

/-- An identifier the strict `newIdentifier` makes of its own string has its
unused fields zero: no text when numeric, no number when text. -/
theorem reparse_canonical (id : Identifier) (strict : Bool)
    (h : newIdentifier id.String strict = .ok id) :
    (id.IsNum = true → id.Str = []) ∧ (id.IsNum = false → id.Num = 0) := by
  obtain ⟨_, h | h | h⟩ := (newIdentifier_ok_iff _ _ _).1 h
  · rw [h.2.2.2]; simp
  · rw [h.2.2.2]; simp
  · rw [h.2.2]; simp

theorem identifier_compare_zero (a b : Identifier)
    (ha : (a.IsNum = true → a.Str = []) ∧ (a.IsNum = false → a.Num = 0))
    (hb : (b.IsNum = true → b.Str = []) ∧ (b.IsNum = false → b.Num = 0))
    (h : a.Compare b = 0) : a = b := by
  obtain ⟨as, an, ai⟩ := a
  obtain ⟨bs, bn, bi⟩ := b
  simp only at ha hb
  unfold Identifier.Compare at h
  simp only at h
  cases ai <;> cases bi <;> simp at h ha hb
  · have e : as = bs := by
      by_contra c
      have := h c
      split_ifs at this
      exact absurd this (by decide)
    subst e
    rw [ha, hb]
  · have e : an = bn := by
      by_contra c
      have := h c
      split_ifs at this
      exact absurd this (by decide)
    subst e
    rw [ha, hb]

theorem lexCompare_zero :
    ∀ (a b : Identifiers),
      (∀ id ∈ a, (id.IsNum = true → id.Str = []) ∧ (id.IsNum = false → id.Num = 0)) →
      (∀ id ∈ b, (id.IsNum = true → id.Str = []) ∧ (id.IsNum = false → id.Num = 0)) →
      lexCompare a b = 0 → a = b
  | [], [], _, _, _ => rfl
  | [], _ :: _, _, _, h => by simp [lexCompare] at h
  | _ :: _, [], _, _, h => by simp [lexCompare] at h
  | x :: xs, y :: ys, ha, hb, h => by
    simp only [lexCompare] at h
    split_ifs at h with h1 h2
    · rw [identifier_compare_zero x y (ha x (by simp)) (hb y (by simp)) h1,
        lexCompare_zero xs ys (fun i hi => ha i (by simp [hi]))
          (fun i hi => hb i (by simp [hi])) h]
    · omega

theorem identifiers_compare_zero (a b : Identifiers)
    (ha : ∀ id ∈ a, (id.IsNum = true → id.Str = []) ∧ (id.IsNum = false → id.Num = 0))
    (hb : ∀ id ∈ b, (id.IsNum = true → id.Str = []) ∧ (id.IsNum = false → id.Num = 0))
    (h : Identifiers.Compare a b = 0) : a = b := by
  rw [identifiers_compare_eq] at h
  cases a with
  | nil =>
    cases b with
    | nil => rfl
    | cons y ys => simp at h
  | cons x xs =>
    cases b with
    | nil => simp at h
    | cons y ys => exact lexCompare_zero _ _ ha hb h

theorem version_compare_zero_iff (v w : Version) (hv : v.WellFormed) (hw : w.WellFormed) :
    v.Compare w = 0 ↔
      v.Major = w.Major ∧ v.Minor = w.Minor ∧ v.Patch = w.Patch ∧
        v.PreRelease = w.PreRelease := by
  constructor
  · intro h
    rcases version_compare_cases v w with ⟨_, c⟩ | ⟨_, c⟩ | ⟨⟨e1, e2, e3⟩, c⟩
    · rw [c] at h; cases h
    · rw [c] at h; cases h
    · rw [c] at h
      exact ⟨e1, e2, e3, identifiers_compare_zero _ _
        (fun id hid => reparse_canonical id true (hv.2.2.2.1 id hid))
        (fun id hid => reparse_canonical id true (hw.2.2.2.1 id hid)) h⟩
  · rintro ⟨e1, e2, e3, e4⟩
    rcases version_compare_cases v w with ⟨c, _⟩ | ⟨c, _⟩ | ⟨_, c⟩
    · omega
    · omega
    · rw [c, e4]
      exact identifiers_compare_self _

theorem takeWhile_ne_append (c : Nat) (base rest : Bytes) (h : c ∉ base) :
    (base ++ c :: rest).takeWhile (fun x => x ≠ c) = base ∧
      base.takeWhile (fun x => x ≠ c) = base := by
  induction base with
  | nil => simp [List.takeWhile]
  | cons b bs ih =>
    have hb : b ≠ c := fun e => h (by simp [e])
    have ih2 := ih (fun hm => h (by simp [hm]))
    simp only [List.cons_append, List.takeWhile_cons, hb, ne_eq, not_false_eq_true,
      decide_True, if_true]
    exact ⟨by rw [ih2.1], by rw [ih2.2]⟩

/-- The string of a well-formed version without its build-metadata suffix is
the string of the version without its build metadata. -/
theorem stripMetadata_string (v : Version) (h : v.WellFormed) :
    stripMetadata v.String = ({ v with Metadata := [] } : Version).String := by
  have dM := digit_not_special _ (formatUint_spec v.Major).2.1
  have dm := digit_not_special _ (formatUint_spec v.Minor).2.1
  have dp := digit_not_special _ (formatUint_spec v.Patch).2.1
  have hbase : 43 ∉ FormatUint v.Major ++ [46] ++ FormatUint v.Minor ++ [46] ++
      FormatUint v.Patch ++ segment 45 (v.PreRelease.map Identifier.String) := by
    intro hm
    simp only [List.mem_append, List.mem_singleton] at hm
    rcases hm with ((((hm | hm) | hm) | hm) | hm) | hm
    · exact dM.1 hm
    · omega
    · exact dm.1 hm
    · omega
    · exact dp.1 hm
    · rcases mem_segment _ _ _ hm with e | e | ⟨t, ht, hc⟩
      · omega
      · omega
      · obtain ⟨id, hid, e⟩ := List.mem_map.1 ht
        have := (newIdentifier_strict_iff t).1 ⟨id, by rw [← e]; exact h.2.2.2.1 id hid⟩
        exact (identifier_not_special t this.2.1).1 hc
  rw [version_string_eq, version_string_eq]
  simp only [List.map_nil]
  rw [show segment 43 ([] : List Bytes) = [] from rfl, List.append_nil]
  unfold stripMetadata
  cases hmd : v.Metadata.map Identifier.String with
  | nil =>
    rw [show segment 43 ([] : List Bytes) = [] from rfl, List.append_nil]
    exact (takeWhile_ne_append 43 _ [] hbase).2
  | cons t ts =>
    exact (takeWhile_ne_append 43 _ _ hbase).1

/-- C34: two versions `NewVersion` returned compare `0` exactly when their
`Major`, `Minor` and `Patch` are equal and their `PreRelease` sequences are
identical, same length and same identifier at every position, that is exactly
when their `String` outputs agree once the `+` build-metadata suffix is
removed. -/
theorem compare_zero_iff_same_precedence (s t : Bytes) (v w : Version)
    (hv : NewVersion s = .ok v) (hw : NewVersion t = .ok w) :
    (v.Compare w = 0 ↔
        v.Major = w.Major ∧ v.Minor = w.Minor ∧ v.Patch = w.Patch ∧
          v.PreRelease = w.PreRelease) ∧
      (v.Compare w = 0 ↔ stripMetadata v.String = stripMetadata w.String) ∧
      (v.Compare w = 0 ↔ stripMetadata s = stripMetadata t) := by
  have wv := newVersion_wellFormed s v hv
  have ww := newVersion_wellFormed t w hw
  have h1 := version_compare_zero_iff v w wv ww
  have wv2 : ({ v with Metadata := [] } : Version).WellFormed :=
    ⟨wv.1, wv.2.1, wv.2.2.1, wv.2.2.2.1, by simp⟩
  have ww2 : ({ w with Metadata := [] } : Version).WellFormed :=
    ⟨ww.1, ww.2.1, ww.2.2.1, ww.2.2.2.1, by simp⟩
  have h2 : v.Compare w = 0 ↔ stripMetadata v.String = stripMetadata w.String := by
    rw [h1, stripMetadata_string v wv, stripMetadata_string w ww]
    constructor
    · rintro ⟨e1, e2, e3, e4⟩
      rw [e1, e2, e3, e4]
    · intro e
      have p1 := newVersion_string_of_wellFormed _ wv2
      have p2 := newVersion_string_of_wellFormed _ ww2
      rw [e, p2] at p1
      injection p1 with p1
      have q1 := congrArg Version.Major p1
      have q2 := congrArg Version.Minor p1
      have q3 := congrArg Version.Patch p1
      have q4 := congrArg Version.PreRelease p1
      exact ⟨q1.symm, q2.symm, q3.symm, q4.symm⟩
  refine ⟨h1, h2, ?_⟩
  rw [h2, string_of_newVersion s v hv, string_of_newVersion t w hw]

/-- The versions 1.2.3-alpha.1+build.7 and 1.2.3-alpha.1+x compare `0`: they
differ in build metadata only. -/
theorem compare_zero_iff_same_precedence_witness :
    NewVersion (ascii "1.2.3-alpha.1+build.7") =
      .ok { Major := 1, Minor := 2, Patch := 3,
            PreRelease := [{ Str := ascii "alpha" }, { Num := 1, IsNum := true }],
            Metadata := [{ Str := ascii "build" }, { Num := 7, IsNum := true }] } ∧
    NewVersion (ascii "1.2.3-alpha.1+x") =
      .ok { Major := 1, Minor := 2, Patch := 3,
            PreRelease := [{ Str := ascii "alpha" }, { Num := 1, IsNum := true }],
            Metadata := [{ Str := ascii "x" }] } ∧
    stripMetadata (ascii "1.2.3-alpha.1+build.7") = stripMetadata (ascii "1.2.3-alpha.1+x") ∧
    Version.Compare
      { Major := 1, Minor := 2, Patch := 3,
        PreRelease := [{ Str := ascii "alpha" }, { Num := 1, IsNum := true }],
        Metadata := [{ Str := ascii "build" }, { Num := 7, IsNum := true }] }
      { Major := 1, Minor := 2, Patch := 3,
        PreRelease := [{ Str := ascii "alpha" }, { Num := 1, IsNum := true }],
        Metadata := [{ Str := ascii "x" }] } = 0 :=
  ⟨rfl, rfl, by decide,
    (compare_zero_iff_same_precedence (ascii "1.2.3-alpha.1+build.7") (ascii "1.2.3-alpha.1+x")
      _ _ rfl rfl).2.2.2 (by decide)⟩

end Semver
